import Mathlib

/-! # cmd/compile/internal/ssa: the `mergeload` pass

A shallow embedding of `src/cmd/compile/internal/ssa/mergeload.go`.

Go values and blocks are heap objects reached through pointers and mutated in
place.  The embedding keeps that: a `Func` carries two heaps (`valueAt`,
`blockAt`) indexed by pointers, and every mutation is an explicit update of a
heap.  Code that can stop with a run-time panic or with `f.Fatalf` returns in
`Except Err`.
-/

namespace MergeLoad

/-! ## Data model -/

/-- Modelled from the spec: the closed enumeration `Op` of operations (its
declaration, opGen.go, is not among the sources), with the members that
`mergeload.go` names; `OpOther n` stands for every other member.  `OpInvalid`,
the invalid/retired marker, is the zero value of the Go type, which a map
lookup returns for a key that is absent. -/
inductive Op where
  | OpInvalid
  | OpVarDef
  | OpSelect0
  | OpSelect1
  | OpAMD64SETL
  | OpAMD64SETG
  | OpAMD64SETB
  | OpAMD64SETA
  | OpAMD64SETLE
  | OpAMD64SETGE
  | OpAMD64SETBE
  | OpAMD64SETAE
  | OpAMD64SETEQ
  | OpAMD64SETNE
  | OpAMD64SETLstore
  | OpAMD64SETGstore
  | OpAMD64SETBstore
  | OpAMD64SETAstore
  | OpAMD64SETLEstore
  | OpAMD64SETGEstore
  | OpAMD64SETBEstore
  | OpAMD64SETAEstore
  | OpAMD64SETEQstore
  | OpAMD64SETNEstore
  | OpAMD64CMOVQEQ
  | OpAMD64CMOVQNE
  | OpAMD64CMOVQLT
  | OpAMD64CMOVQGT
  | OpAMD64CMOVQLE
  | OpAMD64CMOVQGE
  | OpAMD64CMOVQHI
  | OpAMD64CMOVQCS
  | OpAMD64CMOVQCC
  | OpAMD64CMOVQLS
  | OpAMD64CMOVLEQ
  | OpAMD64CMOVLNE
  | OpAMD64CMOVLLT
  | OpAMD64CMOVLGT
  | OpAMD64CMOVLLE
  | OpAMD64CMOVLGE
  | OpAMD64CMOVLHI
  | OpAMD64CMOVLCS
  | OpAMD64CMOVLCC
  | OpAMD64CMOVLLS
  | OpAMD64CMOVWEQ
  | OpAMD64CMOVWNE
  | OpAMD64CMOVWLT
  | OpAMD64CMOVWGT
  | OpAMD64CMOVWLE
  | OpAMD64CMOVWGE
  | OpAMD64CMOVWHI
  | OpAMD64CMOVWCS
  | OpAMD64CMOVWCC
  | OpAMD64CMOVWLS
  | OpOther (n : Nat)


/-- A numbering of the operations, used only to decide equality. -/
def Op.code : Op → Nat
  | .OpInvalid => 0
  | .OpVarDef => 1
  | .OpSelect0 => 2
  | .OpSelect1 => 3
  | .OpAMD64SETL => 4
  | .OpAMD64SETG => 5
  | .OpAMD64SETB => 6
  | .OpAMD64SETA => 7
  | .OpAMD64SETLE => 8
  | .OpAMD64SETGE => 9
  | .OpAMD64SETBE => 10
  | .OpAMD64SETAE => 11
  | .OpAMD64SETEQ => 12
  | .OpAMD64SETNE => 13
  | .OpAMD64SETLstore => 14
  | .OpAMD64SETGstore => 15
  | .OpAMD64SETBstore => 16
  | .OpAMD64SETAstore => 17
  | .OpAMD64SETLEstore => 18
  | .OpAMD64SETGEstore => 19
  | .OpAMD64SETBEstore => 20
  | .OpAMD64SETAEstore => 21
  | .OpAMD64SETEQstore => 22
  | .OpAMD64SETNEstore => 23
  | .OpAMD64CMOVQEQ => 24
  | .OpAMD64CMOVQNE => 25
  | .OpAMD64CMOVQLT => 26
  | .OpAMD64CMOVQGT => 27
  | .OpAMD64CMOVQLE => 28
  | .OpAMD64CMOVQGE => 29
  | .OpAMD64CMOVQHI => 30
  | .OpAMD64CMOVQCS => 31
  | .OpAMD64CMOVQCC => 32
  | .OpAMD64CMOVQLS => 33
  | .OpAMD64CMOVLEQ => 34
  | .OpAMD64CMOVLNE => 35
  | .OpAMD64CMOVLLT => 36
  | .OpAMD64CMOVLGT => 37
  | .OpAMD64CMOVLLE => 38
  | .OpAMD64CMOVLGE => 39
  | .OpAMD64CMOVLHI => 40
  | .OpAMD64CMOVLCS => 41
  | .OpAMD64CMOVLCC => 42
  | .OpAMD64CMOVLLS => 43
  | .OpAMD64CMOVWEQ => 44
  | .OpAMD64CMOVWNE => 45
  | .OpAMD64CMOVWLT => 46
  | .OpAMD64CMOVWGT => 47
  | .OpAMD64CMOVWLE => 48
  | .OpAMD64CMOVWGE => 49
  | .OpAMD64CMOVWHI => 50
  | .OpAMD64CMOVWCS => 51
  | .OpAMD64CMOVWCC => 52
  | .OpAMD64CMOVWLS => 53
  | .OpOther n => 54 + n

/-- The named operations, in the order of their numbers. -/
def Op.named : List Op :=
  [.OpInvalid,
    .OpVarDef,
    .OpSelect0,
    .OpSelect1,
    .OpAMD64SETL,
    .OpAMD64SETG,
    .OpAMD64SETB,
    .OpAMD64SETA,
    .OpAMD64SETLE,
    .OpAMD64SETGE,
    .OpAMD64SETBE,
    .OpAMD64SETAE,
    .OpAMD64SETEQ,
    .OpAMD64SETNE,
    .OpAMD64SETLstore,
    .OpAMD64SETGstore,
    .OpAMD64SETBstore,
    .OpAMD64SETAstore,
    .OpAMD64SETLEstore,
    .OpAMD64SETGEstore,
    .OpAMD64SETBEstore,
    .OpAMD64SETAEstore,
    .OpAMD64SETEQstore,
    .OpAMD64SETNEstore,
    .OpAMD64CMOVQEQ,
    .OpAMD64CMOVQNE,
    .OpAMD64CMOVQLT,
    .OpAMD64CMOVQGT,
    .OpAMD64CMOVQLE,
    .OpAMD64CMOVQGE,
    .OpAMD64CMOVQHI,
    .OpAMD64CMOVQCS,
    .OpAMD64CMOVQCC,
    .OpAMD64CMOVQLS,
    .OpAMD64CMOVLEQ,
    .OpAMD64CMOVLNE,
    .OpAMD64CMOVLLT,
    .OpAMD64CMOVLGT,
    .OpAMD64CMOVLLE,
    .OpAMD64CMOVLGE,
    .OpAMD64CMOVLHI,
    .OpAMD64CMOVLCS,
    .OpAMD64CMOVLCC,
    .OpAMD64CMOVLLS,
    .OpAMD64CMOVWEQ,
    .OpAMD64CMOVWNE,
    .OpAMD64CMOVWLT,
    .OpAMD64CMOVWGT,
    .OpAMD64CMOVWLE,
    .OpAMD64CMOVWGE,
    .OpAMD64CMOVWHI,
    .OpAMD64CMOVWCS,
    .OpAMD64CMOVWCC,
    .OpAMD64CMOVWLS]

/-- The operation with a given number. -/
def Op.ofCode (n : Nat) : Op :=
  match Op.named[n]? with
  | some op => op
  | none => .OpOther (n - 54)

instance instDecidableEqOp : DecidableEq Op := fun a b =>
  if h : a.code = b.code then
    isTrue (by
      have key : ∀ x : Op, Op.ofCode x.code = x := by
        intro x
        cases x with
        | OpOther n =>
          have hlen : Op.named.length = 54 := rfl
          have hnone : Op.named[54 + n]? = none :=
            List.getElem?_eq_none (by rw [hlen]; omega)
          simp only [Op.ofCode, Op.code, hnone, Nat.add_sub_cancel_left]
        | _ => rfl
      rw [← key a, ← key b, h])
  else
    isFalse (fun hab => h (by rw [hab]))

/-- Modelled from the spec: the closed enumeration `BlockKind` (opGen.go is not
among the sources), with the kinds that `mergeload.go` names; `BlockOther n`
stands for every other kind.  `BlockInvalid` is the zero value of the Go type. -/
inductive BlockKind where
  | BlockInvalid
  | BlockAMD64EQ
  | BlockAMD64NE
  | BlockAMD64LT
  | BlockAMD64LE
  | BlockAMD64GT
  | BlockAMD64GE
  | BlockAMD64ULT
  | BlockAMD64ULE
  | BlockAMD64UGT
  | BlockAMD64UGE
  | BlockOther (n : Nat)
  deriving DecidableEq

open Op BlockKind

/-- Pointer to a `Value` (`*Value`). -/
abbrev VPtr := Nat

/-- Pointer to a `Block` (`*Block`). -/
abbrev BPtr := Nat

/-- Go `ID` (an `int32`); identities are only compared, never computed with. -/
abbrev ID := Int

/-- The `Aux` field, an `interface{}`: nil or the identity of the object held. -/
abbrev Aux := Option Nat

/-- Modelled from the spec: the type of a value (package `types` is not among
the sources), reduced to the flag the pass reads, `Type.IsMemory()`. -/
structure SsaType where
  IsMemory : Bool
  deriving DecidableEq

/-- Modelled from the spec: the struct `Value` (value.go is not among the
sources), with the fields read or written by the pass.  `Uses` is an `int32`
that is only compared with 1 and stepped by one. -/
structure Value where
  ID : ID
  Op : Op
  Typ : SsaType
  Aux : Aux
  Args : List VPtr
  Block : BPtr
  Uses : Int
  deriving DecidableEq

/-- Modelled from the spec: the struct `Block` (block.go is not among the
sources), with the fields read or written by the pass. -/
structure Block where
  ID : ID
  Kind : BlockKind
  Control : Option VPtr
  Values : List VPtr
  deriving DecidableEq

/-- The struct `mergeLoadState`; the sparse set `invert` (sparseset.go is not
among the sources) is held as the list of its members. -/
structure mergeLoadState where
  invert : List ID
  deriving DecidableEq

/-- Modelled from the spec: the struct `Func` (func.go is not among the
sources) together with the heaps its pointers refer to.  `freeValues` is the
function's pool of freed values, most recently freed first. -/
structure Func where
  Blocks : List BPtr
  blockAt : BPtr → Block
  valueAt : VPtr → Value
  mergeLoadState : Option mergeLoadState
  freeValues : List VPtr

/-- Ways in which the Go code stops without returning. -/
inductive Err where
  | fatal (msg : String)
  | indexOutOfRange
  | nilDereference
  deriving DecidableEq

instance instDecidableEqExcept {ε α : Type} [DecidableEq ε] [DecidableEq α] :
    DecidableEq (Except ε α)
  | .ok a, .ok b =>
    if h : a = b then isTrue (by rw [h]) else isFalse (by intro q; cases q; exact h rfl)
  | .error a, .error b =>
    if h : a = b then isTrue (by rw [h]) else isFalse (by intro q; cases q; exact h rfl)
  | .ok _, .error _ => isFalse (by intro q; cases q)
  | .error _, .ok _ => isFalse (by intro q; cases q)

/-- Store `x` at pointer `p` of the value heap. -/
def Func.setValue (f : Func) (p : VPtr) (x : Value) : Func :=
  { f with valueAt := fun q => if q = p then x else f.valueAt q }

/-- Store `x` at pointer `p` of the block heap. -/
def Func.setBlock (f : Func) (p : BPtr) (x : Block) : Func :=
  { f with blockAt := fun q => if q = p then x else f.blockAt q }

/-! ## canMergeLoadLate -/

/-- The loop `for ; b.Values[i] != load; i++ {}` of `canMergeLoadLate`.  The
list is `b.Values[i:]`; indexing past the end panics. -/
def seekLoad (load : VPtr) : List VPtr → Nat → Except Err Nat
  | [], _ => .error .indexOutOfRange
  | w :: rest, i => if w ≠ load then seekLoad load rest (i + 1) else .ok i

/-- The loop `for ; b.Values[i] != target; i++ { ... }` of `canMergeLoadLate`.
The list is `b.Values[i:]`; indexing past the end panics. -/
def scanToTarget (f : Func) (target load : VPtr) : List VPtr → Except Err Bool
  | [] => .error .indexOutOfRange
  | v :: rest =>
    if v ≠ target then
      if (f.valueAt v).Typ.IsMemory then
        if (f.valueAt v).Op = OpVarDef ∧ (f.valueAt v).Aux ≠ (f.valueAt load).Aux then
          scanToTarget f target load rest
        else
          .ok false
      else
        scanToTarget f target load rest
    else
      .ok true

/-- The function `canMergeLoadLate(target, load)`. -/
def canMergeLoadLate (f : Func) (target load : VPtr) : Except Err Bool :=
  if (f.blockAt (f.valueAt target).Block).ID ≠ (f.blockAt (f.valueAt load).Block).ID then
    .ok false
  else if (f.valueAt load).Uses ≠ 1 then
    .ok false
  else
    let b := f.blockAt (f.valueAt target).Block
    match seekLoad load b.Values 0 with
    | .error e => .error e
    | .ok i => scanToTarget f target load (b.Values.drop i)

/-- The function `canMergeLoadLateClobber(target, load, x)`.  `depth` is the
loop-nest oracle `loopnest.depth` after `calculateDepths`, keyed by block ID. -/
def canMergeLoadLateClobber (depth : ID → Int) (f : Func) (target load x : VPtr) :
    Except Err Bool :=
  if (f.valueAt x).Uses ≠ 1 then
    .ok false
  else if depth (f.blockAt (f.valueAt target).Block).ID >
      depth (f.blockAt (f.valueAt x).Block).ID then
    .ok false
  else
    canMergeLoadLate f target load

/-! ## Helpers of `Value` and `Func` whose code lives in other files -/

/-- Modelled from the spec: `Value.MemoryArg` (its file, value.go, is not among
the sources): the instruction's declared memory argument, which is its trailing
argument when that argument is memory-typed, and nil otherwise. -/
def MemoryArg (f : Func) (v : VPtr) : Option VPtr :=
  match (f.valueAt v).Args.getLast? with
  | none => none
  | some m => if (f.valueAt m).Typ.IsMemory then some m else none

/-- The update `p.Uses += d` (`p.Uses++`, `p.Uses--`). -/
def addUses (f : Func) (p : VPtr) (d : Int) : Func :=
  f.setValue p { f.valueAt p with Uses := (f.valueAt p).Uses + d }

/-- The update `v.Args = args`. -/
def setArgs (f : Func) (v : VPtr) (args : List VPtr) : Func :=
  f.setValue v { f.valueAt v with Args := args }

/-- Modelled from the spec: `Value.SetArg(i, w)` (value.go is not among the
sources): argument `i` of `v` becomes `w`, the replaced argument loses one use
and `w` gains one, so that use counts keep reflecting the references.  An index
outside `v.Args` panics. -/
def SetArg (f : Func) (v : VPtr) (i : Int) (w : VPtr) : Except Err Func :=
  if i < 0 then
    .error .indexOutOfRange
  else
    match (f.valueAt v).Args[i.toNat]? with
    | none => .error .indexOutOfRange
    | some old =>
      let f1 := addUses f old (-1)
      let f2 := setArgs f1 v ((f1.valueAt v).Args.set i.toNat w)
      .ok (addUses f2 w 1)

/-- Modelled from the spec: `Func.freeValue` (func.go is not among the sources):
the value is returned to the function's reuse pool. -/
def freeValue (f : Func) (v : VPtr) : Func :=
  { f with freeValues := v :: f.freeValues }

/-- The Go index expression `m[k]` on a map: the zero value when `k` is no key. -/
def mapIndex {α β : Type} [DecidableEq α] (zero : β) (m : List (α × β)) (k : α) : β :=
  match m.find? (fun e => decide (e.1 = k)) with
  | some e => e.2
  | none => zero

/-! ## Inversion tables -/

/-- The map `invertBlockKind`, as its list of entries. -/
def invertBlockKind : List (BlockKind × BlockKind) :=
  [ (BlockAMD64LT, BlockAMD64GT),
    (BlockAMD64GT, BlockAMD64LT),
    (BlockAMD64LE, BlockAMD64GE),
    (BlockAMD64GE, BlockAMD64LE),
    (BlockAMD64ULT, BlockAMD64UGT),
    (BlockAMD64UGT, BlockAMD64ULT),
    (BlockAMD64ULE, BlockAMD64UGE),
    (BlockAMD64UGE, BlockAMD64ULE),
    (BlockAMD64EQ, BlockAMD64EQ),
    (BlockAMD64NE, BlockAMD64NE) ]

/-- The map `invertValueArg0`, as its list of entries. -/
def invertValueArg0 : List (Op × Op) :=
  [ (OpAMD64SETL, OpAMD64SETG),
    (OpAMD64SETG, OpAMD64SETL),
    (OpAMD64SETB, OpAMD64SETA),
    (OpAMD64SETA, OpAMD64SETB),
    (OpAMD64SETLE, OpAMD64SETGE),
    (OpAMD64SETGE, OpAMD64SETLE),
    (OpAMD64SETBE, OpAMD64SETAE),
    (OpAMD64SETAE, OpAMD64SETBE),
    (OpAMD64SETEQ, OpAMD64SETEQ),
    (OpAMD64SETNE, OpAMD64SETNE) ]

/-- The map `invertValueArg1`, as its list of entries. -/
def invertValueArg1 : List (Op × Op) :=
  [ (OpAMD64SETLstore, OpAMD64SETGstore),
    (OpAMD64SETGstore, OpAMD64SETLstore),
    (OpAMD64SETBstore, OpAMD64SETAstore),
    (OpAMD64SETAstore, OpAMD64SETBstore),
    (OpAMD64SETLEstore, OpAMD64SETGEstore),
    (OpAMD64SETGEstore, OpAMD64SETLEstore),
    (OpAMD64SETBEstore, OpAMD64SETAEstore),
    (OpAMD64SETAEstore, OpAMD64SETBEstore),
    (OpAMD64SETEQstore, OpAMD64SETEQstore),
    (OpAMD64SETNEstore, OpAMD64SETNEstore) ]

/-- The map `invertValueArg2`, as its list of entries. -/
def invertValueArg2 : List (Op × Op) :=
  [ (OpAMD64CMOVQEQ, OpAMD64CMOVQEQ),
    (OpAMD64CMOVQNE, OpAMD64CMOVQNE),
    (OpAMD64CMOVQLT, OpAMD64CMOVQGT),
    (OpAMD64CMOVQGT, OpAMD64CMOVQLT),
    (OpAMD64CMOVQLE, OpAMD64CMOVQGE),
    (OpAMD64CMOVQGE, OpAMD64CMOVQLE),
    (OpAMD64CMOVQHI, OpAMD64CMOVQCS),
    (OpAMD64CMOVQCS, OpAMD64CMOVQHI),
    (OpAMD64CMOVQCC, OpAMD64CMOVQLS),
    (OpAMD64CMOVQLS, OpAMD64CMOVQCC),
    (OpAMD64CMOVLEQ, OpAMD64CMOVLEQ),
    (OpAMD64CMOVLNE, OpAMD64CMOVLNE),
    (OpAMD64CMOVLLT, OpAMD64CMOVLGT),
    (OpAMD64CMOVLGT, OpAMD64CMOVLLT),
    (OpAMD64CMOVLLE, OpAMD64CMOVLGE),
    (OpAMD64CMOVLGE, OpAMD64CMOVLLE),
    (OpAMD64CMOVLHI, OpAMD64CMOVLCS),
    (OpAMD64CMOVLCS, OpAMD64CMOVLHI),
    (OpAMD64CMOVLCC, OpAMD64CMOVLLS),
    (OpAMD64CMOVLLS, OpAMD64CMOVLCC),
    (OpAMD64CMOVWEQ, OpAMD64CMOVWEQ),
    (OpAMD64CMOVWNE, OpAMD64CMOVWNE),
    (OpAMD64CMOVWLT, OpAMD64CMOVWGT),
    (OpAMD64CMOVWGT, OpAMD64CMOVWLT),
    (OpAMD64CMOVWLE, OpAMD64CMOVWGE),
    (OpAMD64CMOVWGE, OpAMD64CMOVWLE),
    (OpAMD64CMOVWHI, OpAMD64CMOVWCS),
    (OpAMD64CMOVWCS, OpAMD64CMOVWHI),
    (OpAMD64CMOVWCC, OpAMD64CMOVWLS),
    (OpAMD64CMOVWLS, OpAMD64CMOVWCC) ]

/-! ## The tracking set -/

/-- The function `invertFlags(v)`: adds `v.ID` to the tracking set of the
function and returns true.  Outside the pass `f.mergeLoadState` is nil. -/
def invertFlags (f : Func) (v : VPtr) : Except Err (Func × Bool) :=
  match f.mergeLoadState with
  | none => .error .nilDereference
  | some m =>
    if m.invert.contains (f.valueAt v).ID then
      .ok (f, true)
    else
      .ok ({ f with mergeLoadState := some { invert := (f.valueAt v).ID :: m.invert } }, true)

/-- The method `(m *mergeLoadState) needsInvert(v)`. -/
def needsInvert (m : mergeLoadState) (f : Func) (v : VPtr) : Except Err Bool :=
  if m.invert.contains (f.valueAt v).ID then
    .ok true
  else if (f.valueAt v).Op = OpSelect0 ∨ (f.valueAt v).Op = OpSelect1 then
    match (f.valueAt v).Args[0]? with
    | none => .error .indexOutOfRange
    | some a => .ok (m.invert.contains (f.valueAt a).ID)
  else
    .ok false

/-- The call `f.mergeLoadState.needsInvert(v)` made by `mergeload`. -/
def Func.needsInvert (f : Func) (v : VPtr) : Except Err Bool :=
  match f.mergeLoadState with
  | none => .error .nilDereference
  | some m => MergeLoad.needsInvert m f v

/-! ## mergeload: the driver -/

/-- The text of the fatal error of the driver. -/
def aliasedMemoryMsg : String := "load moved through possibly aliased memory states"

/-- The loop `for ; i >= 0; i-- { w := b.Values[i]; ... }` that fixes up the
memory argument of `v`.  The last argument is `i + 1`, so `0` is loop exit. -/
def fixMemoryArg (f : Func) (b : BPtr) (v : VPtr) : Nat → Except Err Func
  | 0 => .ok f
  | i + 1 =>
    match (f.blockAt b).Values[i]? with
    | none => .error .indexOutOfRange
    | some w =>
      if (f.valueAt w).Typ.IsMemory then
        if some w = MemoryArg f v then
          .ok f
        else if (f.valueAt w).Op ≠ OpVarDef ∨ (f.valueAt w).Aux = (f.valueAt v).Aux then
          .error (.fatal aliasedMemoryMsg)
        else
          SetArg f v (((f.valueAt v).Args.length : Int) - 1) w
      else
        fixMemoryArg f b v i

/-- One iteration of `for i, v := range b.Values`: the body
`if f.Config.mergeValue(v) { ... }`.  The fusion predicate `mergeValue` may
mutate the function and answers whether it fused. -/
def visitValue (mergeValue : Func → VPtr → Func × Bool) (f : Func) (b : BPtr) (i : Nat)
    (v : VPtr) : Except Err Func :=
  if (mergeValue f v).2 then
    fixMemoryArg (mergeValue f v).1 b v (i + 1)
  else
    .ok (mergeValue f v).1

/-- The loop `for i, v := range b.Values` of the driver, over the values from
index `i` on.  The range expression is evaluated once, on entry. -/
def mergeValues (mergeValue : Func → VPtr → Func × Bool) (b : BPtr) :
    Func → List VPtr → Nat → Except Err Func
  | f, [], _ => .ok f
  | f, v :: rest, i =>
    match visitValue mergeValue f b i v with
    | .error e => .error e
    | .ok f1 => mergeValues mergeValue b f1 rest (i + 1)

/-- The loop `for _, b := range f.Blocks` of the driver. -/
def mergeBlocks (mergeValue : Func → VPtr → Func × Bool) : Func → List BPtr → Except Err Func
  | f, [] => .ok f
  | f, b :: rest =>
    match mergeValues mergeValue b f (f.blockAt b).Values 0 with
    | .error e => .error e
    | .ok f1 => mergeBlocks mergeValue f1 rest

/-! ## mergeload: inverting the uses of marked flags -/

/-- The guard `len(v.Args) > k && f.mergeLoadState.needsInvert(v.Args[k])`. -/
def argNeedsInvert (f : Func) (v : VPtr) (k : Nat) : Except Err Bool :=
  match (f.valueAt v).Args[k]? with
  | none => .ok false
  | some a => f.needsInvert a

/-- The assignment `v.Op = op`. -/
def setOp (f : Func) (v : VPtr) (op : Op) : Func :=
  f.setValue v { f.valueAt v with Op := op }

/-- The `switch` executed for one value `v` of the second pass. -/
def invertValue (f : Func) (v : VPtr) : Except Err Func :=
  match argNeedsInvert f v 0 with
  | .error e => .error e
  | .ok true => .ok (setOp f v (mapIndex OpInvalid invertValueArg0 (f.valueAt v).Op))
  | .ok false =>
    match argNeedsInvert f v 1 with
    | .error e => .error e
    | .ok true => .ok (setOp f v (mapIndex OpInvalid invertValueArg1 (f.valueAt v).Op))
    | .ok false =>
      match argNeedsInvert f v 2 with
      | .error e => .error e
      | .ok true => .ok (setOp f v (mapIndex OpInvalid invertValueArg2 (f.valueAt v).Op))
      | .ok false => .ok f

/-- The loop `for _, v := range b.Values` of the second pass. -/
def invertValues : Func → List VPtr → Except Err Func
  | f, [] => .ok f
  | f, v :: rest =>
    match invertValue f v with
    | .error e => .error e
    | .ok f1 => invertValues f1 rest

/-- The guard `b.Control != nil && f.mergeLoadState.needsInvert(b.Control)`. -/
def controlNeedsInvert (f : Func) (b : BPtr) : Except Err Bool :=
  match (f.blockAt b).Control with
  | none => .ok false
  | some c => f.needsInvert c

/-- The assignment `b.Kind = invertBlockKind[b.Kind]`. -/
def invertKind (f : Func) (b : BPtr) : Func :=
  f.setBlock b { f.blockAt b with Kind := mapIndex BlockInvalid invertBlockKind (f.blockAt b).Kind }

/-- The body of `for _, b := range f.Blocks` in the second pass. -/
def invertBlock (f : Func) (b : BPtr) : Except Err Func :=
  match controlNeedsInvert f b with
  | .error e => .error e
  | .ok true => invertValues (invertKind f b) ((invertKind f b).blockAt b).Values
  | .ok false => invertValues f (f.blockAt b).Values

/-- The loop `for _, b := range f.Blocks` of the second pass. -/
def invertBlocks : Func → List BPtr → Except Err Func
  | f, [] => .ok f
  | f, b :: rest =>
    match invertBlock f b with
    | .error e => .error e
    | .ok f1 => invertBlocks f1 rest

/-! ## mergeload: removing clobbered values -/

/-- The loop `for _, v := range b.Values` of the third pass, with `vv` the
slice built so far.  `vv` shares the backing array of `b.Values`, but an
element is written only at an index already read, so the values read are those
of the list on entry. -/
def compactValues : Func → List VPtr → List VPtr → Func × List VPtr
  | f, [], vv => (f, vv)
  | f, v :: rest, vv =>
    if (f.valueAt v).Op = OpInvalid then
      compactValues (freeValue f v) rest vv
    else
      compactValues f rest (vv ++ [v])

/-- The body of `for _, b := range f.Blocks` in the third pass; clearing the
tail of the backing array beyond `len(vv)` is not visible in `b.Values`. -/
def compactBlock (f : Func) (b : BPtr) : Func :=
  let r := compactValues f (f.blockAt b).Values []
  r.1.setBlock b { r.1.blockAt b with Values := r.2 }

/-- The loop `for _, b := range f.Blocks` of the third pass. -/
def compactBlocks : Func → List BPtr → Func
  | f, [] => f
  | f, b :: rest => compactBlocks (compactBlock f b) rest

/-! ## mergeload -/

/-- The function `mergeload(f)`; `mergeValue` is `f.Config.mergeValue`, nil on
architectures without a fusion predicate.  The deferred calls release the
tracking set on return. -/
def mergeload (mergeValue : Option (Func → VPtr → Func × Bool)) (f : Func) : Except Err Func :=
  match mergeValue with
  | none => .ok f
  | some mv =>
    match mergeBlocks mv { f with mergeLoadState := some { invert := [] } } f.Blocks with
    | .error e => .error e
    | .ok f1 =>
      match invertBlocks f1 f1.Blocks with
      | .error e => .error e
      | .ok f2 => .ok { compactBlocks f2 f2.Blocks with mergeLoadState := none }

/-! ## Specification vocabulary for the safety checker -/

/-- Position `i` holds the first occurrence of `x` in `vals` at or after `start`. -/
def firstAt (vals : List VPtr) (x : VPtr) (start i : Nat) : Prop :=
  start ≤ i ∧ vals[i]? = some x ∧ ∀ k, start ≤ k → k < i → vals[k]? ≠ some x

/-- A harmless scope marker with respect to `load`: an `OpVarDef` whose `Aux`
differs from the load's. -/
def harmlessMarker (f : Func) (load v : VPtr) : Prop :=
  (f.valueAt v).Op = OpVarDef ∧ (f.valueAt v).Aux ≠ (f.valueAt load).Aux

/-- The condition of `canFuseLate` in the words of the specification: same
block, one use, and every memory-typed instruction from the load's position up
to the target's, other than the load itself, is a harmless scope marker. -/
def canFuseLateSpec (f : Func) (target load : VPtr) : Prop :=
  (f.blockAt (f.valueAt target).Block).ID = (f.blockAt (f.valueAt load).Block).ID ∧
  (f.valueAt load).Uses = 1 ∧
  ∃ i j, firstAt (f.blockAt (f.valueAt target).Block).Values load 0 i ∧
    firstAt (f.blockAt (f.valueAt target).Block).Values target i j ∧
    ∀ (k : Nat) (v : VPtr), i ≤ k → k < j →
      (f.blockAt (f.valueAt target).Block).Values[k]? = some v →
      v ≠ load → (f.valueAt v).Typ.IsMemory = true → harmlessMarker f load v

/-! ## Specification vocabulary for the driver -/

/-- The first memory-typed instruction met when scanning `vals` backward from
position `i`, that position included; none when the scan reaches the start of
the block without meeting one. -/
def firstMemoryBack (f : Func) (vals : List VPtr) (i : Nat) : Option VPtr :=
  (vals.take (i + 1)).reverse.find? (fun w => (f.valueAt w).Typ.IsMemory)

/-- What the fix-up loop does once it has met the memory-typed instruction `w`. -/
def repairWith (f : Func) (v w : VPtr) : Except Err Func :=
  if some w = MemoryArg f v then
    .ok f
  else if (f.valueAt w).Op ≠ OpVarDef ∨ (f.valueAt w).Aux = (f.valueAt v).Aux then
    .error (.fatal aliasedMemoryMsg)
  else
    SetArg f v (((f.valueAt v).Args.length : Int) - 1) w

/-! ## Specification vocabulary for the second and third passes -/

/-- The operation selects one output of a multi-result instruction. -/
def isSelector (op : Op) : Prop := op = OpSelect0 ∨ op = OpSelect1

instance instDecidableIsSelector (op : Op) : Decidable (isSelector op) :=
  inferInstanceAs (Decidable (op = OpSelect0 ∨ op = OpSelect1))

/-- The instruction is retired: its `Op` is `OpInvalid`. -/
def isRetired (f : Func) (v : VPtr) : Bool := decide ((f.valueAt v).Op = OpInvalid)

/-- The instruction is kept by the third pass: its `Op` is not `OpInvalid`. -/
def isKept (f : Func) (v : VPtr) : Bool := decide ((f.valueAt v).Op ≠ OpInvalid)

/-- The values of the function in the order in which the second pass visits
them: block by block, each block's values in order. -/
def visitOrder (f : Func) : List VPtr :=
  f.Blocks.flatMap (fun b => (f.blockAt b).Values)

/-- The inversion table consulted for argument position `k` (0, 1 or 2). -/
def invertTable : Nat → List (Op × Op)
  | 0 => invertValueArg0
  | 1 => invertValueArg1
  | _ => invertValueArg2

/-- Position `k` of `v` holds an argument of which `needsInvert` holds. -/
def markedArg (m : mergeLoadState) (f : Func) (v : VPtr) (k : Nat) : Prop :=
  ∃ a, (f.valueAt v).Args[k]? = some a ∧ needsInvert m f a = .ok true

/-- The effect of the second pass on the `Op` of `v`, in the words of the
specification; `f` is the function before the pass and `f2` after it.  With
`k` the least position among 0, 1, 2 holding a marked argument, the new `Op` is
the entry of table `k` for the old `Op`; without such a position the `Op` is
unchanged. -/
def rewriterOpSpec (m : mergeLoadState) (f f2 : Func) (v : VPtr) : Prop :=
  (∀ k, k < 3 → markedArg m f v k → (∀ j, j < k → ¬ markedArg m f v j) →
    (f2.valueAt v).Op = mapIndex OpInvalid (invertTable k) (f.valueAt v).Op) ∧
  ((∀ k, k < 3 → ¬ markedArg m f v k) → (f2.valueAt v).Op = (f.valueAt v).Op)

/-- An instruction that needs inversion only through its selector form: its
own ID is not in the tracking set, it is an `OpSelect0` or `OpSelect1`, and
the ID of its argument 0 is in the set. -/
def hiddenSelector (m : mergeLoadState) (f : Func) (a : VPtr) : Prop :=
  (f.valueAt a).ID ∉ m.invert ∧ isSelector (f.valueAt a).Op ∧
    ∃ t, (f.valueAt a).Args[0]? = some t ∧ (f.valueAt t).ID ∈ m.invert

/-- Well-formedness assumed of the function entering the second pass: the
tracking set is allocated and every selector has an argument. -/
def InvertReady (m : mergeLoadState) (f : Func) : Prop :=
  f.mergeLoadState = some m ∧ ∀ u, isSelector (f.valueAt u).Op → (f.valueAt u).Args ≠ []

/-- What the second pass never changes between a state `f` and a later state
`f1`: the block list, the tracking set, the pool, every block's values, control
and ID, every value's arguments and ID; and an `Op` that changed is no
selector. -/
structure InvertFrame (f f1 : Func) : Prop where
  blocks : f1.Blocks = f.Blocks
  state : f1.mergeLoadState = f.mergeLoadState
  free : f1.freeValues = f.freeValues
  blkValues : ∀ b, (f1.blockAt b).Values = (f.blockAt b).Values
  blkControl : ∀ b, (f1.blockAt b).Control = (f.blockAt b).Control
  blkID : ∀ b, (f1.blockAt b).ID = (f.blockAt b).ID
  args : ∀ u, (f1.valueAt u).Args = (f.valueAt u).Args
  ids : ∀ u, (f1.valueAt u).ID = (f.valueAt u).ID
  sel : ∀ u, (f1.valueAt u).Op = (f.valueAt u).Op ∨ ¬ isSelector (f1.valueAt u).Op

/-- The steps of the second pass: the test of a block's control, and the
`switch` on a value. -/
inductive Event where
  | ctl (b : BPtr)
  | val (v : VPtr)
  deriving DecidableEq

/-- One step of the second pass. -/
def stepEvent (f : Func) : Event → Except Err Func
  | .ctl b =>
    match controlNeedsInvert f b with
    | .error e => .error e
    | .ok true => .ok (invertKind f b)
    | .ok false => .ok f
  | .val v => invertValue f v

/-- A sequence of steps of the second pass. -/
def runEvents : Func → List Event → Except Err Func
  | f, [] => .ok f
  | f, e :: rest =>
    match stepEvent f e with
    | .error err => .error err
    | .ok f1 => runEvents f1 rest

/-- The steps the second pass takes for block `b`. -/
def blockEvents (f : Func) (b : BPtr) : List Event :=
  .ctl b :: (f.blockAt b).Values.map .val

/-- The steps the second pass takes for the blocks `bs`. -/
def stageEvents (f : Func) (bs : List BPtr) : List Event :=
  bs.flatMap (blockEvents f)

/-- The value visited by a step, when the step is the `switch` on a value. -/
def Event.value? : Event → Option VPtr
  | .ctl _ => none
  | .val v => some v

/-- The `Kind` of block `b` in the result of a pass; none when the pass stopped. -/
def kindAfter (r : Except Err Func) (b : BPtr) : Option BlockKind :=
  match r with
  | .ok f => some (f.blockAt b).Kind
  | .error _ => none

/-- The `Op` of value `v` in the result of a pass; none when the pass stopped. -/
def opAfter (r : Except Err Func) (v : VPtr) : Option Op :=
  match r with
  | .ok f => some (f.valueAt v).Op
  | .error _ => none

/-- The effect of the second pass on the `Kind` of `b`, in the words of the
specification, for a given reading `marked` of "marked in the tracking set";
`f` is the function before the pass and `f2` after it. -/
def rewriterKindSpec (marked : VPtr → Prop) (f f2 : Func) (b : BPtr) : Prop :=
  (∀ c, (f.blockAt b).Control = some c → marked c →
    (f2.blockAt b).Kind = mapIndex BlockInvalid invertBlockKind (f.blockAt b).Kind) ∧
  ((f.blockAt b).Control = none → (f2.blockAt b).Kind = (f.blockAt b).Kind) ∧
  (∀ c, (f.blockAt b).Control = some c → ¬ marked c →
    (f2.blockAt b).Kind = (f.blockAt b).Kind)

/-! ## Example functions -/

/-- A value with the given fields. -/
def mkValue (id : ID) (op : Op) (mem : Bool) (aux : Aux) (args : List VPtr) (blk : BPtr)
    (uses : Int) : Value :=
  { ID := id, Op := op, Typ := ⟨mem⟩, Aux := aux, Args := args, Block := blk, Uses := uses }

/-- A function of two blocks: the entry block (pointer 1, ID 1) holding `entry`
and the block under study (pointer 0, ID 0) holding `vals`. -/
def mkFunc (entry : List VPtr) (kind : BlockKind) (control : Option VPtr) (vals : List VPtr)
    (heap : VPtr → Value) (st : Option mergeLoadState) : Func :=
  { Blocks := [1, 0],
    blockAt := fun p => match p with
      | 0 => { ID := 0, Kind := kind, Control := control, Values := vals }
      | _ => { ID := 1, Kind := BlockOther 0, Control := none, Values := entry },
    valueAt := heap,
    mergeLoadState := st,
    freeValues := [] }

/-- Block `[L; T]` where the load `L` (pointer 1) is itself memory-typed and
`T` (pointer 2) uses it; the entry block holds the initial memory (pointer 0). -/
def exMemLoad : Func :=
  mkFunc [0] (BlockOther 0) none [1, 2]
    (fun p => match p with
      | 1 => mkValue 1 (OpOther 10) true none [0] 0 1
      | 2 => mkValue 2 (OpOther 11) false none [1] 0 0
      | _ => mkValue 0 (OpOther 0) true none [] 1 1)
    none

/-- The heap of the load examples: `mem0` (pointer 0), `x` (4) and `p` (5) are
defined in the entry block; `L = Load(p, mem0)` (1), a middle instruction `m`
(2) and `T = Use(x, L)` (3) are in block 0. -/
def exHeap (m : Value) : VPtr → Value
  | 0 => mkValue 0 (OpOther 0) true none [] 1 3
  | 1 => mkValue 1 (OpOther 10) false (some 5) [5, 0] 0 1
  | 2 => m
  | 3 => mkValue 3 (OpOther 11) false none [4, 1] 0 0
  | 4 => mkValue 4 (OpOther 1) false none [] 1 2
  | _ => mkValue 5 (OpOther 2) false none [] 1 2

/-- Block `[L = Load(p, mem0); M = store; T = Use(x, L)]`. -/
def exStoreBetween : Func :=
  mkFunc [0, 4, 5] (BlockOther 0) none [1, 2, 3]
    (exHeap (mkValue 2 (OpOther 12) true none [5, 4, 0] 0 0)) none

/-- Block `[L = Load(p, mem0); D = VarDef {7} mem0; T = Use(x, L)]`: the marker
`D` is for a variable other than the one loaded (`L.Aux` is 5). -/
def exMarkerBetween : Func :=
  mkFunc [0, 4, 5] (BlockOther 0) none [1, 2, 3]
    (exHeap (mkValue 2 OpVarDef true (some 7) [0] 0 0)) none

/-- A fusion predicate that folds the load at pointer 1 into the value at
pointer 3, which takes over the load's address, memory argument and `Aux`, and
retires the load; it declines every other value. -/
def exFuse (f : Func) (v : VPtr) : Func × Bool :=
  if v = 3 then
    (setOp (f.setValue 3 { f.valueAt 3 with
        Op := OpOther 13, Aux := (f.valueAt 1).Aux, Args := [4, 5, 0] }) 1 OpInvalid, true)
  else
    (f, false)

/-- The function `exMarkerBetween` after the fusion predicate has folded the
load into pointer 3: the load (pointer 1) is retired. -/
def exRetired : Func := (exFuse exMarkerBetween 3).1

/-- Heap with a multi-result instruction `T` (pointer 1), a selector
`S = Select1(T)` (2), both in block `blk`, a selector of that selector
`S2 = Select0(S)` (3), a consumer `U = SETL(S)` (4) and a consumer
`W = SETL(T)` (5), in block 0. -/
def exSelHeap (blk : BPtr) : VPtr → Value
  | 1 => mkValue 1 (OpOther 20) false none [] blk 2
  | 2 => mkValue 2 OpSelect1 false none [1] blk 2
  | 3 => mkValue 3 OpSelect0 false none [2] 0 0
  | 4 => mkValue 4 OpAMD64SETL false none [2] 0 0
  | _ => mkValue 5 OpAMD64SETL false none [1] 0 0

/-- The tracking set holding the ID of `T` alone. -/
def exMarkT : mergeLoadState := { invert := [1] }

/-- Block `[T; S; S2]` with `T` marked. -/
def exSelChain : Func :=
  mkFunc [] BlockAMD64LT none [1, 2, 3] (exSelHeap 0) (some exMarkT)

/-- Block `[T; S; U]` of kind LT with control `S`, `T` marked: the flag of the
marked `T` is consumed through the selector `S`. -/
def exSelUse : Func :=
  mkFunc [] BlockAMD64LT (some 2) [1, 2, 4] (exSelHeap 0) (some exMarkT)

/-- As `exSelUse`, but `T` and `S` are in the entry block, visited first, and
block 0 is `[U]` of kind LT with control `S`. -/
def exSelEarlier : Func :=
  mkFunc [1, 2] BlockAMD64LT (some 2) [4] (exSelHeap 1) (some exMarkT)

/-- Block `[T; W]` of kind `kind` with control `T`, `T` marked: `W = SETL(T)`
consumes the marked flag directly. -/
def exDirectUse (kind : BlockKind) : Func :=
  mkFunc [] kind (some 1) [1, 5] (exSelHeap 0) (some exMarkT)

/-! ## Vocabulary and examples for the pass as a whole -/

/-- The value sequence of block `b` in the result of a pass; none when the pass
stopped. -/
def valuesAfter (r : Except Err Func) (b : BPtr) : Option (List VPtr) :=
  match r with
  | .ok f => some (f.blockAt b).Values
  | .error _ => none

/-- A fusion predicate that declines every value and leaves the function as
it is. -/
def exDecline (f : Func) (_ : VPtr) : Func × Bool := (f, false)

/-- Scenario A: block 0 is `[L; C]` of kind `kind` with control `C`, where
`L = Load(p, mem0)` (pointer 1) and `C = Compare(x, L)` (pointer 2); `mem0`
(pointer 0), `x` (4) and `p` (5) are defined in the entry block. -/
def exScenarioA (kind : BlockKind) : Func :=
  mkFunc [0, 4, 5] kind (some 2) [1, 2]
    (fun q => match q with
      | 0 => mkValue 0 (OpOther 0) true none [] 1 1
      | 1 => mkValue 1 (OpOther 10) false (some 5) [5, 0] 0 1
      | 2 => mkValue 2 (OpOther 30) false none [4, 1] 0 1
      | 4 => mkValue 4 (OpOther 1) false none [] 1 1
      | _ => mkValue 5 (OpOther 2) false none [] 1 1)
    none

/-- The fusion predicate of scenario A: it folds the load at pointer 1 into the
comparison at pointer 2, which becomes the load form with the operands in
inverted order, retires the load, and marks the comparison with `invertFlags`;
it declines every other value. -/
def exFuseCmp (f : Func) (v : VPtr) : Func × Bool :=
  if v = 2 then
    match invertFlags (setOp (f.setValue 2 { f.valueAt 2 with
        Op := OpOther 31, Aux := (f.valueAt 1).Aux, Args := [5, 4, 0] }) 1 OpInvalid) 2 with
    | .ok r => r
    | .error _ => (f, false)
  else
    (f, false)

/-- The outcome of scenario A in the words of the specification: the block is
left with the comparison alone and its `Kind` is the one on entry. -/
def scenarioASpec (f : Func) (r : Except Err Func) : Prop :=
  valuesAfter r 0 = some [2] ∧ kindAfter r 0 = some (f.blockAt 0).Kind

instance instDecidableScenarioASpec (f : Func) (r : Except Err Func) :
    Decidable (scenarioASpec f r) :=
  inferInstanceAs (Decidable (_ ∧ _))

/-! ## Vocabulary for use counts -/

/-- The number of argument references to `u` held by the values `vs`. -/
def argRefs (f : Func) (vs : List VPtr) (u : VPtr) : Nat :=
  (vs.map (fun x => (f.valueAt x).Args.count u)).sum

/-- The number of blocks among `bs` whose control is `u`. -/
def controlRefs (f : Func) (bs : List BPtr) (u : VPtr) : Nat :=
  bs.countP (fun b => decide ((f.blockAt b).Control = some u))

/-- The use counts reflect the references: for every instruction, `Uses` is the
number of argument references to it from the values `vs` plus the number of
blocks of `bs` that have it as control. -/
def usesConsistent (f : Func) (vs : List VPtr) (bs : List BPtr) : Prop :=
  ∀ u, (f.valueAt u).Uses = (argRefs f vs u : Int) + (controlRefs f bs u : Int)

/-! ## canMergeLoadLate with a record of what it touches -/

/-- What a run of `canMergeLoadLate` touches: the indices at which `b.Values`
is indexed, in order, and the indices of the values on which
`v.Type.IsMemory()` is evaluated, in order. -/
structure ScanTrace where
  reads : List Nat
  checks : List Nat
  deriving DecidableEq

/-- The loop `for ; b.Values[i] != load; i++ {}` with the indices it reads; an
index past the end is read, and panics. -/
def seekLoadTraced (load : VPtr) : List VPtr → Nat → List Nat × Except Err Nat
  | [], i => ([i], .error .indexOutOfRange)
  | w :: rest, i =>
    if w ≠ load then
      (i :: (seekLoadTraced load rest (i + 1)).1, (seekLoadTraced load rest (i + 1)).2)
    else
      ([i], .ok i)

/-- The loop `for ; b.Values[i] != target; i++ { v := b.Values[i]; ... }` with
the indices it reads (once in the condition, once in the body) and the indices
whose value it checks for memory type. -/
def scanToTargetTraced (f : Func) (target load : VPtr) :
    List VPtr → Nat → ScanTrace × Except Err Bool
  | [], i => (⟨[i], []⟩, .error .indexOutOfRange)
  | v :: rest, i =>
    if v ≠ target then
      if (f.valueAt v).Typ.IsMemory then
        if (f.valueAt v).Op = OpVarDef ∧ (f.valueAt v).Aux ≠ (f.valueAt load).Aux then
          (⟨i :: i :: (scanToTargetTraced f target load rest (i + 1)).1.reads,
              i :: (scanToTargetTraced f target load rest (i + 1)).1.checks⟩,
            (scanToTargetTraced f target load rest (i + 1)).2)
        else
          (⟨[i, i], [i]⟩, .ok false)
      else
        (⟨i :: i :: (scanToTargetTraced f target load rest (i + 1)).1.reads,
            i :: (scanToTargetTraced f target load rest (i + 1)).1.checks⟩,
          (scanToTargetTraced f target load rest (i + 1)).2)
    else
      (⟨[i], []⟩, .ok true)

/-- The function `canMergeLoadLate(target, load)` with the record of what it
touches. -/
def canMergeLoadLateTraced (f : Func) (target load : VPtr) : ScanTrace × Except Err Bool :=
  if (f.blockAt (f.valueAt target).Block).ID ≠ (f.blockAt (f.valueAt load).Block).ID then
    (⟨[], []⟩, .ok false)
  else if (f.valueAt load).Uses ≠ 1 then
    (⟨[], []⟩, .ok false)
  else
    let b := f.blockAt (f.valueAt target).Block
    match seekLoadTraced load b.Values 0 with
    | (rd, .error e) => (⟨rd, []⟩, .error e)
    | (rd, .ok i) =>
      (⟨rd ++ (scanToTargetTraced f target load (b.Values.drop i) i).1.reads,
          (scanToTargetTraced f target load (b.Values.drop i) i).1.checks⟩,
        (scanToTargetTraced f target load (b.Values.drop i) i).2)

/-- Block `[L = Load(p, mem0); M = store; D = VarDef {7} M; T = Use(x, L)]`: a
store and then a marker lie between the load and its use. -/
def exStoreThenMarker : Func :=
  mkFunc [0, 4, 5] (BlockOther 0) none [1, 2, 6, 3]
    (fun q => if q = 6 then mkValue 6 OpVarDef true (some 7) [2] 0 0
      else exHeap (mkValue 2 (OpOther 12) true none [5, 4, 0] 0 1) q)
    none

/-- What `canMergeLoadLate` touches, in the words of the specification, for a
load at index `i` and a target at index `j`: it returns, it indexes `b.Values`
only at positions up to `j`, and it applies the memory-type check to exactly
the positions `i` through `j - 1`. -/
def scanTouchSpec (f : Func) (target load : VPtr) (i j : Nat) : Prop :=
  (∃ r, (canMergeLoadLateTraced f target load).2 = .ok r) ∧
  (∀ k ∈ (canMergeLoadLateTraced f target load).1.reads, k ≤ j) ∧
  (canMergeLoadLateTraced f target load).1.checks = List.range' i (j - i)

/-! ## Vocabulary for the agreement of the safety checker and the driver -/

/-- The nearest memory-typed instruction preceding position `i` of `vals`;
none when no memory-typed instruction precedes it. -/
def nearestMemoryBefore (f : Func) (vals : List VPtr) (i : Nat) : Option VPtr :=
  (vals.take i).reverse.find? (fun w => (f.valueAt w).Typ.IsMemory)

/-! ## Examples for the driver's scan on a memory-typed instruction -/

/-- Block `[L = Load(p, mem0); T = Store(q, L, mem0)]`: the consumer `T`
(pointer 2) of the load `L` (pointer 1) is itself memory-typed; `mem0`
(pointer 0), `q` (4) and `p` (5) are defined in the entry block. -/
def exStoreOfLoad : Func :=
  mkFunc [0, 4, 5] (BlockOther 0) none [1, 2]
    (fun q => match q with
      | 0 => mkValue 0 (OpOther 0) true none [] 1 2
      | 1 => mkValue 1 (OpOther 10) false (some 5) [5, 0] 0 1
      | 2 => mkValue 2 (OpOther 12) true none [4, 1, 0] 0 0
      | 4 => mkValue 4 (OpOther 1) false none [] 1 1
      | _ => mkValue 5 (OpOther 2) false none [] 1 1)
    none

/-- A fusion predicate that folds the load at pointer 1 into the store at
pointer 2, which becomes the load-and-store form with the load's address and
memory argument, and retires the load; it declines every other value. -/
def exFuseStore (f : Func) (v : VPtr) : Func × Bool :=
  if v = 2 then
    (setOp (f.setValue 2 { f.valueAt 2 with
        Op := OpOther 14, Aux := (f.valueAt 1).Aux, Args := [4, 5, 0] }) 1 OpInvalid, true)
  else
    (f, false)

/-! ## Vocabulary and examples for keys missing from the inversion tables -/

/-- The value `x` is a key of the map `tbl`. -/
def isKey {α β : Type} (tbl : List (α × β)) (x : α) : Prop := ∃ e ∈ tbl, e.1 = x

/-- Position `k` is the first marked argument position of `v` in state `f`:
the least of 0, 1, 2 holding an argument of which `needsInvert` holds. -/
def firstMarked (m : mergeLoadState) (f : Func) (v : VPtr) (k : Nat) : Prop :=
  k < 3 ∧ markedArg m f v k ∧ ∀ j, j < k → ¬ markedArg m f v j

/-- The second pass, run on `f`, comes to the step `e` in state `f1`. -/
def reachesStep (f : Func) (e : Event) (f1 : Func) : Prop :=
  ∃ pre post, stageEvents f f.Blocks = pre ++ e :: post ∧ runEvents f pre = .ok f1

/-- Heap with a multi-result instruction `T` (pointer 1), a selector
`S = Select1(T)` (2) of one of its results and a store form `W = SETLstore(T)`
(6) whose argument 0 is `T`, all in block 0. -/
def exMissingHeap : VPtr → Value
  | 1 => mkValue 1 (OpOther 20) false none [] 0 3
  | 2 => mkValue 2 OpSelect1 false none [1] 0 0
  | _ => mkValue 6 OpAMD64SETLstore true none [1] 0 0

/-- Block `[T; S; W]` of a kind outside `invertBlockKind`, with control `T`,
and `T` marked. -/
def exMissing : Func :=
  mkFunc [] (BlockOther 3) (some 1) [1, 2, 6] exMissingHeap (some exMarkT)

/-- A fusion predicate that marks the instruction at pointer 1 with
`invertFlags` and reports it as fused; it declines every other value. -/
def exMarkFirst (f : Func) (v : VPtr) : Func × Bool :=
  if v = 1 then
    match invertFlags f 1 with
    | .ok r => r
    | .error _ => (f, false)
  else
    (f, false)

end MergeLoad

/-! # cmd/trace: `splitTrace`

A shallow embedding of `splitTrace` and `countingWriter` of
`src/cmd/trace/trace.go`.  The JSON encoder and the formatting of a range's
name belong to the Go library; the embedding takes from them the number of
bytes written for a value and the string produced.
-/

namespace CmdTrace

/-- Ways in which the Go code stops without returning. -/
inductive Err where
  | indexOutOfRange
  | sliceBoundsOutOfRange
  deriving DecidableEq

/-- The struct `Range`. -/
structure Range where
  Name : String
  Start : Int
  End : Int
  deriving DecidableEq

/-- Modelled from the spec: the struct `traceviewer.Data` (package
cmd/internal/traceviewer is not among the sources), with the fields that
`splitTrace` reads: `Events`, a slice of pointers to events, none nil, and
`Footer`, the number of leading events that are not part of the mandatory
trailer.  `Ev` is the type of an event; the other fields of the struct only
enter the encoded size of the data. -/
structure Data (Ev : Type) where
  Events : List Ev
  Footer : Int

/-- What `splitTrace` takes from the Go library and from the platform: the
width of `int` in bits, the number of bytes `json.Encoder.Encode` writes for an
event and for a `Data`, and the name `fmt.Sprintf` forms for a range from its
first and last event. -/
structure Env (Ev : Type) where
  intBits : Nat
  encodedEvent : Ev → Nat
  encodedData : Data Ev → Nat
  rangeName : Ev → Ev → String

/-- The value of an `int` of `bits` bits holding the result `x` of an addition:
two's complement wraparound. -/
def wrapInt (bits : Nat) (x : Int) : Int :=
  (x + 2 ^ (bits - 1)) % 2 ^ bits - 2 ^ (bits - 1)

/-- The constant `rangeSize`, `100 << 20`. -/
def rangeSize : Int := 100 * 2 ^ 20

/-- The struct `countingWriter`. -/
structure countingWriter where
  size : Int
  deriving DecidableEq

/-- The method `(cw *countingWriter) Write(data)` for a `data` of `n` bytes:
`cw.size += len(data)`; it never reports an error. -/
def countingWriter.Write (bits : Nat) (cw : countingWriter) (n : Nat) : countingWriter :=
  { size := wrapInt bits (cw.size + n) }

/-- The loop `for i, start := 0, 0; i < data.Footer; i++` of `splitTrace`, from
index `i` on; the first argument is the number of iterations left,
`data.Footer - i`.  `enc.Encode` hands the encoding of the event to `cw.Write`
in one piece. -/
def splitLoop {Ev : Type} (env : Env Ev) (data : Data Ev) (auxSize : Int) :
    Nat → Nat → Nat → countingWriter → List Range → Except Err (List Range)
  | 0, _, _, _, ranges => .ok ranges
  | n + 1, i, start, cw, ranges =>
    match data.Events[i]? with
    | none => .error .indexOutOfRange
    | some ev =>
      if wrapInt env.intBits ((cw.Write env.intBits (env.encodedEvent ev)).size + auxSize)
          > rangeSize ∨ (i : Int) = data.Footer - 1 then
        match data.Events[start]? with
        | none => .error .indexOutOfRange
        | some ev0 =>
          splitLoop env data auxSize n (i + 1) (i + 1) { size := 0 }
            (ranges ++ [{ Name := env.rangeName ev0 ev, Start := start, End := (i : Int) + 1 }])
      else
        splitLoop env data auxSize n (i + 1) start
          (cw.Write env.intBits (env.encodedEvent ev)) ranges

/-- The function `splitTrace(data)`.  The nil slice is the empty list: the
function builds no slice that is empty and not nil. -/
def splitTrace {Ev : Type} (env : Env Ev) (data : Data Ev) : Except Err (List Range) :=
  if data.Footer < 0 ∨ (data.Events.length : Int) < data.Footer then
    .error .sliceBoundsOutOfRange
  else
    let data1 : Data Ev := { data with Events := data.Events.drop data.Footer.toNat }
    let auxSize := ((countingWriter.mk 0).Write env.intBits (env.encodedData data1)).size
    match splitLoop env data auxSize data.Footer.toNat 0 0 { size := 0 } [] with
    | .error e => .error e
    | .ok ranges => if ranges.length = 1 then .ok [] else .ok ranges

/-! ## Specification vocabulary for `splitTrace` -/

/-- The ranges `rs` partition the indices from 0 up to `n` in order: the first
has `Start = 0`, the last has `End = n`, every range has `Start < End`, and the
`Start` of each range is the `End` of the one before it. -/
def partitions (rs : List Range) (n : Int) : Prop :=
  (∃ r, rs.head? = some r ∧ r.Start = 0) ∧
  (∃ r, rs.getLast? = some r ∧ r.End = n) ∧
  (∀ r ∈ rs, r.Start < r.End) ∧
  (∀ (i : Nat) (r s : Range), rs[i]? = some r → rs[i + 1]? = some s → s.Start = r.End)

/-- The encoded size of the mandatory part of the trace: the data with the
events from `Footer` on. -/
def mandatorySize {Ev : Type} (env : Env Ev) (data : Data Ev) : Nat :=
  env.encodedData { data with Events := data.Events.drop data.Footer.toNat }

/-- The encoded size of the first `k` events together. -/
def eventsSize {Ev : Type} (env : Env Ev) (data : Data Ev) (k : Nat) : Nat :=
  ((data.Events.take k).map env.encodedEvent).sum

/-- All `Footer` events fit in a single range, in the words of the
specification: together with the mandatory part they take no more than
`rangeSize`. -/
def allEventsFit {Ev : Type} (env : Env Ev) (data : Data Ev) : Prop :=
  (mandatorySize env data : Int) + eventsSize env data data.Footer.toNat ≤ rangeSize

/-- When `splitTrace` returns nil, in the words of the specification: exactly
when `Footer = 0` or all `Footer` events fit in a single range. -/
def nilSpec {Ev : Type} (env : Env Ev) (data : Data Ev) (r : Except Err (List Range)) : Prop :=
  r = .ok [] ↔ (data.Footer = 0 ∨ allEventsFit env data)

/-- No range is closed before the last event: together with the mandatory
part, the events before the last one never exceed `rangeSize`.  The last event
closes the range whatever its size. -/
def fitsOneRange {Ev : Type} (env : Env Ev) (data : Data Ev) : Prop :=
  ∀ k : Nat, 0 < k → (k : Int) < data.Footer →
    (mandatorySize env data : Int) + eventsSize env data k ≤ rangeSize

/-- The sizes counted stay within an `int`: the mandatory part and the events
before `Footer` together take fewer than `2 ^ (intBits - 1)` bytes, for an
`int` of at least 32 bits. -/
def sizesFitInt {Ev : Type} (env : Env Ev) (data : Data Ev) : Prop :=
  32 ≤ env.intBits ∧
    (mandatorySize env data : Int) + eventsSize env data data.Footer.toNat
      < 2 ^ (env.intBits - 1)

/-- The ranges `rs` lead from index `a` to index `b`: each starts where the one
before ended, and none is empty. -/
def chain : Int → List Range → Int → Prop
  | a, [], b => a = b
  | a, r :: rs, b => r.Start = a ∧ r.Start < r.End ∧ chain r.End rs b

/-- A trace of three events of 40, 70 and 30 megabytes and a trailer of one
event; an event is given by its encoded size. -/
def exTrace : Data Nat :=
  { Events := [40 * 2 ^ 20, 70 * 2 ^ 20, 30 * 2 ^ 20, 7], Footer := 3 }

/-- A 64-bit platform on which an event is encoded in as many bytes as its
value says and the mandatory part takes 1000 bytes plus the events it holds. -/
def exEnv : Env Nat :=
  { intBits := 64,
    encodedEvent := fun e => e,
    encodedData := fun d => 1000 + d.Events.sum,
    rangeName := fun _ _ => "" }

/-- A trace of two events of 60 megabytes each, without trailer. -/
def exTwoLarge : Data Nat :=
  { Events := [60 * 2 ^ 20, 60 * 2 ^ 20], Footer := 2 }

/-- A 32-bit platform on which an event is encoded in as many bytes as its
value says and the mandatory part takes one byte. -/
def exEnv32 : Env Nat :=
  { intBits := 32,
    encodedEvent := fun e => e,
    encodedData := fun _ => 1,
    rangeName := fun _ _ => "" }

/-- A trace of two events, of `2 ^ 31 - 1` bytes and of 5 bytes. -/
def exHuge : Data Nat :=
  { Events := [2 ^ 31 - 1, 5], Footer := 2 }

end CmdTrace

/-! # cmd/compile/internal/mips64: `defframe` and `zerorange`

A shallow embedding of `defframe` and `zerorange` of
`src/cmd/compile/internal/mips64/ggen.go`.  The instruction list `pp` is held
as the list of the instructions appended after `pp.Text`, and `defframe` keeps
a record of the calls of `zerorange` it makes.  Values of type `int64` are
integers, and an arithmetic result is reduced with `wrap64`.
-/

namespace Mips64

/-- Modelled from the spec: the storage classes `gc.Class` (package gc is not
among the sources). -/
inductive Class where
  | Pxxx
  | PEXTERN
  | PAUTO
  | PAUTOHEAP
  | PPARAM
  | PPARAMOUT
  | PFUNC
  deriving DecidableEq

/-- Modelled from the spec: a declaration `*gc.Node` of `fn.Func.Dcl` (package
gc is not among the sources), with what `defframe` reads of it:
`n.Name.Needzero()`, `n.Class`, `n.Xoffset` and `n.Type.Size()`. -/
structure Node where
  Needzero : Bool
  Class : Class
  Xoffset : Int
  Size : Int
  deriving DecidableEq

/-- Modelled from the spec: the function node `fn` (package gc is not among the
sources), with what `defframe` reads of it: `fn.Type.ArgWidth()` and
`fn.Func.Dcl`. -/
structure Fn where
  ArgWidth : Int
  Dcl : List Node

/-- Modelled from the spec: the variables `gc.Widthptr` and `gc.Widthreg`
(package gc is not among the sources), the size in bytes of a pointer and of a
register on the target. -/
structure Arch where
  Widthptr : Int
  Widthreg : Int

/-- Ways in which the Go code stops without returning: the calls of
`gc.Fatalf`. -/
inductive Err where
  | fatalRnd (r : Int)
  | fatalNeedzeroClass (c : Class)
  | fatalVarSize (n : Node)
  deriving DecidableEq

/-- The least `int64`. -/
def int64Min : Int := -(2 ^ 63)

/-- The greatest `int64`. -/
def int64Max : Int := 2 ^ 63 - 1

/-- The value of an `int64` holding the arithmetic result `x`: two's complement
wraparound. -/
def wrap64 (x : Int) : Int := (x + 2 ^ 63) % 2 ^ 64 - 2 ^ 63

/-- Modelled from the spec: `gc.Rnd(o, r)` (package gc is not among the
sources): `o` rounded up to a multiple of `r`, which has to be 1, 2, 4 or 8;
`(o + r - 1) &^ (r - 1)` clears the low bits of the sum. -/
def Rnd (o r : Int) : Except Err Int :=
  if r < 1 ∨ r > 8 ∨ Int.land r (r - 1) ≠ 0 then
    .error (.fatalRnd r)
  else
    .ok (wrap64 (o + r - 1) - wrap64 (o + r - 1) % r)

/-- Modelled from the spec: the instructions (`obj.Prog`) that `zerorange`
appends with `pp.Appendpp` (packages gc, obj and obj/mips are not among the
sources), each reduced to its operation and the operand that varies. -/
inductive Prog where
  /-- The instruction `MOVV R0, offset(SP)`. -/
  | movvZeroSP (offset : Int)
  /-- The instruction `ADDV $c, SP, RT1`. -/
  | addvConstSPRT1 (c : Int)
  /-- The instruction `DUFFZERO` with `To.Sym = gc.Duffzero`, `To.Offset = offset`. -/
  | duffzero (offset : Int)
  /-- The instruction `ADDV $c, RT1, RT2`. -/
  | addvConstRT1RT2 (c : Int)
  /-- The instruction `MOVV R0, offset(RT1)`. -/
  | movvZeroRT1 (offset : Int)
  /-- The instruction `ADDV $c, RT1`. -/
  | addvConstRT1 (c : Int)
  /-- The instruction `BNE RT1, RT2`, patched to branch to the `MOVV` before it. -/
  | bneRT1RT2
  deriving DecidableEq

/-- The loop `for i := int64(0); i < cnt; i += int64(gc.Widthptr)` of
`zerorange`, entered with `cnt < 4*gc.Widthptr`: at most four iterations. -/
def storeLoop (a : Arch) (frame lo cnt : Int) : Nat → Int → List Prog → List Prog
  | 0, _, p => p
  | k + 1, i, p =>
    if i < cnt then
      storeLoop a frame lo cnt k (wrap64 (i + a.Widthptr))
        (p ++ [.movvZeroSP (wrap64 (8 + frame + lo + i))])
    else
      p

/-- The function `zerorange(pp, p, frame, lo, hi)`; `p` is the list of the
instructions appended so far, and the result is that list extended. -/
def zerorange (a : Arch) (p : List Prog) (frame lo hi : Int) : List Prog :=
  if wrap64 (hi - lo) = 0 then
    p
  else if wrap64 (hi - lo) < 4 * a.Widthptr then
    storeLoop a frame lo (wrap64 (hi - lo)) 4 0 p
  else if wrap64 (hi - lo) ≤ 128 * a.Widthptr then
    p ++ [.addvConstSPRT1 (wrap64 (8 + frame + lo - 8)),
      .duffzero (wrap64 (8 * (128 - Int.tdiv (wrap64 (hi - lo)) a.Widthptr)))]
  else
    p ++ [.addvConstSPRT1 (wrap64 (8 + frame + lo - 8)),
      .addvConstRT1RT2 (wrap64 (hi - lo)),
      .movvZeroRT1 a.Widthptr,
      .addvConstRT1 a.Widthptr,
      .bneRT1RT2]

/-- A call `zerorange(pp, p, frame, lo, hi)`, by its last three arguments. -/
structure ZeroCall where
  frame : Int
  lo : Int
  hi : Int
  deriving DecidableEq

/-- The variables of the loop of `defframe`: the instructions appended so far
(`p` is the last of them), the range `lo`, `hi` being collected, and the record
of the calls of `zerorange` made so far. -/
structure ZeroState where
  p : List Prog
  lo : Int
  hi : Int
  calls : List ZeroCall

/-- The loop `for _, n := range fn.Func.Dcl` of `defframe`.  `gc.Rnd` has
checked before that both widths are 1, 2, 4 or 8: `%` does not divide by zero,
and `2*gc.Widthreg` is exact. -/
def defframeLoop (a : Arch) (frame : Int) : List Node → ZeroState → Except Err ZeroState
  | [], s => .ok s
  | n :: rest, s =>
    if ¬ n.Needzero then
      defframeLoop a frame rest s
    else if n.Class ≠ .PAUTO then
      .error (.fatalNeedzeroClass n.Class)
    else if Int.tmod n.Size a.Widthptr ≠ 0 ∨ Int.tmod n.Xoffset a.Widthptr ≠ 0 ∨ n.Size = 0 then
      .error (.fatalVarSize n)
    else if s.lo ≠ s.hi ∧ wrap64 (n.Xoffset + n.Size) ≥ wrap64 (s.lo - 2 * a.Widthreg) then
      defframeLoop a frame rest { s with lo := n.Xoffset }
    else
      defframeLoop a frame rest
        { p := zerorange a s.p frame s.lo s.hi,
          lo := n.Xoffset,
          hi := wrap64 (n.Xoffset + n.Size),
          calls := s.calls ++ [⟨frame, s.lo, s.hi⟩] }

/-- What `defframe` leaves: the fields `Val` and `Offset` of `pp.Text.To`
(whose `Type` is `obj.TYPE_TEXTSIZE`), the instructions appended after
`pp.Text`, and the record of the calls of `zerorange`, in order. -/
structure Frame where
  textToVal : Int
  textToOffset : Int
  code : List Prog
  calls : List ZeroCall

/-- The function `defframe(pp, fn, sz)`; `int32(x)` and `uint32(x)` keep the
low 32 bits of `x`. -/
def defframe (a : Arch) (fn : Fn) (sz : Int) : Except Err Frame :=
  match Rnd fn.ArgWidth a.Widthptr with
  | .error e => .error e
  | .ok argWidth =>
    match Rnd sz a.Widthreg with
    | .error e => .error e
    | .ok size =>
      match defframeLoop a (size % 2 ^ 32) fn.Dcl { p := [], lo := 0, hi := 0, calls := [] } with
      | .error e => .error e
      | .ok s =>
        .ok { textToVal := (argWidth + 2 ^ 31) % 2 ^ 32 - 2 ^ 31,
              textToOffset := size % 2 ^ 32,
              code := zerorange a s.p (size % 2 ^ 32) s.lo s.hi,
              calls := s.calls ++ [⟨size % 2 ^ 32, s.lo, s.hi⟩] }

/-! ## Specification vocabulary for `defframe` -/

/-- A width that `gc.Rnd` accepts: 1, 2, 4 or 8. -/
def validWidth (r : Int) : Prop := r = 1 ∨ r = 2 ∨ r = 4 ∨ r = 8

/-- The byte interval `[Xoffset, Xoffset+Size)` of the variable `n` is contained
in the interval `[lo, hi)` of the call `c`. -/
def covers (c : ZeroCall) (n : Node) : Prop :=
  c.lo ≤ n.Xoffset ∧ n.Xoffset + n.Size ≤ c.hi

/-- The declarations are sorted in decreasing `Xoffset` order. -/
def sortedDecreasing (dcl : List Node) : Prop :=
  dcl.Pairwise (fun x y => y.Xoffset ≤ x.Xoffset)

/-- The byte intervals of the needzero variables among the declarations are
pairwise non-overlapping. -/
def nonOverlapping (dcl : List Node) : Prop :=
  dcl.Pairwise (fun x y => x.Needzero = true → y.Needzero = true →
    x.Xoffset + x.Size ≤ y.Xoffset ∨ y.Xoffset + y.Size ≤ x.Xoffset)

/-- An automatic variable of non-zero, pointer-aligned size and pointer-aligned
offset; a size is a number of bytes. -/
def zeroable (a : Arch) (n : Node) : Prop :=
  n.Class = .PAUTO ∧ 0 < n.Size ∧ a.Widthptr ∣ n.Size ∧ a.Widthptr ∣ n.Xoffset

/-- The interval of the variable lies among the `int64` values, with
`2*Widthreg` to spare below its offset. -/
def withinInt64 (a : Arch) (n : Node) : Prop :=
  int64Min + 2 * a.Widthreg ≤ n.Xoffset ∧ n.Xoffset + n.Size ≤ int64Max

/-- The later variable `w` ends at or above the offset of the earlier variable
`u`, which is the current `lo` when `w` is met, minus `2*Widthreg`. -/
def mergesWith (a : Arch) (u w : Node) : Prop :=
  w.Xoffset + w.Size ≥ u.Xoffset - 2 * a.Widthreg

/-- The sizes of mips64: pointers and registers of 8 bytes. -/
def exArch : Arch := { Widthptr := 8, Widthreg := 8 }

/-- Four declarations: needzero variables at `[-8, 0)`, `[-32, -24)` and
`[-64, -56)`, and a variable without needzero at `[-16, -8)`. -/
def exFn : Fn :=
  { ArgWidth := 16,
    Dcl := [⟨true, .PAUTO, -8, 8⟩, ⟨false, .PAUTO, -16, 8⟩, ⟨true, .PAUTO, -32, 8⟩,
      ⟨true, .PAUTO, -64, 8⟩] }

end Mips64

namespace MergeLoad

open Op BlockKind

/-! ## Lemmas on the two scans of canMergeLoadLate -/

theorem seekLoad_ok_iff (load : VPtr) (vals : List VPtr) (i0 i : Nat) :
    seekLoad load vals i0 = .ok i ↔
      ∃ n, i = i0 + n ∧ vals[n]? = some load ∧ ∀ k, k < n → vals[k]? ≠ some load := by
  induction vals generalizing i0 with
  | nil => simp [seekLoad]
  | cons w rest ih =>
    unfold seekLoad
    by_cases hw : w = load
    · subst hw
      simp only [ne_eq, not_true_eq_false, if_false, Except.ok.injEq]
      constructor
      · intro h
        exact ⟨0, by omega, by simp, by intro k hk; omega⟩
      · rintro ⟨n, hn, _, hfirst⟩
        rcases Nat.eq_zero_or_pos n with h0 | hpos
        · omega
        · exact absurd (by simp) (hfirst 0 hpos)
    · simp only [ne_eq, hw, not_false_eq_true, if_true]
      rw [ih]
      constructor
      · rintro ⟨n, hn, hget, hfirst⟩
        refine ⟨n + 1, by omega, by simpa using hget, ?_⟩
        intro k hk
        cases k with
        | zero => simpa using hw
        | succ k => simpa using hfirst k (by omega)
      · rintro ⟨n, hn, hget, hfirst⟩
        cases n with
        | zero => simp at hget; exact absurd hget hw
        | succ n =>
          refine ⟨n, by omega, by simpa using hget, ?_⟩
          intro k hk
          simpa using hfirst (k + 1) (by omega)

theorem scanToTarget_true_iff (f : Func) (target load : VPtr) (l : List VPtr) :
    scanToTarget f target load l = .ok true ↔
      ∃ n, l[n]? = some target ∧ (∀ k, k < n → l[k]? ≠ some target) ∧
        ∀ (k : Nat) (v : VPtr), k < n → l[k]? = some v → (f.valueAt v).Typ.IsMemory = true →
          harmlessMarker f load v := by
  induction l with
  | nil => simp [scanToTarget]
  | cons v rest ih =>
    unfold scanToTarget
    by_cases hv : v = target
    · subst hv
      simp only [ne_eq, not_true_eq_false, if_false, true_iff]
      exact ⟨0, by simp, by intro k hk; omega, by intro k w hk; omega⟩
    · have step : (∃ n, rest[n]? = some target ∧ (∀ k, k < n → rest[k]? ≠ some target) ∧
            ∀ (k : Nat) (w : VPtr), k < n → rest[k]? = some w →
              (f.valueAt w).Typ.IsMemory = true → harmlessMarker f load w) ∧
            ((f.valueAt v).Typ.IsMemory = true → harmlessMarker f load v) ↔
          ∃ n, (v :: rest)[n]? = some target ∧ (∀ k, k < n → (v :: rest)[k]? ≠ some target) ∧
            ∀ (k : Nat) (w : VPtr), k < n → (v :: rest)[k]? = some w →
              (f.valueAt w).Typ.IsMemory = true → harmlessMarker f load w := by
        constructor
        · rintro ⟨⟨n, hget, hfirst, hall⟩, hhead⟩
          refine ⟨n + 1, by simpa using hget, ?_, ?_⟩
          · intro k hk
            cases k with
            | zero => simpa using hv
            | succ k => simpa using hfirst k (by omega)
          · intro k w hk hw hmem
            cases k with
            | zero =>
              simp at hw
              subst hw
              exact hhead hmem
            | succ k => exact hall k w (by omega) (by simpa using hw) hmem
        · rintro ⟨n, hget, hfirst, hall⟩
          cases n with
          | zero => simp at hget; exact absurd hget hv
          | succ n =>
            refine ⟨⟨n, by simpa using hget, ?_, ?_⟩, ?_⟩
            · intro k hk
              simpa using hfirst (k + 1) (by omega)
            · intro k w hk hw hmem
              exact hall (k + 1) w (by omega) (by simpa using hw) hmem
            · intro hmem
              exact hall 0 v (by omega) (by simp) hmem
      rw [← step]
      rw [if_pos hv]
      by_cases hmem : (f.valueAt v).Typ.IsMemory = true
      · by_cases hmk : (f.valueAt v).Op = OpVarDef ∧ (f.valueAt v).Aux ≠ (f.valueAt load).Aux
        · rw [if_pos hmem, if_pos hmk, ih]
          exact (and_iff_left (fun _ => hmk)).symm
        · rw [if_pos hmem, if_neg hmk]
          constructor
          · intro h
            cases h
          · rintro ⟨_, hhead⟩
            exact absurd (hhead hmem) hmk
      · rw [if_neg hmem, ih]
        exact (and_iff_left (fun h => absurd h hmem)).symm

/-- If a memory-typed instruction that is not a harmless marker is met before
the target, the second scan answers false. -/
theorem scanToTarget_false_of_bad (f : Func) (target load : VPtr) (l : List VPtr) (k : Nat)
    (m : VPtr) (hk : l[k]? = some m) (hnot : ∀ k2, k2 ≤ k → l[k2]? ≠ some target)
    (hmem : (f.valueAt m).Typ.IsMemory = true) (hbad : ¬ harmlessMarker f load m) :
    scanToTarget f target load l = .ok false := by
  induction l generalizing k with
  | nil => simp at hk
  | cons v rest ih =>
    unfold scanToTarget
    have hv : v ≠ target := by simpa using hnot 0 (by omega)
    rw [if_pos hv]
    cases k with
    | zero =>
      simp at hk
      subst hk
      have hbad2 : ¬ ((f.valueAt v).Op = OpVarDef ∧ (f.valueAt v).Aux ≠ (f.valueAt load).Aux) :=
        hbad
      rw [if_pos hmem, if_neg hbad2]
    | succ k =>
      have hrec := ih k (by simpa using hk) (by
        intro k2 hk2
        simpa using hnot (k2 + 1) (by omega))
      by_cases hmv : (f.valueAt v).Typ.IsMemory = true
      · by_cases hmk : (f.valueAt v).Op = OpVarDef ∧ (f.valueAt v).Aux ≠ (f.valueAt load).Aux
        · rw [if_pos hmv, if_pos hmk, hrec]
        · rw [if_pos hmv, if_neg hmk]
      · rw [if_neg hmv, hrec]

/-! ## The safety checker -/

/-- C1 (amended): `canMergeLoadLate(target, load)` returns true exactly when
target and load are in blocks of the same ID, `load.Uses = 1`, and every
memory-typed instruction from the load's position (the load itself included) up
to, not including, the target's position is an `OpVarDef` whose `Aux` differs
from the load's. -/
theorem canMergeLoadLate_true_iff (f : Func) (target load : VPtr) :
    canMergeLoadLate f target load = .ok true ↔
      (f.blockAt (f.valueAt target).Block).ID = (f.blockAt (f.valueAt load).Block).ID ∧
      (f.valueAt load).Uses = 1 ∧
      ∃ i j, firstAt (f.blockAt (f.valueAt target).Block).Values load 0 i ∧
        firstAt (f.blockAt (f.valueAt target).Block).Values target i j ∧
        ∀ (k : Nat) (v : VPtr), i ≤ k → k < j →
          (f.blockAt (f.valueAt target).Block).Values[k]? = some v →
          (f.valueAt v).Typ.IsMemory = true → harmlessMarker f load v := by
  unfold canMergeLoadLate
  by_cases hb : (f.blockAt (f.valueAt target).Block).ID = (f.blockAt (f.valueAt load).Block).ID
  swap
  · rw [if_pos hb]
    constructor
    · intro h; cases h
    · rintro ⟨h, _⟩; exact absurd h hb
  rw [if_neg (not_not.mpr hb)]
  by_cases hu : (f.valueAt load).Uses = 1
  swap
  · rw [if_pos hu]
    constructor
    · intro h; cases h
    · rintro ⟨_, h, _⟩; exact absurd h hu
  rw [if_neg (not_not.mpr hu)]
  simp only [hb, hu, true_and]
  generalize (f.blockAt (f.valueAt target).Block).Values = vals
  cases hs : seekLoad load vals 0 with
  | error e =>
    simp only
    constructor
    · intro h; cases h
    · rintro ⟨i, j, ⟨_, hget, hfirst⟩, _⟩
      have : seekLoad load vals 0 = .ok i :=
        (seekLoad_ok_iff load vals 0 i).mpr
          ⟨i, by omega, hget, fun k hk => hfirst k (by omega) hk⟩
      rw [hs] at this
      cases this
  | ok i0 =>
    simp only
    obtain ⟨n, hn, hget0, hfirst0⟩ := (seekLoad_ok_iff load vals 0 i0).mp hs
    have hi0 : i0 = n := by omega
    subst hi0
    rw [scanToTarget_true_iff]
    constructor
    · rintro ⟨n, hget, hfirst, hall⟩
      refine ⟨i0, i0 + n, ⟨by omega, hget0, fun k _ hk => hfirst0 k hk⟩, ⟨by omega, ?_, ?_⟩, ?_⟩
      · simpa [List.getElem?_drop] using hget
      · intro k hk1 hk2
        have := hfirst (k - i0) (by omega)
        rw [List.getElem?_drop] at this
        rwa [show i0 + (k - i0) = k by omega] at this
      · intro k v hk1 hk2 hv hmem
        refine hall (k - i0) v (by omega) ?_ hmem
        rw [List.getElem?_drop, show i0 + (k - i0) = k by omega]
        exact hv
    · rintro ⟨i, j, ⟨_, hgeti, hfirsti⟩, ⟨hij, hgetj, hfirstj⟩, hall⟩
      have hii : i = i0 := by
        rcases Nat.lt_trichotomy i i0 with h | h | h
        · exact absurd hgeti (hfirst0 i h)
        · exact h
        · exact absurd hget0 (hfirsti i0 (by omega) h)
      subst hii
      refine ⟨j - i, ?_, ?_, ?_⟩
      · rw [List.getElem?_drop, show i + (j - i) = j by omega]
        exact hgetj
      · intro k hk
        rw [List.getElem?_drop]
        exact hfirstj (i + k) (by omega) (by omega)
      · intro k v hk hv hmem
        rw [List.getElem?_drop] at hv
        exact hall (i + k) v (by omega) (by omega) hv hmem

/-- C1 (as stated) fails: in block `[L; T]` with a memory-typed `L` nothing but
the load itself lies before the target, so the stated condition holds, yet the
scan examines `L` and the function returns false. -/
theorem canMergeLoadLate_memLoad_counterexample :
    ¬ (canMergeLoadLate exMemLoad 2 1 = .ok true ↔ canFuseLateSpec exMemLoad 2 1) := by
  intro h
  have hspec : canFuseLateSpec exMemLoad 2 1 := by
    refine ⟨by decide, by decide, 0, 1, ⟨by omega, by decide, ?_⟩, ⟨by omega, by decide, ?_⟩, ?_⟩
    · intro k _ hk; omega
    · intro k _ hk
      have : k = 0 := by omega
      subst this
      decide
    · intro k v _ hk hv hne
      have : k = 0 := by omega
      subst this
      have hv1 : v = 1 := by
        have : (exMemLoad.blockAt (exMemLoad.valueAt 2).Block).Values[0]? = some 1 := by decide
        rw [this] at hv
        exact (Option.some.inj hv).symm
      exact absurd hv1 hne
  have hcode : canMergeLoadLate exMemLoad 2 1 = .ok false := by decide
  rw [hcode] at h
  have := h.mpr hspec
  cases this

/-- C2: in a block whose values are distinct, with load at index `i`, target at
index `j` and a memory-typed instruction that is not an `OpVarDef` at an index
strictly between them, `canMergeLoadLate(target, load)` returns false. -/
theorem canMergeLoadLate_rejects_memory_between (f : Func) (target load m : VPtr)
    (i j k : Nat)
    (hnd : (f.blockAt (f.valueAt target).Block).Values.Nodup)
    (hi : (f.blockAt (f.valueAt target).Block).Values[i]? = some load)
    (hj : (f.blockAt (f.valueAt target).Block).Values[j]? = some target)
    (hik : i < k) (hkj : k < j)
    (hk : (f.blockAt (f.valueAt target).Block).Values[k]? = some m)
    (hmem : (f.valueAt m).Typ.IsMemory = true)
    (hop : (f.valueAt m).Op ≠ OpVarDef) :
    canMergeLoadLate f target load = .ok false := by
  unfold canMergeLoadLate
  by_cases hb : (f.blockAt (f.valueAt target).Block).ID = (f.blockAt (f.valueAt load).Block).ID
  swap
  · rw [if_pos hb]
  rw [if_neg (not_not.mpr hb)]
  by_cases hu : (f.valueAt load).Uses = 1
  swap
  · rw [if_pos hu]
  rw [if_neg (not_not.mpr hu)]
  simp only
  generalize (f.blockAt (f.valueAt target).Block).Values = vals at *
  have hjlen : j < vals.length := by
    rcases List.getElem?_eq_some_iff.mp hj with ⟨h, _⟩
    exact h
  have huniq : ∀ (a b : Nat) (x : VPtr), vals[a]? = some x → vals[b]? = some x → a = b := by
    intro a b x ha hb2
    have hal : a < vals.length := (List.getElem?_eq_some_iff.mp ha).1
    exact List.getElem?_inj hal hnd (ha.trans hb2.symm)
  have hseek : seekLoad load vals 0 = .ok i :=
    (seekLoad_ok_iff load vals 0 i).mpr ⟨i, by omega, hi, fun q hq hq2 => by
      have := huniq q i load hq2 hi
      omega⟩
  rw [hseek]
  simp only
  refine scanToTarget_false_of_bad f target load (vals.drop i) (k - i) m ?_ ?_ hmem ?_
  · rw [List.getElem?_drop, show i + (k - i) = k by omega]
    exact hk
  · intro k2 hk2 hq
    rw [List.getElem?_drop] at hq
    have := huniq (i + k2) j target hq hj
    omega
  · intro hmk
    exact hop hmk.1

/-- C2 witness: `[L = Load(p, mem0); M = store; T = Use(x, L)]` is rejected. -/
theorem canMergeLoadLate_rejects_store_between :
    canMergeLoadLate exStoreBetween 3 1 = .ok false :=
  canMergeLoadLate_rejects_memory_between exStoreBetween 3 1 2 0 2 1
    (by decide) (by decide) (by decide) (by decide) (by decide) (by decide) (by decide)
    (by decide)

/-- C3: `canMergeLoadLateClobber(target, load, x)` returns true exactly when
`x.Uses = 1`, target's block is not strictly deeper than x's block and
`canMergeLoadLate(target, load)` returns true; it returns false when `x.Uses`
is not 1, when target's block is strictly deeper, and when `canMergeLoadLate`
returns false; at equal depths with `x.Uses = 1` it is `canMergeLoadLate`. -/
theorem canMergeLoadLateClobber_spec (depth : ID → Int) (f : Func) (target load x : VPtr) :
    (canMergeLoadLateClobber depth f target load x = .ok true ↔
      (f.valueAt x).Uses = 1 ∧
      ¬ (depth (f.blockAt (f.valueAt target).Block).ID >
          depth (f.blockAt (f.valueAt x).Block).ID) ∧
      canMergeLoadLate f target load = .ok true) ∧
    ((f.valueAt x).Uses ≠ 1 → canMergeLoadLateClobber depth f target load x = .ok false) ∧
    (depth (f.blockAt (f.valueAt target).Block).ID > depth (f.blockAt (f.valueAt x).Block).ID →
      canMergeLoadLateClobber depth f target load x = .ok false) ∧
    ((f.valueAt x).Uses = 1 →
      depth (f.blockAt (f.valueAt target).Block).ID = depth (f.blockAt (f.valueAt x).Block).ID →
      canMergeLoadLateClobber depth f target load x = canMergeLoadLate f target load) ∧
    (canMergeLoadLate f target load = .ok false →
      canMergeLoadLateClobber depth f target load x = .ok false) := by
  unfold canMergeLoadLateClobber
  by_cases hu : (f.valueAt x).Uses = 1
  swap
  · rw [if_pos hu]
    refine ⟨⟨(fun h => by cases h), fun h => absurd h.1 hu⟩, fun _ => rfl, fun _ => rfl,
      fun h => absurd h hu, fun _ => rfl⟩
  rw [if_neg (not_not.mpr hu)]
  by_cases hd : depth (f.blockAt (f.valueAt target).Block).ID >
      depth (f.blockAt (f.valueAt x).Block).ID
  · rw [if_pos hd]
    refine ⟨⟨(fun h => by cases h), fun h => absurd hd h.2.1⟩, fun _ => rfl, fun _ => rfl,
      fun _ h => ?_, fun _ => rfl⟩
    rw [h] at hd
    exact absurd hd (lt_irrefl _)
  · rw [if_neg hd]
    exact ⟨⟨fun h => ⟨hu, hd, h⟩, fun h => h.2.2⟩, fun h => absurd hu h, fun h => absurd h hd,
      fun _ _ => rfl, fun h => h⟩

/-! ## The driver: fixing up the memory argument -/

theorem fixMemoryArg_eq (f : Func) (b : BPtr) (v : VPtr) (n : Nat)
    (hn : n ≤ (f.blockAt b).Values.length) :
    fixMemoryArg f b v n =
      match ((f.blockAt b).Values.take n).reverse.find?
          (fun w => (f.valueAt w).Typ.IsMemory) with
      | none => .ok f
      | some w => repairWith f v w := by
  induction n with
  | zero => simp [fixMemoryArg]
  | succ n ih =>
    have hlt : n < (f.blockAt b).Values.length := by omega
    unfold fixMemoryArg
    rw [List.take_succ, List.getElem?_eq_getElem hlt]
    simp only [Option.toList, List.reverse_append, List.reverse_cons, List.reverse_nil,
      List.nil_append, List.singleton_append, List.find?_cons]
    by_cases hm : (f.valueAt (f.blockAt b).Values[n]).Typ.IsMemory = true
    · simp only [hm, if_true]
      rfl
    · rw [if_neg hm, ih (by omega)]
      simp only [hm]

/-! ## Heap updates -/

theorem setValue_valueAt (f : Func) (p : VPtr) (x : Value) (q : VPtr) :
    (f.setValue p x).valueAt q = if q = p then x else f.valueAt q := rfl

theorem setValue_valueAt_ne (f : Func) (p : VPtr) (x : Value) (q : VPtr) (hq : q ≠ p) :
    (f.setValue p x).valueAt q = f.valueAt q := by
  rw [setValue_valueAt, if_neg hq]

theorem setValue_valueAt_self (f : Func) (p : VPtr) (x : Value) :
    (f.setValue p x).valueAt p = x := by
  rw [setValue_valueAt, if_pos rfl]

theorem addUses_Op (f : Func) (p : VPtr) (d : Int) (q : VPtr) :
    ((addUses f p d).valueAt q).Op = (f.valueAt q).Op := by
  unfold addUses
  rw [setValue_valueAt]
  by_cases hq : q = p
  · rw [if_pos hq, hq]
  · rw [if_neg hq]

theorem addUses_Args (f : Func) (p : VPtr) (d : Int) (q : VPtr) :
    ((addUses f p d).valueAt q).Args = (f.valueAt q).Args := by
  unfold addUses
  rw [setValue_valueAt]
  by_cases hq : q = p
  · rw [if_pos hq, hq]
  · rw [if_neg hq]

theorem setArgs_Op (f : Func) (v : VPtr) (args : List VPtr) (q : VPtr) :
    ((setArgs f v args).valueAt q).Op = (f.valueAt q).Op := by
  unfold setArgs
  rw [setValue_valueAt]
  by_cases hq : q = v
  · rw [if_pos hq, hq]
  · rw [if_neg hq]

theorem setArgs_Args_self (f : Func) (v : VPtr) (args : List VPtr) :
    ((setArgs f v args).valueAt v).Args = args := by
  unfold setArgs
  rw [setValue_valueAt_self]

theorem setArgs_Args_ne (f : Func) (v : VPtr) (args : List VPtr) (q : VPtr) (hq : q ≠ v) :
    ((setArgs f v args).valueAt q).Args = (f.valueAt q).Args := by
  unfold setArgs
  rw [setValue_valueAt_ne _ _ _ _ hq]

theorem SetArg_ok (f f2 : Func) (v w : VPtr) (i : Int) (h : SetArg f v i w = .ok f2) :
    0 ≤ i ∧ i.toNat < (f.valueAt v).Args.length ∧
    (f2.valueAt v).Args = (f.valueAt v).Args.set i.toNat w ∧
    (∀ u, u ≠ v → (f2.valueAt u).Args = (f.valueAt u).Args) ∧
    (∀ u, (f2.valueAt u).Op = (f.valueAt u).Op) ∧
    f2.blockAt = f.blockAt ∧ f2.Blocks = f.Blocks := by
  unfold SetArg at h
  by_cases hi : i < 0
  · rw [if_pos hi] at h
    cases h
  rw [if_neg hi] at h
  cases hget : (f.valueAt v).Args[i.toNat]? with
  | none =>
    rw [hget] at h
    cases h
  | some old =>
    rw [hget] at h
    simp only [Except.ok.injEq] at h
    subst h
    have hlen : i.toNat < (f.valueAt v).Args.length := (List.getElem?_eq_some_iff.mp hget).1
    refine ⟨by omega, hlen, ?_, ?_, ?_, rfl, rfl⟩
    · rw [addUses_Args, setArgs_Args_self, addUses_Args]
    · intro u hu
      rw [addUses_Args, setArgs_Args_ne _ _ _ _ hu, addUses_Args]
    · intro u
      rw [addUses_Op, setArgs_Op, addUses_Op]

theorem SetArg_last_ok (f : Func) (v w : VPtr) (hargs : (f.valueAt v).Args ≠ []) :
    ∃ f2, SetArg f v (((f.valueAt v).Args.length : Int) - 1) w = .ok f2 := by
  have hpos : 0 < (f.valueAt v).Args.length := List.length_pos.mpr hargs
  unfold SetArg
  rw [if_neg (by omega)]
  have hlt : (((f.valueAt v).Args.length : Int) - 1).toNat < (f.valueAt v).Args.length := by
    omega
  rw [List.getElem?_eq_getElem hlt]
  exact ⟨_, rfl⟩

theorem visitValue_eq_repair (mergeValue : Func → VPtr → Func × Bool) (f : Func) (b : BPtr)
    (i : Nat) (v : VPtr) (hlen : i < ((mergeValue f v).1.blockAt b).Values.length)
    (hr : (mergeValue f v).2 = true) :
    visitValue mergeValue f b i v =
      match firstMemoryBack (mergeValue f v).1 ((mergeValue f v).1.blockAt b).Values i with
      | none => .ok (mergeValue f v).1
      | some w => repairWith (mergeValue f v).1 v w := by
  unfold visitValue firstMemoryBack
  rw [if_pos hr]
  exact fixMemoryArg_eq _ _ _ _ (by omega)

theorem SetArg_ne_fatal (f : Func) (v w : VPtr) (i : Int) (msg : String) :
    SetArg f v i w ≠ .error (.fatal msg) := by
  unfold SetArg
  split
  · intro h; cases h
  · split
    · intro h; cases h
    · intro h; cases h

/-- C4: when the fusion predicate returns true for `v`, at position `i` of `b`,
the visit stops with the fatal error "load moved through possibly aliased
memory states" exactly when the first memory-typed instruction `w` met scanning
backward from position `i` exists, is not `v.MemoryArg()`, and has
`w.Op ≠ OpVarDef` or `w.Aux = v.Aux`; when the predicate returns false the
visit returns normally. -/
theorem visitValue_fatal_iff (mergeValue : Func → VPtr → Func × Bool) (f : Func) (b : BPtr)
    (i : Nat) (v : VPtr)
    (hpos : ((mergeValue f v).1.blockAt b).Values[i]? = some v) :
    ((mergeValue f v).2 = true →
      (visitValue mergeValue f b i v = .error (.fatal aliasedMemoryMsg) ↔
        ∃ w, firstMemoryBack (mergeValue f v).1 ((mergeValue f v).1.blockAt b).Values i = some w ∧
          some w ≠ MemoryArg (mergeValue f v).1 v ∧
          (((mergeValue f v).1.valueAt w).Op ≠ OpVarDef ∨
            ((mergeValue f v).1.valueAt w).Aux = ((mergeValue f v).1.valueAt v).Aux))) ∧
    ((mergeValue f v).2 = false →
      visitValue mergeValue f b i v = .ok (mergeValue f v).1) := by
  constructor
  · intro hr
    have hlen : i < ((mergeValue f v).1.blockAt b).Values.length :=
      (List.getElem?_eq_some_iff.mp hpos).1
    rw [visitValue_eq_repair mergeValue f b i v hlen hr]
    generalize (mergeValue f v).1 = f1
    cases hw : firstMemoryBack f1 (f1.blockAt b).Values i with
    | none =>
      simp only
      constructor
      · intro h; cases h
      · rintro ⟨w, h, _⟩; cases h
    | some w =>
      simp only
      unfold repairWith
      by_cases hm : some w = MemoryArg f1 v
      · rw [if_pos hm]
        constructor
        · intro h; cases h
        · rintro ⟨w2, h, hne, _⟩
          cases h
          exact absurd hm hne
      · rw [if_neg hm]
        by_cases hbad : (f1.valueAt w).Op ≠ OpVarDef ∨ (f1.valueAt w).Aux = (f1.valueAt v).Aux
        · rw [if_pos hbad]
          constructor
          · intro _
            exact ⟨w, rfl, hm, hbad⟩
          · intro _
            rfl
        · rw [if_neg hbad]
          constructor
          · intro h
            exact absurd h (SetArg_ne_fatal _ _ _ _ _)
          · rintro ⟨w2, h, _, hb⟩
            cases h
            exact absurd hb hbad
  · intro hr
    unfold visitValue
    rw [hr]
    rfl

/-- C4 witness: fusing the load across a store is caught by the driver. -/
theorem visitValue_fatal_store_between :
    visitValue exFuse exStoreBetween 0 2 3 = .error (.fatal aliasedMemoryMsg) :=
  ((visitValue_fatal_iff exFuse exStoreBetween 0 2 3 (by decide)).1 (by decide)).mpr
    ⟨2, by decide, by decide, by decide⟩

/-- C5: when the fusion predicate returns true for `v`, at position `i` of `b`,
and `w` is the first memory-typed instruction met scanning backward from
position `i`: if `w` is not `v.MemoryArg()` and is an `OpVarDef` with `Aux`
different from `v.Aux`, the visit returns exactly when `v` has an argument, and
then the last argument of `v` is `w`, its other arguments and its `Op` are
those left by the predicate, and no other instruction's `Op` or arguments
change; if `w` is `v.MemoryArg()`, or there is no such `w`, the visit returns
the function as the predicate left it. -/
theorem visitValue_repair_frame (mergeValue : Func → VPtr → Func × Bool) (f : Func) (b : BPtr)
    (i : Nat) (v : VPtr)
    (hpos : ((mergeValue f v).1.blockAt b).Values[i]? = some v)
    (hr : (mergeValue f v).2 = true) :
    (∀ w, firstMemoryBack (mergeValue f v).1 ((mergeValue f v).1.blockAt b).Values i = some w →
      some w ≠ MemoryArg (mergeValue f v).1 v →
      ((mergeValue f v).1.valueAt w).Op = OpVarDef →
      ((mergeValue f v).1.valueAt w).Aux ≠ ((mergeValue f v).1.valueAt v).Aux →
      (((mergeValue f v).1.valueAt v).Args = [] →
        visitValue mergeValue f b i v = .error .indexOutOfRange) ∧
      (((mergeValue f v).1.valueAt v).Args ≠ [] →
        ∃ f2, visitValue mergeValue f b i v = .ok f2 ∧
          (f2.valueAt v).Args.length = ((mergeValue f v).1.valueAt v).Args.length ∧
          (f2.valueAt v).Args.getLast? = some w ∧
          (∀ k, k + 1 < ((mergeValue f v).1.valueAt v).Args.length →
            (f2.valueAt v).Args[k]? = ((mergeValue f v).1.valueAt v).Args[k]?) ∧
          (f2.valueAt v).Op = ((mergeValue f v).1.valueAt v).Op ∧
          ∀ u, u ≠ v → (f2.valueAt u).Op = ((mergeValue f v).1.valueAt u).Op ∧
            (f2.valueAt u).Args = ((mergeValue f v).1.valueAt u).Args)) ∧
    (∀ w, firstMemoryBack (mergeValue f v).1 ((mergeValue f v).1.blockAt b).Values i = some w →
      some w = MemoryArg (mergeValue f v).1 v →
      visitValue mergeValue f b i v = .ok (mergeValue f v).1) ∧
    (firstMemoryBack (mergeValue f v).1 ((mergeValue f v).1.blockAt b).Values i = none →
      visitValue mergeValue f b i v = .ok (mergeValue f v).1) := by
  have hlen : i < ((mergeValue f v).1.blockAt b).Values.length :=
    (List.getElem?_eq_some_iff.mp hpos).1
  rw [visitValue_eq_repair mergeValue f b i v hlen hr]
  generalize (mergeValue f v).1 = f1
  refine ⟨?_, ?_, ?_⟩
  · intro w hw hne hop haux
    rw [hw]
    simp only
    have hgood : ¬ ((f1.valueAt w).Op ≠ OpVarDef ∨ (f1.valueAt w).Aux = (f1.valueAt v).Aux) := by
      rintro (h | h)
      · exact h hop
      · exact haux h
    unfold repairWith
    rw [if_neg hne, if_neg hgood]
    constructor
    · intro hnil
      unfold SetArg
      rw [hnil]
      rfl
    · intro hargs
      obtain ⟨f2, hf2⟩ := SetArg_last_ok f1 v w hargs
      obtain ⟨_, hlt, hA, hother, hOp, _, _⟩ := SetArg_ok f1 f2 v w _ hf2
      have hpos : 0 < (f1.valueAt v).Args.length := List.length_pos.mpr hargs
      have hidx : (((f1.valueAt v).Args.length : Int) - 1).toNat =
          (f1.valueAt v).Args.length - 1 := by omega
      rw [hidx] at hA hlt
      refine ⟨f2, hf2, ?_, ?_, ?_, hOp v, fun u hu => ⟨hOp u, hother u hu⟩⟩
      · rw [hA, List.length_set]
      · rw [List.getLast?_eq_getElem?, hA, List.length_set, List.getElem?_set_self hlt]
      · intro k hk
        rw [hA, List.getElem?_set_ne (by omega)]
  · intro w hw hm
    rw [hw]
    simp only
    unfold repairWith
    rw [if_pos hm]
  · intro hw
    rw [hw]

/-- C5 witness: with a marker for another variable between load and target, the
fused value's memory argument is rebound to the marker. -/
theorem visitValue_repair_marker_between :
    ∃ f2, visitValue exFuse exMarkerBetween 0 2 3 = .ok f2 ∧
      (f2.valueAt 3).Args.length = 3 ∧ (f2.valueAt 3).Args.getLast? = some 2 := by
  obtain ⟨f2, h, hlen, hlast, _⟩ :=
    ((visitValue_repair_frame exFuse exMarkerBetween 0 2 3 (by decide) (by decide)).1 2
      (by decide) (by decide) (by decide) (by decide)).2 (by decide)
  exact ⟨f2, h, hlen, hlast⟩

/-! ## The tracking set -/

theorem needsInvert_true_iff (m : mergeLoadState) (f : Func) (v : VPtr) :
    needsInvert m f v = .ok true ↔
      (f.valueAt v).ID ∈ m.invert ∨
      (isSelector (f.valueAt v).Op ∧
        ∃ a, (f.valueAt v).Args[0]? = some a ∧ (f.valueAt a).ID ∈ m.invert) := by
  unfold needsInvert
  by_cases hid : (f.valueAt v).ID ∈ m.invert
  · have hc : m.invert.contains (f.valueAt v).ID = true := List.elem_iff.mpr hid
    rw [if_pos hc]
    exact ⟨fun _ => Or.inl hid, fun _ => rfl⟩
  · have hc : ¬ m.invert.contains (f.valueAt v).ID = true := fun h =>
      hid (List.elem_iff.mp h)
    rw [if_neg hc]
    by_cases hsel : (f.valueAt v).Op = OpSelect0 ∨ (f.valueAt v).Op = OpSelect1
    · rw [if_pos hsel]
      cases ha : (f.valueAt v).Args[0]? with
      | none =>
        simp only
        constructor
        · intro h; cases h
        · rintro (h | ⟨_, a, h, _⟩)
          · exact absurd h hid
          · cases h
      | some a =>
        simp only [Except.ok.injEq]
        constructor
        · intro h
          exact Or.inr ⟨hsel, a, rfl, List.elem_iff.mp h⟩
        · rintro (h | ⟨_, a2, h, hmem⟩)
          · exact absurd h hid
          · cases h
            exact List.elem_iff.mpr hmem
    · rw [if_neg hsel]
      constructor
      · intro h; cases h
      · rintro (h | ⟨h, _⟩)
        · exact absurd h hid
        · exact absurd h hsel

/-- C9: `needsInvert(v)` is true exactly when `v.ID` is in the tracking set, or
`v.Op` is `OpSelect0` or `OpSelect1` and the ID of `v.Args[0]` is in the set;
and for a selector `outer` of a selector `inner` of a marked instruction, with
neither selector's ID in the set, `needsInvert(outer)` is false. -/
theorem needsInvert_spec (m : mergeLoadState) (f : Func) :
    (∀ v, needsInvert m f v = .ok true ↔
      (f.valueAt v).ID ∈ m.invert ∨
      (((f.valueAt v).Op = OpSelect0 ∨ (f.valueAt v).Op = OpSelect1) ∧
        ∃ a, (f.valueAt v).Args[0]? = some a ∧ (f.valueAt a).ID ∈ m.invert)) ∧
    (∀ outer inner t,
      ((f.valueAt outer).Op = OpSelect0 ∨ (f.valueAt outer).Op = OpSelect1) →
      (f.valueAt outer).Args[0]? = some inner →
      ((f.valueAt inner).Op = OpSelect0 ∨ (f.valueAt inner).Op = OpSelect1) →
      (f.valueAt inner).Args[0]? = some t →
      (f.valueAt t).ID ∈ m.invert →
      (f.valueAt outer).ID ∉ m.invert → (f.valueAt inner).ID ∉ m.invert →
      needsInvert m f outer = .ok false) := by
  refine ⟨fun v => needsInvert_true_iff m f v, ?_⟩
  intro outer inner t hsel harg _ _ _ hout hin
  unfold needsInvert
  have hc : ¬ m.invert.contains (f.valueAt outer).ID = true := fun h =>
    hout (List.elem_iff.mp h)
  have hc2 : m.invert.contains (f.valueAt inner).ID = false := by
    cases hx : m.invert.contains (f.valueAt inner).ID with
    | false => rfl
    | true => exact absurd (List.elem_iff.mp hx) hin
  rw [if_neg hc, if_pos hsel, harg]
  simp only [hc2]

/-- C9 witness: with `T` marked, `S = Select1(T)` and `S2 = Select0(S)`,
`needsInvert(S)` is true and `needsInvert(S2)` is false. -/
theorem needsInvert_one_level :
    needsInvert exMarkT exSelChain 2 = .ok true ∧
      needsInvert exMarkT exSelChain 3 = .ok false :=
  ⟨((needsInvert_spec exMarkT exSelChain).1 2).mpr
      (Or.inr ⟨by decide, 1, by decide, by decide⟩),
    (needsInvert_spec exMarkT exSelChain).2 3 2 1
      (by decide) (by decide) (by decide) (by decide) (by decide) (by decide) (by decide)⟩

/-! ## The third pass -/

theorem compactValues_eq (f : Func) (vals vv : List VPtr) :
    (compactValues f vals vv).2 = vv ++ vals.filter (isKept f) ∧
    (compactValues f vals vv).1.freeValues = (vals.filter (isRetired f)).reverse ++ f.freeValues ∧
    (compactValues f vals vv).1.valueAt = f.valueAt ∧
    (compactValues f vals vv).1.blockAt = f.blockAt ∧
    (compactValues f vals vv).1.Blocks = f.Blocks ∧
    (compactValues f vals vv).1.mergeLoadState = f.mergeLoadState := by
  induction vals generalizing f vv with
  | nil => simp [compactValues]
  | cons v rest ih =>
    unfold compactValues
    by_cases hv : (f.valueAt v).Op = OpInvalid
    · rw [if_pos hv]
      obtain ⟨h1, h2, h3, h4, h5, h6⟩ := ih (freeValue f v) vv
      have hk : isKept f v = false := by simp [isKept, hv]
      have hr : isRetired f v = true := by simp [isRetired, hv]
      have hkeq : isKept (freeValue f v) = isKept f := rfl
      have hreq : isRetired (freeValue f v) = isRetired f := rfl
      refine ⟨?_, ?_, h3, h4, h5, h6⟩
      · rw [h1, hkeq, List.filter_cons_of_neg (by simp [hk])]
      · rw [h2, hreq, List.filter_cons_of_pos hr]
        simp [freeValue]
    · rw [if_neg hv]
      obtain ⟨h1, h2, h3, h4, h5, h6⟩ := ih f (vv ++ [v])
      have hk : isKept f v = true := by simp [isKept, hv]
      have hr : isRetired f v = false := by simp [isRetired, hv]
      refine ⟨?_, ?_, h3, h4, h5, h6⟩
      · rw [h1, List.filter_cons_of_pos hk]
        simp
      · rw [h2, List.filter_cons_of_neg (by simp [hr])]

theorem compactBlock_frame (f : Func) (b : BPtr) :
    (compactBlock f b).valueAt = f.valueAt ∧
    (compactBlock f b).Blocks = f.Blocks ∧
    (compactBlock f b).mergeLoadState = f.mergeLoadState ∧
    ((compactBlock f b).blockAt b).Values = (f.blockAt b).Values.filter (isKept f) ∧
    (∀ c, c ≠ b → (compactBlock f b).blockAt c = f.blockAt c) ∧
    (compactBlock f b).freeValues =
      ((f.blockAt b).Values.filter (isRetired f)).reverse ++ f.freeValues := by
  obtain ⟨h1, h2, h3, h4, h5, h6⟩ := compactValues_eq f (f.blockAt b).Values []
  unfold compactBlock
  refine ⟨h3, h5, h6, ?_, ?_, h2⟩
  · simp [Func.setBlock, h1]
  · intro c hc
    simp [Func.setBlock, hc, h4]

theorem isKept_congr (f g : Func) (h : g.valueAt = f.valueAt) : isKept g = isKept f := by
  funext v
  simp [isKept, h]

theorem compactBlocks_frame (f : Func) (bs : List BPtr) :
    (compactBlocks f bs).valueAt = f.valueAt ∧
    (compactBlocks f bs).Blocks = f.Blocks ∧
    (compactBlocks f bs).mergeLoadState = f.mergeLoadState ∧
    (∀ c, c ∉ bs → (compactBlocks f bs).blockAt c = f.blockAt c) ∧
    (∀ c, c ∈ bs →
      ((compactBlocks f bs).blockAt c).Values = (f.blockAt c).Values.filter (isKept f)) := by
  induction bs generalizing f with
  | nil => simp [compactBlocks]
  | cons b rest ih =>
    unfold compactBlocks
    obtain ⟨h1, h2, h3, h4, h5⟩ := ih (compactBlock f b)
    obtain ⟨g1, g2, g3, g4, g5, _⟩ := compactBlock_frame f b
    have hk := isKept_congr f (compactBlock f b) g1
    refine ⟨h1.trans g1, h2.trans g2, h3.trans g3, ?_, ?_⟩
    · intro c hc
      have hcb : c ≠ b := fun h => hc (by simp [h])
      have hcr : c ∉ rest := fun h => hc (by simp [h])
      rw [h4 c hcr, g5 c hcb]
    · intro c hc
      by_cases hcr : c ∈ rest
      · rw [h5 c hcr, hk]
        by_cases hcb : c = b
        · rw [hcb, g4, List.filter_filter]
          simp
        · rw [g5 c hcb]
      · have hcb : c = b := by
          rcases List.mem_cons.mp hc with h | h
          · exact h
          · exact absurd h hcr
        rw [h4 c hcr, hcb, g4]

theorem compactBlocks_append (f : Func) (xs ys : List BPtr) :
    compactBlocks f (xs ++ ys) = compactBlocks (compactBlocks f xs) ys := by
  induction xs generalizing f with
  | nil => rfl
  | cons b rest ih =>
    simp only [List.cons_append, compactBlocks]
    exact ih _

/-- C10: for every block `b` of the function, after the third pass `b.Values`
is the previous `b.Values` filtered, in order, by `Op ≠ OpInvalid`: no value of
the block has `Op` `OpInvalid`, the retained values are a subsequence of the
previous ones, the length is the previous length minus the number of retired
values; and when `b` is visited (for the first time) the values handed to
`freeValue` are the retired ones of `b.Values`, each once, in order. -/
theorem compact_spec (f : Func) (b : BPtr) (hb : b ∈ f.Blocks) :
    ((compactBlocks f f.Blocks).blockAt b).Values = (f.blockAt b).Values.filter (isKept f) ∧
    (∀ v ∈ ((compactBlocks f f.Blocks).blockAt b).Values,
      ((compactBlocks f f.Blocks).valueAt v).Op ≠ OpInvalid) ∧
    (((compactBlocks f f.Blocks).blockAt b).Values).Sublist (f.blockAt b).Values ∧
    (((compactBlocks f f.Blocks).blockAt b).Values).length =
      (f.blockAt b).Values.length - (f.blockAt b).Values.countP (isRetired f) ∧
    ∃ pre post, f.Blocks = pre ++ b :: post ∧ b ∉ pre ∧
      compactBlocks f f.Blocks = compactBlocks (compactBlock (compactBlocks f pre) b) post ∧
      (compactBlock (compactBlocks f pre) b).freeValues =
        ((f.blockAt b).Values.filter (isRetired f)).reverse ++ (compactBlocks f pre).freeValues := by
  obtain ⟨h1, _, _, _, h5⟩ := compactBlocks_frame f f.Blocks
  have hvals := h5 b hb
  refine ⟨hvals, ?_, ?_, ?_, ?_⟩
  · intro v hv
    rw [hvals] at hv
    have := (List.mem_filter.mp hv).2
    rw [h1]
    simpa [isKept] using this
  · rw [hvals]
    exact List.filter_sublist _
  · rw [hvals]
    have hsum := List.length_eq_countP_add_countP (isKept f) (f.blockAt b).Values
    have hneg : List.countP (fun a => decide ¬isKept f a = true) (f.blockAt b).Values =
        List.countP (isRetired f) (f.blockAt b).Values := by
      congr 1
      funext v
      simp [isKept, isRetired]
    rw [hneg, List.countP_eq_length_filter (isKept f)] at hsum
    omega
  · obtain ⟨pre, post, hsplit, hpre⟩ := List.eq_append_cons_of_mem hb
    refine ⟨pre, post, hsplit, hpre, ?_, ?_⟩
    · rw [hsplit, compactBlocks_append]
      rfl
    · obtain ⟨g1, _, _, g4, _⟩ := compactBlocks_frame f pre
      obtain ⟨_, _, _, _, _, k6⟩ := compactBlock_frame (compactBlocks f pre) b
      rw [k6, g4 b hpre]
      have : isRetired (compactBlocks f pre) = isRetired f := by
        funext v
        simp [isRetired, g1]
      rw [this]

/-- C10 witness: the retired load is dropped from block `[L; D; T]` and freed. -/
theorem compact_retired_load :
    ((compactBlocks exRetired exRetired.Blocks).blockAt 0).Values = [2, 3] ∧
      (compactBlocks exRetired exRetired.Blocks).freeValues = [1] :=
  ⟨(compact_spec exRetired 0 (by decide)).1.trans (by decide), by decide⟩

/-! ## The second pass as a sequence of steps -/

theorem invertFrame_refl (f : Func) : InvertFrame f f :=
  ⟨rfl, rfl, rfl, fun _ => rfl, fun _ => rfl, fun _ => rfl, fun _ => rfl, fun _ => rfl,
    fun _ => Or.inl rfl⟩

theorem invertFrame_trans {f f1 f2 : Func} (h1 : InvertFrame f f1) (h2 : InvertFrame f1 f2) :
    InvertFrame f f2 where
  blocks := h2.blocks.trans h1.blocks
  state := h2.state.trans h1.state
  free := h2.free.trans h1.free
  blkValues b := (h2.blkValues b).trans (h1.blkValues b)
  blkControl b := (h2.blkControl b).trans (h1.blkControl b)
  blkID b := (h2.blkID b).trans (h1.blkID b)
  args u := (h2.args u).trans (h1.args u)
  ids u := (h2.ids u).trans (h1.ids u)
  sel u := by
    rcases h2.sel u with h | h
    · rcases h1.sel u with h' | h'
      · exact Or.inl (h.trans h')
      · exact Or.inr (by rw [h]; exact h')
    · exact Or.inr h

theorem mapIndex_mem {α β : Type} [DecidableEq α] (zero : β) (m : List (α × β)) (k : α) :
    mapIndex zero m k = zero ∨ (k, mapIndex zero m k) ∈ m := by
  unfold mapIndex
  cases h : m.find? (fun e => decide (e.1 = k)) with
  | none => exact Or.inl rfl
  | some e =>
    right
    have hmem := List.mem_of_find?_eq_some h
    have hk := List.find?_some h
    simp only [decide_eq_true_eq] at hk
    simp only
    rw [← hk]
    exact hmem

theorem invertTable_not_selector (k : Nat) (op : Op) :
    ¬ isSelector (mapIndex OpInvalid (invertTable k) op) := by
  have h0 : ∀ e ∈ invertValueArg0, ¬ isSelector e.2 := by decide
  have h1 : ∀ e ∈ invertValueArg1, ¬ isSelector e.2 := by decide
  have h2 : ∀ e ∈ invertValueArg2, ¬ isSelector e.2 := by decide
  have hall : ∀ e ∈ invertTable k, ¬ isSelector e.2 := by
    match k with
    | 0 => exact h0
    | 1 => exact h1
    | _ + 2 => exact h2
  rcases mapIndex_mem OpInvalid (invertTable k) op with h | h
  · rw [h]
    decide
  · exact hall _ h

theorem setOp_frame (f : Func) (v : VPtr) (op : Op) (hop : ¬ isSelector op) :
    InvertFrame f (setOp f v op) ∧
      (∀ u, u ≠ v → (setOp f v op).valueAt u = f.valueAt u) ∧
      (setOp f v op).blockAt = f.blockAt ∧
      ((setOp f v op).valueAt v).Op = op := by
  have hval : ∀ u, (setOp f v op).valueAt u =
      if u = v then { f.valueAt v with Op := op } else f.valueAt u := fun _ => rfl
  refine ⟨⟨rfl, rfl, rfl, fun _ => rfl, fun _ => rfl, fun _ => rfl, ?_, ?_, ?_⟩, ?_, rfl, ?_⟩
  · intro u
    rw [hval]
    by_cases hu : u = v
    · rw [if_pos hu, hu]
    · rw [if_neg hu]
  · intro u
    rw [hval]
    by_cases hu : u = v
    · rw [if_pos hu, hu]
    · rw [if_neg hu]
  · intro u
    rw [hval]
    by_cases hu : u = v
    · rw [if_pos hu]
      exact Or.inr hop
    · rw [if_neg hu]
      exact Or.inl rfl
  · intro u hu
    rw [hval, if_neg hu]
  · rw [hval, if_pos rfl]

/-- The `Op` that the `switch` gives `v`, from the answers of the three guards. -/
theorem invertValue_cases (f f1 : Func) (v : VPtr) (h : invertValue f v = .ok f1) :
    (argNeedsInvert f v 0 = .ok true ∧
      f1 = setOp f v (mapIndex OpInvalid (invertTable 0) (f.valueAt v).Op)) ∨
    (argNeedsInvert f v 0 = .ok false ∧ argNeedsInvert f v 1 = .ok true ∧
      f1 = setOp f v (mapIndex OpInvalid (invertTable 1) (f.valueAt v).Op)) ∨
    (argNeedsInvert f v 0 = .ok false ∧ argNeedsInvert f v 1 = .ok false ∧
      argNeedsInvert f v 2 = .ok true ∧
      f1 = setOp f v (mapIndex OpInvalid (invertTable 2) (f.valueAt v).Op)) ∨
    (argNeedsInvert f v 0 = .ok false ∧ argNeedsInvert f v 1 = .ok false ∧
      argNeedsInvert f v 2 = .ok false ∧ f1 = f) := by
  unfold invertValue at h
  cases h0 : argNeedsInvert f v 0 with
  | error e => rw [h0] at h; cases h
  | ok r0 =>
    rw [h0] at h
    cases r0 with
    | true =>
      simp only [Except.ok.injEq] at h
      exact Or.inl ⟨rfl, h.symm⟩
    | false =>
      simp only at h
      cases h1 : argNeedsInvert f v 1 with
      | error e => rw [h1] at h; cases h
      | ok r1 =>
        rw [h1] at h
        cases r1 with
        | true =>
          simp only [Except.ok.injEq] at h
          exact Or.inr (Or.inl ⟨rfl, rfl, h.symm⟩)
        | false =>
          simp only at h
          cases h2 : argNeedsInvert f v 2 with
          | error e => rw [h2] at h; cases h
          | ok r2 =>
            rw [h2] at h
            cases r2 with
            | true =>
              simp only [Except.ok.injEq] at h
              exact Or.inr (Or.inr (Or.inl ⟨rfl, rfl, rfl, h.symm⟩))
            | false =>
              simp only [Except.ok.injEq] at h
              exact Or.inr (Or.inr (Or.inr ⟨rfl, rfl, rfl, h.symm⟩))

theorem invertValue_frame (f f1 : Func) (v : VPtr) (h : invertValue f v = .ok f1) :
    InvertFrame f f1 ∧ (∀ u, u ≠ v → f1.valueAt u = f.valueAt u) ∧ f1.blockAt = f.blockAt := by
  rcases invertValue_cases f f1 v h with ⟨_, h⟩ | ⟨_, _, h⟩ | ⟨_, _, _, h⟩ | ⟨_, _, _, h⟩
  · rw [h]
    obtain ⟨a, b, c, _⟩ := setOp_frame f v _ (invertTable_not_selector 0 (f.valueAt v).Op)
    exact ⟨a, b, c⟩
  · rw [h]
    obtain ⟨a, b, c, _⟩ := setOp_frame f v _ (invertTable_not_selector 1 (f.valueAt v).Op)
    exact ⟨a, b, c⟩
  · rw [h]
    obtain ⟨a, b, c, _⟩ := setOp_frame f v _ (invertTable_not_selector 2 (f.valueAt v).Op)
    exact ⟨a, b, c⟩
  · rw [h]
    exact ⟨invertFrame_refl f, fun _ _ => rfl, rfl⟩

theorem invertKind_frame (f : Func) (b : BPtr) :
    InvertFrame f (invertKind f b) ∧ (invertKind f b).valueAt = f.valueAt ∧
      (∀ c, c ≠ b → (invertKind f b).blockAt c = f.blockAt c) ∧
      ((invertKind f b).blockAt b).Kind =
        mapIndex BlockInvalid invertBlockKind (f.blockAt b).Kind := by
  have hblk : ∀ c, (invertKind f b).blockAt c =
      if c = b then { f.blockAt b with
        Kind := mapIndex BlockInvalid invertBlockKind (f.blockAt b).Kind } else f.blockAt c :=
    fun _ => rfl
  refine ⟨⟨rfl, rfl, rfl, ?_, ?_, ?_, fun _ => rfl, fun _ => rfl, fun _ => Or.inl rfl⟩, rfl,
    ?_, ?_⟩
  · intro c
    rw [hblk]
    by_cases hc : c = b
    · rw [if_pos hc, hc]
    · rw [if_neg hc]
  · intro c
    rw [hblk]
    by_cases hc : c = b
    · rw [if_pos hc, hc]
    · rw [if_neg hc]
  · intro c
    rw [hblk]
    by_cases hc : c = b
    · rw [if_pos hc, hc]
    · rw [if_neg hc]
  · intro c hc
    rw [hblk, if_neg hc]
  · rw [hblk, if_pos rfl]

theorem stepEvent_frame (f f1 : Func) (e : Event) (h : stepEvent f e = .ok f1) :
    InvertFrame f f1 ∧ (∀ u, e ≠ .val u → f1.valueAt u = f.valueAt u) ∧
      (∀ b, e ≠ .ctl b → f1.blockAt b = f.blockAt b) := by
  cases e with
  | ctl b =>
    simp only [stepEvent] at h
    cases hc : controlNeedsInvert f b with
    | error err => rw [hc] at h; cases h
    | ok r =>
      rw [hc] at h
      cases r with
      | true =>
        simp only [Except.ok.injEq] at h
        subst h
        obtain ⟨a, hv, hb, _⟩ := invertKind_frame f b
        refine ⟨a, fun u _ => by rw [hv], fun c hc => hb c ?_⟩
        intro hcb
        exact hc (by rw [hcb])
      | false =>
        simp only [Except.ok.injEq] at h
        subst h
        exact ⟨invertFrame_refl f, fun _ _ => rfl, fun _ _ => rfl⟩
  | val v =>
    obtain ⟨a, hv, hb⟩ := invertValue_frame f f1 v h
    refine ⟨a, fun u hu => hv u ?_, fun b _ => by rw [hb]⟩
    intro huv
    exact hu (by rw [huv])

theorem runEvents_frame (f f1 : Func) (es : List Event) (h : runEvents f es = .ok f1) :
    InvertFrame f f1 ∧ (∀ u, Event.val u ∉ es → f1.valueAt u = f.valueAt u) ∧
      (∀ b, Event.ctl b ∉ es → f1.blockAt b = f.blockAt b) := by
  induction es generalizing f with
  | nil =>
    simp only [runEvents, Except.ok.injEq] at h
    subst h
    exact ⟨invertFrame_refl f, fun _ _ => rfl, fun _ _ => rfl⟩
  | cons e rest ih =>
    unfold runEvents at h
    cases hs : stepEvent f e with
    | error err => rw [hs] at h; cases h
    | ok f0 =>
      rw [hs] at h
      simp only at h
      obtain ⟨a1, v1, b1⟩ := stepEvent_frame f f0 e hs
      obtain ⟨a2, v2, b2⟩ := ih f0 h
      refine ⟨invertFrame_trans a1 a2, ?_, ?_⟩
      · intro u hu
        rw [v2 u (fun hm => hu (List.mem_cons_of_mem _ hm)),
          v1 u (fun he => hu (by rw [he]; exact List.mem_cons_self _ _))]
      · intro b hb
        rw [b2 b (fun hm => hb (List.mem_cons_of_mem _ hm)),
          b1 b (fun he => hb (by rw [he]; exact List.mem_cons_self _ _))]

theorem runEvents_append (f : Func) (xs ys : List Event) :
    runEvents f (xs ++ ys) =
      match runEvents f xs with
      | .error err => .error err
      | .ok f1 => runEvents f1 ys := by
  induction xs generalizing f with
  | nil => rfl
  | cons e rest ih =>
    simp only [List.cons_append, runEvents]
    cases hs : stepEvent f e with
    | error err => rfl
    | ok f0 => exact ih f0

theorem invertValues_eq_runEvents (f : Func) (vs : List VPtr) :
    invertValues f vs = runEvents f (vs.map .val) := by
  induction vs generalizing f with
  | nil => rfl
  | cons v rest ih =>
    simp only [List.map_cons, runEvents, invertValues, stepEvent]
    cases hs : invertValue f v with
    | error err => rfl
    | ok f0 => exact ih f0

theorem invertBlock_eq_runEvents (f : Func) (b : BPtr) :
    invertBlock f b = runEvents f (blockEvents f b) := by
  unfold invertBlock blockEvents
  simp only [runEvents, stepEvent]
  cases hc : controlNeedsInvert f b with
  | error err => rfl
  | ok r =>
    cases r with
    | true =>
      simp only
      rw [invertValues_eq_runEvents, (invertKind_frame f b).1.blkValues b]
    | false =>
      simp only
      rw [invertValues_eq_runEvents]

theorem stageEvents_frame (f f1 : Func) (h : InvertFrame f f1) (bs : List BPtr) :
    stageEvents f1 bs = stageEvents f bs := by
  unfold stageEvents blockEvents
  congr 1
  funext b
  rw [h.blkValues b]

theorem invertBlocks_eq_runEvents (f : Func) (bs : List BPtr) :
    invertBlocks f bs = runEvents f (stageEvents f bs) := by
  induction bs generalizing f with
  | nil => rfl
  | cons b rest ih =>
    have hcons : stageEvents f (b :: rest) = blockEvents f b ++ stageEvents f rest := by
      simp [stageEvents]
    rw [hcons, runEvents_append]
    unfold invertBlocks
    rw [invertBlock_eq_runEvents]
    cases hr : runEvents f (blockEvents f b) with
    | error err => rfl
    | ok f0 =>
      simp only
      rw [ih f0, stageEvents_frame f f0 (runEvents_frame f f0 _ hr).1]

theorem invertReady_frame {m : mergeLoadState} {f f1 : Func} (hr : InvertReady m f)
    (hf : InvertFrame f f1) : InvertReady m f1 := by
  refine ⟨hf.state.trans hr.1, ?_⟩
  intro u hu
  rw [hf.args u]
  rcases hf.sel u with h | h
  · exact hr.2 u (by rw [← h]; exact hu)
  · exact absurd hu h

theorem needsInvert_ok (m : mergeLoadState) (f : Func) (a : VPtr)
    (hwf : isSelector (f.valueAt a).Op → (f.valueAt a).Args ≠ []) :
    ∃ r, needsInvert m f a = .ok r := by
  unfold needsInvert
  by_cases hc : m.invert.contains (f.valueAt a).ID = true
  · rw [if_pos hc]
    exact ⟨_, rfl⟩
  · rw [if_neg hc]
    by_cases hsel : (f.valueAt a).Op = OpSelect0 ∨ (f.valueAt a).Op = OpSelect1
    · rw [if_pos hsel]
      have hne := hwf hsel
      cases hargs : (f.valueAt a).Args with
      | nil => exact absurd hargs hne
      | cons t rest =>
        rw [List.getElem?_cons_zero]
        exact ⟨_, rfl⟩
    · rw [if_neg hsel]
      exact ⟨_, rfl⟩

theorem funcNeedsInvert_eq (m : mergeLoadState) (f : Func) (a : VPtr)
    (hst : f.mergeLoadState = some m) : f.needsInvert a = MergeLoad.needsInvert m f a := by
  unfold Func.needsInvert
  rw [hst]

/-- Between the state before the pass and a later state, `needsInvert` answers
the same on an instruction that is unchanged or is no hidden selector. -/
theorem needsInvert_stable (m : mergeLoadState) (f f1 : Func) (a : VPtr)
    (hr : InvertReady m f) (hf : InvertFrame f f1)
    (h : f1.valueAt a = f.valueAt a ∨ ¬ hiddenSelector m f a) :
    needsInvert m f1 a = needsInvert m f a := by
  have hids : ∀ t, m.invert.contains (f1.valueAt t).ID = m.invert.contains (f.valueAt t).ID :=
    fun t => by rw [hf.ids t]
  rcases h with h | h
  · unfold needsInvert
    rw [hids a, h]
    cases (f.valueAt a).Args[0]? with
    | none => rfl
    | some t => simp only [hids t]
  · unfold needsInvert
    rw [hids a, hf.args a]
    by_cases hc : m.invert.contains (f.valueAt a).ID = true
    · rw [if_pos hc, if_pos hc]
    · rw [if_neg hc, if_neg hc]
      have hid : (f.valueAt a).ID ∉ m.invert := fun hm => hc (List.elem_iff.mpr hm)
      by_cases hsel : (f.valueAt a).Op = OpSelect0 ∨ (f.valueAt a).Op = OpSelect1
      · rw [if_pos hsel]
        have hne := hr.2 a hsel
        cases hargs : (f.valueAt a).Args with
        | nil => exact absurd hargs hne
        | cons t rest =>
          have ht : (f.valueAt t).ID ∉ m.invert := by
            intro hm
            exact h ⟨hid, hsel, t, by rw [hargs, List.getElem?_cons_zero], hm⟩
          have hct : m.invert.contains (f.valueAt t).ID = false := by
            cases hx : m.invert.contains (f.valueAt t).ID with
            | false => rfl
            | true => exact absurd (List.elem_iff.mp hx) ht
          simp only [List.getElem?_cons_zero, hids t, hct]
          split <;> rfl
      · rw [if_neg hsel]
        have hsel1 : ¬ ((f1.valueAt a).Op = OpSelect0 ∨ (f1.valueAt a).Op = OpSelect1) := by
          rcases hf.sel a with h' | h'
          · rw [h']
            exact hsel
          · exact h'
        rw [if_neg hsel1]

theorem argNeedsInvert_ok (m : mergeLoadState) (f : Func) (v : VPtr) (k : Nat)
    (hr : InvertReady m f) : ∃ r, argNeedsInvert f v k = .ok r := by
  unfold argNeedsInvert
  cases (f.valueAt v).Args[k]? with
  | none => exact ⟨_, rfl⟩
  | some a =>
    simp only
    rw [funcNeedsInvert_eq m f a hr.1]
    exact needsInvert_ok m f a (hr.2 a)

theorem stepEvent_ok (m : mergeLoadState) (f : Func) (e : Event) (hr : InvertReady m f) :
    ∃ f1, stepEvent f e = .ok f1 := by
  cases e with
  | ctl b =>
    simp only [stepEvent]
    have hc : ∃ r, controlNeedsInvert f b = .ok r := by
      unfold controlNeedsInvert
      cases (f.blockAt b).Control with
      | none => exact ⟨_, rfl⟩
      | some c =>
        simp only
        rw [funcNeedsInvert_eq m f c hr.1]
        exact needsInvert_ok m f c (hr.2 c)
    obtain ⟨r, hc⟩ := hc
    rw [hc]
    cases r with
    | true => exact ⟨_, rfl⟩
    | false => exact ⟨_, rfl⟩
  | val v =>
    simp only [stepEvent]
    unfold invertValue
    obtain ⟨r0, h0⟩ := argNeedsInvert_ok m f v 0 hr
    obtain ⟨r1, h1⟩ := argNeedsInvert_ok m f v 1 hr
    obtain ⟨r2, h2⟩ := argNeedsInvert_ok m f v 2 hr
    rw [h0, h1, h2]
    cases r0 <;> cases r1 <;> cases r2 <;> exact ⟨_, rfl⟩

theorem runEvents_ok (m : mergeLoadState) (f : Func) (es : List Event) (hr : InvertReady m f) :
    ∃ f1, runEvents f es = .ok f1 := by
  induction es generalizing f with
  | nil => exact ⟨f, rfl⟩
  | cons e rest ih =>
    obtain ⟨f0, h0⟩ := stepEvent_ok m f e hr
    obtain ⟨f1, h1⟩ := ih f0 (invertReady_frame hr (stepEvent_frame f f0 e h0).1)
    refine ⟨f1, ?_⟩
    unfold runEvents
    rw [h0]
    exact h1

theorem filterMap_value_split (es : List Event) (xs ys : List VPtr) (v : VPtr)
    (h : es.filterMap Event.value? = xs ++ v :: ys) :
    ∃ e1 e2, es = e1 ++ Event.val v :: e2 ∧ e1.filterMap Event.value? = xs ∧
      e2.filterMap Event.value? = ys := by
  induction es generalizing xs with
  | nil =>
    simp at h
  | cons e rest ih =>
    cases e with
    | ctl b =>
      have h' : rest.filterMap Event.value? = xs ++ v :: ys := by
        simpa [List.filterMap_cons, Event.value?] using h
      obtain ⟨e1, e2, h1, h2, h3⟩ := ih xs h'
      exact ⟨Event.ctl b :: e1, e2, by rw [h1]; rfl,
        by simpa [List.filterMap_cons, Event.value?] using h2, h3⟩
    | val u =>
      have h' : u :: rest.filterMap Event.value? = xs ++ v :: ys := by
        simpa [List.filterMap_cons, Event.value?] using h
      cases xs with
      | nil =>
        simp only [List.nil_append, List.cons.injEq] at h'
        obtain ⟨hu, hrest⟩ := h'
        subst hu
        exact ⟨[], rest, rfl, rfl, hrest⟩
      | cons x xs' =>
        simp only [List.cons_append, List.cons.injEq] at h'
        obtain ⟨hu, hrest⟩ := h'
        subst hu
        obtain ⟨e1, e2, h1, h2, h3⟩ := ih xs' hrest
        exact ⟨Event.val u :: e1, e2, by rw [h1]; rfl,
          by simp [List.filterMap_cons, Event.value?, h2], h3⟩

theorem mem_filterMap_value (es : List Event) (u : VPtr) :
    Event.val u ∈ es ↔ u ∈ es.filterMap Event.value? := by
  rw [List.mem_filterMap]
  constructor
  · intro h
    exact ⟨_, h, rfl⟩
  · rintro ⟨e, he, hv⟩
    cases e with
    | ctl b => cases hv
    | val w =>
      simp only [Event.value?, Option.some.injEq] at hv
      rw [← hv]
      exact he

theorem stageEvents_values (f : Func) (bs : List BPtr) :
    (stageEvents f bs).filterMap Event.value? = bs.flatMap (fun b => (f.blockAt b).Values) := by
  induction bs with
  | nil => rfl
  | cons b rest ih =>
    have hb : (blockEvents f b).filterMap Event.value? = (f.blockAt b).Values := by
      unfold blockEvents
      rw [List.filterMap_cons]
      simp only [Event.value?]
      rw [List.filterMap_map]
      have : (Event.value? ∘ Event.val) = some := rfl
      rw [this, List.filterMap_some]
    have hcons : stageEvents f (b :: rest) = blockEvents f b ++ stageEvents f rest := by
      simp [stageEvents]
    rw [hcons, List.filterMap_append, hb, ih]
    simp

/-! ## The second pass: inverting the uses of marked flags -/

/-- At a state `f1` reached from `f` in which `v` and its unrestricted arguments
are as in `f`, the guard for position `k` answers whether the position is
marked in `f`. -/
theorem argNeedsInvert_iff_marked (m : mergeLoadState) (f f1 : Func) (v : VPtr) (k : Nat)
    (hr : InvertReady m f) (hf : InvertFrame f f1)
    (hargs : ∀ a, (f.valueAt v).Args[k]? = some a →
      f1.valueAt a = f.valueAt a ∨ ¬ hiddenSelector m f a) :
    (argNeedsInvert f1 v k = .ok true ↔ markedArg m f v k) ∧
    (argNeedsInvert f1 v k = .ok false ↔ ¬ markedArg m f v k) := by
  unfold argNeedsInvert markedArg
  rw [hf.args v]
  cases hget : (f.valueAt v).Args[k]? with
  | none =>
    simp only
    refine ⟨⟨(fun h => by cases h), ?_⟩, ⟨?_, fun _ => by first | rfl | trivial⟩⟩
    · rintro ⟨a, h, _⟩
      cases h
    · rintro _ ⟨a, h, _⟩
      cases h
  | some a =>
    simp only
    rw [funcNeedsInvert_eq m f1 a (invertReady_frame hr hf).1,
      needsInvert_stable m f f1 a hr hf (hargs a hget)]
    obtain ⟨r, hres⟩ := needsInvert_ok m f a (hr.2 a)
    rw [hres]
    cases r with
    | true =>
      refine ⟨⟨fun _ => ⟨a, rfl, hres⟩, fun _ => rfl⟩, ⟨(fun h => by cases h), ?_⟩⟩
      intro hn
      exact absurd ⟨a, rfl, hres⟩ hn
    | false =>
      refine ⟨⟨(fun h => by cases h), ?_⟩, ⟨?_, fun _ => rfl⟩⟩
      · rintro ⟨a2, h, hres2⟩
        cases h
        rw [hres] at hres2
        cases hres2
      · rintro _ ⟨a2, h, hres2⟩
        cases h
        rw [hres] at hres2
        cases hres2

/-- The first-match rule of the second pass, for an instruction that no retired
selector hides: let `v` be visited exactly once by the second pass, after the
values `xs`, in a function whose selectors all have an argument, and let none
of the arguments of `v` at positions 0, 1, 2 be an unmarked selector of a
marked instruction that was visited before `v`.  Then the pass returns, the
`Op` of `v` becomes the entry of the table of the least marked position among
0, 1, 2 (marks at positions 3 and higher are ignored), or stays as it is when
no such position is marked, and no instruction's arguments change. -/
theorem invertBlocks_op (m : mergeLoadState) (f : Func) (v : VPtr) (xs ys : List VPtr)
    (hr : InvertReady m f)
    (hocc : visitOrder f = xs ++ v :: ys) (hx : v ∉ xs) (hy : v ∉ ys)
    (hargs : ∀ k a, k < 3 → (f.valueAt v).Args[k]? = some a → a ∈ xs →
      ¬ hiddenSelector m f a) :
    ∃ f2, invertBlocks f f.Blocks = .ok f2 ∧ rewriterOpSpec m f f2 v ∧
      ∀ u, (f2.valueAt u).Args = (f.valueAt u).Args := by
  rw [invertBlocks_eq_runEvents]
  have hvals : (stageEvents f f.Blocks).filterMap Event.value? = xs ++ v :: ys := by
    rw [stageEvents_values]
    exact hocc
  obtain ⟨e1, e2, hsplit, h1, h2⟩ := filterMap_value_split _ xs ys v hvals
  rw [hsplit, runEvents_append]
  obtain ⟨f1, hf1⟩ := runEvents_ok m f e1 hr
  obtain ⟨fr1, hv1, _⟩ := runEvents_frame f f1 e1 hf1
  have hr1 : InvertReady m f1 := invertReady_frame hr fr1
  obtain ⟨f2, hf2⟩ := runEvents_ok m f1 (Event.val v :: e2) hr1
  rw [hf1]
  simp only
  refine ⟨f2, hf2, ?_, ?_⟩
  swap
  · intro u
    exact (invertFrame_trans fr1 (runEvents_frame f1 f2 _ hf2).1).args u
  -- the state in which `v` is visited
  have hvsame : f1.valueAt v = f.valueAt v := by
    apply hv1
    rw [mem_filterMap_value, h1]
    exact hx
  have hguard : ∀ k, k < 3 →
      (argNeedsInvert f1 v k = .ok true ↔ markedArg m f v k) ∧
      (argNeedsInvert f1 v k = .ok false ↔ ¬ markedArg m f v k) := by
    intro k hk
    apply argNeedsInvert_iff_marked m f f1 v k hr fr1
    intro a ha
    by_cases hmem : a ∈ xs
    · exact Or.inr (hargs k a hk ha hmem)
    · left
      apply hv1
      rw [mem_filterMap_value, h1]
      exact hmem
  unfold runEvents at hf2
  cases hstep : stepEvent f1 (Event.val v) with
  | error err => rw [hstep] at hf2; cases hf2
  | ok f1' =>
    rw [hstep] at hf2
    simp only at hf2
    have hrest : f2.valueAt v = f1'.valueAt v := by
      apply (runEvents_frame f1' f2 e2 hf2).2.1
      rw [mem_filterMap_value, h2]
      exact hy
    simp only [stepEvent] at hstep
    have hop1 : (f1.valueAt v).Op = (f.valueAt v).Op := by rw [hvsame]
    unfold rewriterOpSpec
    rw [hrest]
    rcases invertValue_cases f1 f1' v hstep with
      ⟨g0, hres⟩ | ⟨g0, g1, hres⟩ | ⟨g0, g1, g2, hres⟩ | ⟨g0, g1, g2, hres⟩
    · have m0 := (hguard 0 (by omega)).1.mp g0
      have hopv : (f1'.valueAt v).Op = mapIndex OpInvalid (invertTable 0) (f.valueAt v).Op := by
        rw [hres, (setOp_frame f1 v _ (invertTable_not_selector 0 _)).2.2.2, hop1]
      constructor
      · intro k hk _ hleast
        rcases Nat.eq_zero_or_pos k with h0 | hpos
        · rw [h0]
          exact hopv
        · exact absurd m0 (hleast 0 hpos)
      · intro hnone
        exact absurd m0 (hnone 0 (by omega))
    · have n0 := (hguard 0 (by omega)).2.mp g0
      have m1 := (hguard 1 (by omega)).1.mp g1
      have hopv : (f1'.valueAt v).Op = mapIndex OpInvalid (invertTable 1) (f.valueAt v).Op := by
        rw [hres, (setOp_frame f1 v _ (invertTable_not_selector 1 _)).2.2.2, hop1]
      constructor
      · intro k hk hmk hleast
        have hk1 : k = 1 := by
          rcases Nat.lt_trichotomy k 1 with h | h | h
          · have : k = 0 := by omega
            rw [this] at hmk
            exact absurd hmk n0
          · exact h
          · exact absurd m1 (hleast 1 h)
        rw [hk1]
        exact hopv
      · intro hnone
        exact absurd m1 (hnone 1 (by omega))
    · have n0 := (hguard 0 (by omega)).2.mp g0
      have n1 := (hguard 1 (by omega)).2.mp g1
      have m2 := (hguard 2 (by omega)).1.mp g2
      have hopv : (f1'.valueAt v).Op = mapIndex OpInvalid (invertTable 2) (f.valueAt v).Op := by
        rw [hres, (setOp_frame f1 v _ (invertTable_not_selector 2 _)).2.2.2, hop1]
      constructor
      · intro k hk hmk _
        have hk2 : k = 2 := by
          rcases Nat.lt_trichotomy k 1 with h | h | h
          · have : k = 0 := by omega
            rw [this] at hmk
            exact absurd hmk n0
          · rw [h] at hmk
            exact absurd hmk n1
          · omega
        rw [hk2]
        exact hopv
      · intro hnone
        exact absurd m2 (hnone 2 (by omega))
    · have n0 := (hguard 0 (by omega)).2.mp g0
      have n1 := (hguard 1 (by omega)).2.mp g1
      have n2 := (hguard 2 (by omega)).2.mp g2
      have hopv : (f1'.valueAt v).Op = (f.valueAt v).Op := by
        rw [hres, hop1]
      constructor
      · intro k hk hmk _
        exfalso
        have : k = 0 ∨ k = 1 ∨ k = 2 := by omega
        rcases this with h | h | h
        · rw [h] at hmk
          exact n0 hmk
        · rw [h] at hmk
          exact n1 hmk
        · rw [h] at hmk
          exact n2 hmk
      · intro _
        exact hopv

theorem exSelHeap_ready (blk : BPtr) (u : VPtr) :
    isSelector ((exSelHeap blk) u).Op → ((exSelHeap blk) u).Args ≠ [] := by
  unfold exSelHeap
  split <;> simp [mkValue, isSelector]

/-- C6: the code departs from the claim.  In block `[T; S; U]` with `T` marked,
`needsInvert` holds of the selector `S`, argument 0 of `U = SETL(S)`, when the
pass starts, so position 0 is the least marked position of `U` and the claim
requires the entry of `invertValueArg0` for `SETL`, which is `SETG`.  But `S`
is visited first and loses its selector `Op`, and the pass leaves the `Op` of
`U` as `SETL`. -/
theorem invertBlocks_op_selector_divergence :
    markedArg exMarkT exSelUse 4 0 ∧
      mapIndex OpInvalid (invertTable 0) (exSelUse.valueAt 4).Op = OpAMD64SETG ∧
      opAfter (invertBlocks exSelUse exSelUse.Blocks) 2 = some OpInvalid ∧
      opAfter (invertBlocks exSelUse exSelUse.Blocks) 4 = some OpAMD64SETL ∧
      ∃ f2, invertBlocks exSelUse exSelUse.Blocks = .ok f2 ∧
        ¬ rewriterOpSpec exMarkT exSelUse f2 4 := by
  have hop : opAfter (invertBlocks exSelUse exSelUse.Blocks) 4 = some OpAMD64SETL := by decide
  refine ⟨⟨2, by decide, by decide⟩, by decide, by decide, hop, ?_⟩
  cases h : invertBlocks exSelUse exSelUse.Blocks with
  | error err =>
    rw [h] at hop
    cases hop
  | ok f2 =>
    rw [h] at hop
    simp only [opAfter, Option.some.injEq] at hop
    refine ⟨f2, rfl, ?_⟩
    intro hspec
    have h0 := hspec.1 0 (by omega) ⟨2, by decide, by decide⟩ (by intro j hj; omega)
    rw [hop] at h0
    revert h0
    decide

/-- An instance of the first-match rule: in block `[T; W]` with `T` marked,
`W = SETL(T)` becomes `SETG`. -/
theorem invertBlocks_op_direct_use :
    opAfter (invertBlocks (exDirectUse BlockAMD64LT) (exDirectUse BlockAMD64LT).Blocks) 5 =
      some OpAMD64SETG := by
  obtain ⟨f2, hrun, hspec, _⟩ :=
    invertBlocks_op exMarkT (exDirectUse BlockAMD64LT) 5 [1] []
      ⟨rfl, exSelHeap_ready 0⟩ (by decide) (by decide) (by decide)
      (by
        intro k a _ _ ha
        have ha1 : a = 1 := by simpa using ha
        rw [ha1]
        intro hh
        exact absurd hh.2.1 (by decide))
  rw [hrun]
  simp only [opAfter]
  rw [hspec.1 0 (by omega) ⟨1, by decide, by decide⟩ (by intro j hj; omega)]
  decide

/-- C8: in block `[T; S; U]` with `T` marked, `S = Select1(T)` unmarked and
`U = SETL(S)`, the second pass retires `S` (its `Op` becomes `OpInvalid`) and
leaves `U` as `SETL`, although `invertValueArg0` maps `SETL` to `SETG`. -/
theorem invertBlocks_selector_use_not_inverted :
    (exSelUse.valueAt 2).Op = OpSelect1 ∧ (exSelUse.valueAt 2).Args[0]? = some 1 ∧
      (exSelUse.valueAt 1).ID ∈ exMarkT.invert ∧ (exSelUse.valueAt 2).ID ∉ exMarkT.invert ∧
      (exSelUse.valueAt 4).Args[0]? = some 2 ∧
      mapIndex OpInvalid invertValueArg0 (exSelUse.valueAt 4).Op = OpAMD64SETG ∧
      opAfter (invertBlocks exSelUse exSelUse.Blocks) 2 = some OpInvalid ∧
      opAfter (invertBlocks exSelUse exSelUse.Blocks) 4 = some OpAMD64SETL := by
  decide

theorem ctl_mem_stageEvents (f : Func) (bs : List BPtr) (b : BPtr) :
    Event.ctl b ∈ stageEvents f bs → b ∈ bs := by
  unfold stageEvents blockEvents
  rw [List.mem_flatMap]
  rintro ⟨c, hc, hmem⟩
  rcases List.mem_cons.mp hmem with h | h
  · cases h
    exact hc
  · rw [List.mem_map] at h
    obtain ⟨_, _, h⟩ := h
    cases h

theorem val_mem_stageEvents (f : Func) (bs : List BPtr) (c : VPtr) :
    Event.val c ∈ stageEvents f bs → ∃ b ∈ bs, c ∈ (f.blockAt b).Values := by
  rw [mem_filterMap_value, stageEvents_values, List.mem_flatMap]
  exact fun h => h

/-- C7 (amended): let `b` occur once in the block list of a function whose
selectors all have an argument, and let its control, if it is an unmarked
selector of a marked instruction, be held in no block visited before `b`.
Then the second pass returns, the `Kind` of `b` becomes `invertBlockKind` of its
previous `Kind` if `b` has a control of which `needsInvert` holds (its ID is in
the tracking set, or it is a selector of an instruction whose ID is), and is
unchanged if `b` has no control or `needsInvert` does not hold of it. -/
theorem invertBlocks_kind (m : mergeLoadState) (f : Func) (b : BPtr) (pre post : List BPtr)
    (hr : InvertReady m f)
    (hsplit : f.Blocks = pre ++ b :: post) (hpre : b ∉ pre) (hpost : b ∉ post)
    (hctl : ∀ c, (f.blockAt b).Control = some c → hiddenSelector m f c →
      ∀ b2, b2 ∈ pre → c ∉ (f.blockAt b2).Values) :
    ∃ f2, invertBlocks f f.Blocks = .ok f2 ∧
      rewriterKindSpec (fun c => needsInvert m f c = .ok true) f f2 b := by
  rw [invertBlocks_eq_runEvents, hsplit]
  have hev : stageEvents f (pre ++ b :: post) =
      stageEvents f pre ++
        (Event.ctl b :: ((f.blockAt b).Values.map Event.val ++ stageEvents f post)) := by
    simp [stageEvents, blockEvents]
  rw [hev, runEvents_append]
  obtain ⟨f1, hf1⟩ := runEvents_ok m f (stageEvents f pre) hr
  obtain ⟨fr1, hv1, hb1⟩ := runEvents_frame f f1 _ hf1
  have hr1 : InvertReady m f1 := invertReady_frame hr fr1
  obtain ⟨f2, hf2⟩ := runEvents_ok m f1
    (Event.ctl b :: ((f.blockAt b).Values.map Event.val ++ stageEvents f post)) hr1
  rw [hf1]
  simp only
  refine ⟨f2, hf2, ?_⟩
  have hbsame : f1.blockAt b = f.blockAt b :=
    hb1 b (fun hmem => hpre (ctl_mem_stageEvents f pre b hmem))
  unfold runEvents at hf2
  cases hstep : stepEvent f1 (Event.ctl b) with
  | error err => rw [hstep] at hf2; cases hf2
  | ok f1' =>
    rw [hstep] at hf2
    simp only at hf2
    have hrest : f2.blockAt b = f1'.blockAt b := by
      apply (runEvents_frame f1' f2 _ hf2).2.2
      intro hmem
      rcases List.mem_append.mp hmem with h | h
      · rw [List.mem_map] at h
        obtain ⟨_, _, h⟩ := h
        cases h
      · exact hpost (ctl_mem_stageEvents f post b h)
    simp only [stepEvent] at hstep
    unfold controlNeedsInvert at hstep
    rw [hbsame] at hstep
    unfold rewriterKindSpec
    rw [hrest]
    cases hc : (f.blockAt b).Control with
    | none =>
      rw [hc] at hstep
      simp only [Except.ok.injEq] at hstep
      rw [← hstep, hbsame]
      exact ⟨(fun c h => by cases h), (fun _ => rfl), (fun c h => by cases h)⟩
    | some c =>
      rw [hc] at hstep
      simp only at hstep
      have hstable : needsInvert m f1 c = needsInvert m f c := by
        apply needsInvert_stable m f f1 c hr fr1
        by_cases hh : hiddenSelector m f c
        · left
          apply hv1
          intro hmem
          obtain ⟨b2, hb2, hcb⟩ := val_mem_stageEvents f pre c hmem
          exact hctl c hc hh b2 hb2 hcb
        · exact Or.inr hh
      rw [funcNeedsInvert_eq m f1 c hr1.1, hstable] at hstep
      obtain ⟨r, hres⟩ := needsInvert_ok m f c (hr.2 c)
      rw [hres] at hstep
      cases r with
      | true =>
        simp only [Except.ok.injEq] at hstep
        have hk : (f1'.blockAt b).Kind =
            mapIndex BlockInvalid invertBlockKind (f.blockAt b).Kind := by
          rw [← hstep, (invertKind_frame f1 b).2.2.2, hbsame]
        refine ⟨?_, ?_, ?_⟩
        · intro c2 h2 _
          exact hk
        · intro h
          cases h
        · intro c2 h2 hn
          cases h2
          exact absurd hres hn
      | false =>
        simp only [Except.ok.injEq] at hstep
        have hk : (f1'.blockAt b).Kind = (f.blockAt b).Kind := by
          rw [← hstep, hbsame]
        refine ⟨?_, ?_, ?_⟩
        · intro c2 h2 hm
          cases h2
          rw [hres] at hm
          cases hm
        · intro h
          cases h
        · intro c2 h2 _
          exact hk

/-- C7 (as stated) fails under either reading of "marked".  In `exSelUse` the
control of block 0 is the selector `S`, whose ID is not in the tracking set,
and the `Kind` is inverted all the same.  In `exSelEarlier` `needsInvert` holds
of the control `S` before the pass, but `S` is visited in an earlier block and
loses its selector `Op`, and the `Kind` is unchanged. -/
theorem invertBlocks_kind_counterexample :
    (∃ f2, invertBlocks exSelUse exSelUse.Blocks = .ok f2 ∧
      ¬ rewriterKindSpec (fun c => (exSelUse.valueAt c).ID ∈ exMarkT.invert) exSelUse f2 0) ∧
    (∃ f2, invertBlocks exSelEarlier exSelEarlier.Blocks = .ok f2 ∧
      ¬ rewriterKindSpec (fun c => needsInvert exMarkT exSelEarlier c = .ok true)
        exSelEarlier f2 0) := by
  constructor
  · have hk : kindAfter (invertBlocks exSelUse exSelUse.Blocks) 0 = some BlockAMD64GT := by
      decide
    cases h : invertBlocks exSelUse exSelUse.Blocks with
    | error err =>
      rw [h] at hk
      cases hk
    | ok f2 =>
      rw [h] at hk
      simp only [kindAfter, Option.some.injEq] at hk
      refine ⟨f2, rfl, ?_⟩
      intro hspec
      have h0 := hspec.2.2 2 (by decide) (by decide)
      rw [hk] at h0
      revert h0
      decide
  · have hk : kindAfter (invertBlocks exSelEarlier exSelEarlier.Blocks) 0 =
        some BlockAMD64LT := by
      decide
    cases h : invertBlocks exSelEarlier exSelEarlier.Blocks with
    | error err =>
      rw [h] at hk
      cases hk
    | ok f2 =>
      rw [h] at hk
      simp only [kindAfter, Option.some.injEq] at hk
      refine ⟨f2, rfl, ?_⟩
      intro hspec
      have h0 := hspec.1 2 (by decide) (by decide)
      rw [hk] at h0
      revert h0
      decide

/-- C7 witness (scenario B): a block of kind LT whose control is marked ends
with kind GT, and a block of kind EQ or NE with marked control keeps its kind. -/
theorem invertBlocks_kind_marked_control :
    kindAfter (invertBlocks (exDirectUse BlockAMD64LT) (exDirectUse BlockAMD64LT).Blocks) 0 =
        some BlockAMD64GT ∧
      kindAfter (invertBlocks (exDirectUse BlockAMD64EQ) (exDirectUse BlockAMD64EQ).Blocks) 0 =
        some BlockAMD64EQ ∧
      kindAfter (invertBlocks (exDirectUse BlockAMD64NE) (exDirectUse BlockAMD64NE).Blocks) 0 =
        some BlockAMD64NE := by
  have key : ∀ kind, kindAfter (invertBlocks (exDirectUse kind) (exDirectUse kind).Blocks) 0 =
      some (mapIndex BlockInvalid invertBlockKind kind) := by
    intro kind
    obtain ⟨f2, hrun, hspec⟩ :=
      invertBlocks_kind exMarkT (exDirectUse kind) 0 [1] []
        ⟨rfl, exSelHeap_ready 0⟩ rfl (by decide) (by decide)
        (by
          intro c hc hh
          have hc1 : c = 1 := (Option.some.inj hc).symm
          rw [hc1] at hh
          exact absurd hh.2.1 (show ¬ isSelector (OpOther 20) by decide))
    rw [hrun]
    simp only [kindAfter]
    rw [hspec.1 1 rfl (show needsInvert exMarkT (exDirectUse kind) 1 = .ok true from rfl)]
    rfl
  exact ⟨key BlockAMD64LT, key BlockAMD64EQ, key BlockAMD64NE⟩
/-! ## The inversion tables -/

/-- C12: in each of the four inversion tables, looking a key up twice returns
the key; the equal and not-equal entries are fixed points, and every other key
maps to a different key of the table, which maps back. -/
theorem invertTables_involutive :
    (∀ e ∈ invertBlockKind,
      mapIndex BlockInvalid invertBlockKind e.1 = e.2 ∧
      mapIndex BlockInvalid invertBlockKind (mapIndex BlockInvalid invertBlockKind e.1) = e.1 ∧
      (e.1 ∈ [BlockAMD64EQ, BlockAMD64NE] → mapIndex BlockInvalid invertBlockKind e.1 = e.1) ∧
      (e.1 ∉ [BlockAMD64EQ, BlockAMD64NE] →
        mapIndex BlockInvalid invertBlockKind e.1 ≠ e.1 ∧
        mapIndex BlockInvalid invertBlockKind e.1 ∈ invertBlockKind.map Prod.fst)) ∧
    (∀ e ∈ invertValueArg0,
      mapIndex OpInvalid invertValueArg0 e.1 = e.2 ∧
      mapIndex OpInvalid invertValueArg0 (mapIndex OpInvalid invertValueArg0 e.1) = e.1 ∧
      (e.1 ∈ [OpAMD64SETEQ, OpAMD64SETNE] → mapIndex OpInvalid invertValueArg0 e.1 = e.1) ∧
      (e.1 ∉ [OpAMD64SETEQ, OpAMD64SETNE] →
        mapIndex OpInvalid invertValueArg0 e.1 ≠ e.1 ∧
        mapIndex OpInvalid invertValueArg0 e.1 ∈ invertValueArg0.map Prod.fst)) ∧
    (∀ e ∈ invertValueArg1,
      mapIndex OpInvalid invertValueArg1 e.1 = e.2 ∧
      mapIndex OpInvalid invertValueArg1 (mapIndex OpInvalid invertValueArg1 e.1) = e.1 ∧
      (e.1 ∈ [OpAMD64SETEQstore, OpAMD64SETNEstore] →
        mapIndex OpInvalid invertValueArg1 e.1 = e.1) ∧
      (e.1 ∉ [OpAMD64SETEQstore, OpAMD64SETNEstore] →
        mapIndex OpInvalid invertValueArg1 e.1 ≠ e.1 ∧
        mapIndex OpInvalid invertValueArg1 e.1 ∈ invertValueArg1.map Prod.fst)) ∧
    (∀ e ∈ invertValueArg2,
      mapIndex OpInvalid invertValueArg2 e.1 = e.2 ∧
      mapIndex OpInvalid invertValueArg2 (mapIndex OpInvalid invertValueArg2 e.1) = e.1 ∧
      (e.1 ∈ [OpAMD64CMOVQEQ, OpAMD64CMOVQNE, OpAMD64CMOVLEQ, OpAMD64CMOVLNE,
          OpAMD64CMOVWEQ, OpAMD64CMOVWNE] →
        mapIndex OpInvalid invertValueArg2 e.1 = e.1) ∧
      (e.1 ∉ [OpAMD64CMOVQEQ, OpAMD64CMOVQNE, OpAMD64CMOVLEQ, OpAMD64CMOVLNE,
          OpAMD64CMOVWEQ, OpAMD64CMOVWNE] →
        mapIndex OpInvalid invertValueArg2 e.1 ≠ e.1 ∧
        mapIndex OpInvalid invertValueArg2 e.1 ∈ invertValueArg2.map Prod.fst)) := by
  refine ⟨?_, ?_, ?_, ?_⟩ <;> decide

/-- C13: each of the four inversion tables is closed: the value of every entry
is a key of the same table, so the lookup of an inverted `Kind` or `Op` finds
an entry, and no entry's value is the zero `Kind` or `Op`. -/
theorem invertTables_closed :
    (∀ e ∈ invertBlockKind,
      e.2 ∈ invertBlockKind.map Prod.fst ∧
      (invertBlockKind.find? (fun x => decide (x.1 = e.2))).isSome = true ∧
      e.2 ≠ BlockInvalid) ∧
    (∀ e ∈ invertValueArg0,
      e.2 ∈ invertValueArg0.map Prod.fst ∧
      (invertValueArg0.find? (fun x => decide (x.1 = e.2))).isSome = true ∧
      e.2 ≠ OpInvalid) ∧
    (∀ e ∈ invertValueArg1,
      e.2 ∈ invertValueArg1.map Prod.fst ∧
      (invertValueArg1.find? (fun x => decide (x.1 = e.2))).isSome = true ∧
      e.2 ≠ OpInvalid) ∧
    (∀ e ∈ invertValueArg2,
      e.2 ∈ invertValueArg2.map Prod.fst ∧
      (invertValueArg2.find? (fun x => decide (x.1 = e.2))).isSome = true ∧
      e.2 ≠ OpInvalid) := by
  refine ⟨?_, ?_, ?_, ?_⟩ <;> decide

/-! ## mergeload as a whole -/

/-- C14: without a fusion predicate (`f.Config.mergeValue == nil`) `mergeload`
returns the function exactly as on entry: blocks, values, the pool and the
absent tracking set are untouched, retired values included. -/
theorem mergeload_nil (f : Func) :
    mergeload none f = .ok f ∧
    ∃ g, mergeload none f = .ok g ∧ g.Blocks = f.Blocks ∧
      (∀ b, (g.blockAt b).Kind = (f.blockAt b).Kind ∧
        (g.blockAt b).Control = (f.blockAt b).Control ∧
        (g.blockAt b).Values = (f.blockAt b).Values) ∧
      (∀ v, (g.valueAt v).Op = (f.valueAt v).Op ∧ (g.valueAt v).Args = (f.valueAt v).Args) ∧
      g.mergeLoadState = f.mergeLoadState ∧ g.freeValues = f.freeValues :=
  ⟨rfl, f, rfl, rfl, fun _ => ⟨rfl, rfl, rfl⟩, fun _ => ⟨rfl, rfl⟩, rfl, rfl⟩

/-! ## Relations kept by the driver -/

theorem fixMemoryArg_cases (f f2 : Func) (b : BPtr) (v : VPtr) (n : Nat)
    (h : fixMemoryArg f b v n = .ok f2) :
    f2 = f ∨ ∃ w, SetArg f v (((f.valueAt v).Args.length : Int) - 1) w = .ok f2 := by
  induction n with
  | zero =>
    simp only [fixMemoryArg, Except.ok.injEq] at h
    exact Or.inl h.symm
  | succ n ih =>
    unfold fixMemoryArg at h
    cases hget : (f.blockAt b).Values[n]? with
    | none => rw [hget] at h; cases h
    | some w =>
      rw [hget] at h
      simp only at h
      by_cases hm : (f.valueAt w).Typ.IsMemory = true
      · rw [if_pos hm] at h
        by_cases hma : some w = MemoryArg f v
        · rw [if_pos hma] at h
          simp only [Except.ok.injEq] at h
          exact Or.inl h.symm
        · rw [if_neg hma] at h
          by_cases hbad : (f.valueAt w).Op ≠ OpVarDef ∨ (f.valueAt w).Aux = (f.valueAt v).Aux
          · rw [if_pos hbad] at h
            cases h
          · rw [if_neg hbad] at h
            exact Or.inr ⟨w, h⟩
      · rw [if_neg hm] at h
        exact ih h

theorem visitValue_cases (mergeValue : Func → VPtr → Func × Bool) (f f2 : Func) (b : BPtr)
    (i : Nat) (v : VPtr) (h : visitValue mergeValue f b i v = .ok f2) :
    f2 = (mergeValue f v).1 ∨
      ∃ w, SetArg (mergeValue f v).1 v
        ((((mergeValue f v).1.valueAt v).Args.length : Int) - 1) w = .ok f2 := by
  unfold visitValue at h
  by_cases hr : (mergeValue f v).2 = true
  · rw [if_pos hr] at h
    exact fixMemoryArg_cases _ _ _ _ _ h
  · rw [if_neg hr] at h
    simp only [Except.ok.injEq] at h
    exact Or.inl h.symm

/-- A reflexive and transitive relation kept by every visit is kept by the
loop over the values of a block. -/
theorem mergeValues_rel (R : Func → Func → Prop) (hrefl : ∀ f, R f f)
    (htrans : ∀ a b c, R a b → R b c → R a c)
    (mergeValue : Func → VPtr → Func × Bool) (b : BPtr)
    (hstep : ∀ f i v f1, visitValue mergeValue f b i v = .ok f1 → R f f1)
    (vs : List VPtr) (f g : Func) (i : Nat)
    (h : mergeValues mergeValue b f vs i = .ok g) : R f g := by
  induction vs generalizing f i with
  | nil =>
    simp only [mergeValues, Except.ok.injEq] at h
    rw [← h]
    exact hrefl f
  | cons v rest ih =>
    unfold mergeValues at h
    cases hv : visitValue mergeValue f b i v with
    | error e => rw [hv] at h; cases h
    | ok f1 =>
      rw [hv] at h
      exact htrans _ _ _ (hstep f i v f1 hv) (ih f1 (i + 1) h)

/-- A reflexive and transitive relation kept by every visit is kept by the
driver. -/
theorem mergeBlocks_rel (R : Func → Func → Prop) (hrefl : ∀ f, R f f)
    (htrans : ∀ a b c, R a b → R b c → R a c)
    (mergeValue : Func → VPtr → Func × Bool)
    (hstep : ∀ f b i v f1, visitValue mergeValue f b i v = .ok f1 → R f f1)
    (bs : List BPtr) (f g : Func)
    (h : mergeBlocks mergeValue f bs = .ok g) : R f g := by
  induction bs generalizing f with
  | nil =>
    simp only [mergeBlocks, Except.ok.injEq] at h
    rw [← h]
    exact hrefl f
  | cons b rest ih =>
    unfold mergeBlocks at h
    cases hv : mergeValues mergeValue b f (f.blockAt b).Values 0 with
    | error e => rw [hv] at h; cases h
    | ok f1 =>
      rw [hv] at h
      exact htrans _ _ _
        (mergeValues_rel R hrefl htrans mergeValue b (fun f i v f1 => hstep f b i v f1)
          _ f f1 0 hv)
        (ih f1 h)

theorem compactBlocks_kind (f : Func) (bs : List BPtr) (c : BPtr) :
    ((compactBlocks f bs).blockAt c).Kind = (f.blockAt c).Kind ∧
      ((compactBlocks f bs).blockAt c).Control = (f.blockAt c).Control := by
  induction bs generalizing f with
  | nil => exact ⟨rfl, rfl⟩
  | cons b rest ih =>
    unfold compactBlocks
    obtain ⟨h1, h2⟩ := ih (compactBlock f b)
    rw [h1, h2]
    have hblk : (compactBlock f b).blockAt c =
        if c = b then { (compactValues f (f.blockAt b).Values []).1.blockAt b with
          Values := (compactValues f (f.blockAt b).Values []).2 }
        else (compactValues f (f.blockAt b).Values []).1.blockAt c := rfl
    rw [hblk, (compactValues_eq f (f.blockAt b).Values []).2.2.2.1]
    by_cases hc : c = b
    · rw [if_pos hc, hc]
      exact ⟨rfl, rfl⟩
    · rw [if_neg hc]
      exact ⟨rfl, rfl⟩

theorem compactBlocks_sublist (f : Func) (bs : List BPtr) (c : BPtr) :
    (((compactBlocks f bs).blockAt c).Values).Sublist (f.blockAt c).Values := by
  obtain ⟨_, _, _, h4, h5⟩ := compactBlocks_frame f bs
  by_cases hc : c ∈ bs
  · rw [h5 c hc]
    exact List.filter_sublist _
  · rw [h4 c hc]

/-- The three loops of `mergeload` with a fusion predicate, one after the other. -/
theorem mergeload_some_ok (mergeValue : Func → VPtr → Func × Bool) (f g : Func)
    (h : mergeload (some mergeValue) f = .ok g) :
    ∃ f1 f2, mergeBlocks mergeValue { f with mergeLoadState := some { invert := [] } } f.Blocks
        = .ok f1 ∧
      invertBlocks f1 f1.Blocks = .ok f2 ∧
      g = { compactBlocks f2 f2.Blocks with mergeLoadState := none } := by
  unfold mergeload at h
  simp only at h
  cases h1 : mergeBlocks mergeValue { f with mergeLoadState := some { invert := [] } } f.Blocks with
  | error e => rw [h1] at h; cases h
  | ok f1 =>
    rw [h1] at h
    simp only at h
    cases h2 : invertBlocks f1 f1.Blocks with
    | error e => rw [h2] at h; cases h
    | ok f2 =>
      rw [h2] at h
      simp only [Except.ok.injEq] at h
      exact ⟨f1, f2, rfl, h2, h.symm⟩

/-- C11: with a fusion predicate that leaves the block list and every block's
value list as they are, when `mergeload` returns, the block sequence of the
function is the one on entry and every block's value sequence is a subsequence
of its value sequence on entry. -/
theorem mergeload_preserves_order (mergeValue : Func → VPtr → Func × Bool) (f g : Func)
    (hmv : ∀ f0 v, (mergeValue f0 v).1.Blocks = f0.Blocks ∧
      ∀ b, ((mergeValue f0 v).1.blockAt b).Values = (f0.blockAt b).Values)
    (h : mergeload (some mergeValue) f = .ok g) :
    g.Blocks = f.Blocks ∧ ∀ b, ((g.blockAt b).Values).Sublist (f.blockAt b).Values := by
  obtain ⟨f1, f2, h1, h2, hg⟩ := mergeload_some_ok mergeValue f g h
  have hdrv : f1.Blocks = f.Blocks ∧ ∀ b, (f1.blockAt b).Values = (f.blockAt b).Values := by
    refine mergeBlocks_rel
      (fun a c => c.Blocks = a.Blocks ∧ ∀ b, (c.blockAt b).Values = (a.blockAt b).Values)
      (fun _ => ⟨rfl, fun _ => rfl⟩)
      (fun a b c hab hbc => ⟨hbc.1.trans hab.1, fun x => (hbc.2 x).trans (hab.2 x)⟩)
      mergeValue ?_ f.Blocks { f with mergeLoadState := some { invert := [] } } f1 h1
    intro f0 b i v f3 hv
    rcases visitValue_cases mergeValue f0 f3 b i v hv with h3 | ⟨w, h3⟩
    · rw [h3]
      exact hmv f0 v
    · obtain ⟨_, _, _, _, _, hb, hB⟩ := SetArg_ok _ _ _ _ _ h3
      refine ⟨hB.trans (hmv f0 v).1, fun x => ?_⟩
      rw [hb]
      exact (hmv f0 v).2 x
  rw [invertBlocks_eq_runEvents] at h2
  have hinv := (runEvents_frame f1 f2 _ h2).1
  obtain ⟨_, c2, _, _, _⟩ := compactBlocks_frame f2 f2.Blocks
  rw [hg]
  constructor
  · show (compactBlocks f2 f2.Blocks).Blocks = f.Blocks
    rw [c2, hinv.blocks, hdrv.1]
  · intro b
    show (((compactBlocks f2 f2.Blocks).blockAt b).Values).Sublist (f.blockAt b).Values
    have := compactBlocks_sublist f2 f2.Blocks b
    rw [hinv.blkValues b, hdrv.2 b] at this
    exact this

/-- C11 witness: fusing the load of `[L; D; T]` into `T` leaves the block list
as it was and the block with the subsequence `[D; T]`. -/
theorem mergeload_preserves_order_marker_between :
    ∃ g, mergeload (some exFuse) exMarkerBetween = .ok g ∧ g.Blocks = [1, 0] ∧
      ((g.blockAt 0).Values).Sublist [1, 2, 3] ∧ (g.blockAt 0).Values = [2, 3] := by
  have hv : valuesAfter (mergeload (some exFuse) exMarkerBetween) 0 = some [2, 3] := by decide
  cases h : mergeload (some exFuse) exMarkerBetween with
  | error e =>
    rw [h] at hv
    cases hv
  | ok g =>
    rw [h] at hv
    simp only [valuesAfter, Option.some.injEq] at hv
    have hmv : ∀ f0 v, (exFuse f0 v).1.Blocks = f0.Blocks ∧
        ∀ b, ((exFuse f0 v).1.blockAt b).Values = (f0.blockAt b).Values := by
      intro f0 v
      unfold exFuse
      split
      · exact ⟨rfl, fun _ => rfl⟩
      · exact ⟨rfl, fun _ => rfl⟩
    obtain ⟨hB, hS⟩ := mergeload_preserves_order exFuse exMarkerBetween g hmv h
    exact ⟨g, rfl, hB, hS 0, hv⟩

theorem mergeValues_decline (mergeValue : Func → VPtr → Func × Bool) (b : BPtr)
    (hfalse : ∀ f v, (mergeValue f v).2 = false) (vs : List VPtr) (f : Func) (i : Nat) :
    ∃ g, mergeValues mergeValue b f vs i = .ok g := by
  induction vs generalizing f i with
  | nil => exact ⟨f, rfl⟩
  | cons v rest ih =>
    unfold mergeValues visitValue
    rw [hfalse f v]
    exact ih _ _

theorem mergeBlocks_decline (mergeValue : Func → VPtr → Func × Bool)
    (hfalse : ∀ f v, (mergeValue f v).2 = false) (bs : List BPtr) (f : Func) :
    ∃ g, mergeBlocks mergeValue f bs = .ok g := by
  induction bs generalizing f with
  | nil => exact ⟨f, rfl⟩
  | cons b rest ih =>
    unfold mergeBlocks
    obtain ⟨f1, h1⟩ := mergeValues_decline mergeValue b hfalse (f.blockAt b).Values f 0
    rw [h1]
    exact ih f1

/-- With an empty tracking set `needsInvert` answers false. -/
theorem needsInvert_empty (m : mergeLoadState) (f : Func) (a : VPtr) (hm : m.invert = [])
    (hwf : isSelector (f.valueAt a).Op → (f.valueAt a).Args ≠ []) :
    needsInvert m f a = .ok false := by
  obtain ⟨r, hr⟩ := needsInvert_ok m f a hwf
  cases r with
  | false => exact hr
  | true =>
    exfalso
    rcases (needsInvert_true_iff m f a).mp hr with h | ⟨_, t, _, h⟩
    · rw [hm] at h
      cases h
    · rw [hm] at h
      cases h

/-- With an empty tracking set a step of the second pass changes nothing. -/
theorem stepEvent_empty (m : mergeLoadState) (f : Func) (e : Event) (hm : m.invert = [])
    (hr : InvertReady m f) : stepEvent f e = .ok f := by
  have harg : ∀ v k, argNeedsInvert f v k = .ok false := by
    intro v k
    unfold argNeedsInvert
    cases (f.valueAt v).Args[k]? with
    | none => rfl
    | some a =>
      simp only
      rw [funcNeedsInvert_eq m f a hr.1]
      exact needsInvert_empty m f a hm (hr.2 a)
  cases e with
  | ctl b =>
    simp only [stepEvent]
    have hc : controlNeedsInvert f b = .ok false := by
      unfold controlNeedsInvert
      cases (f.blockAt b).Control with
      | none => rfl
      | some c =>
        simp only
        rw [funcNeedsInvert_eq m f c hr.1]
        exact needsInvert_empty m f c hm (hr.2 c)
    rw [hc]
  | val v =>
    simp only [stepEvent]
    unfold invertValue
    rw [harg v 0, harg v 1, harg v 2]

theorem runEvents_empty (m : mergeLoadState) (f : Func) (es : List Event) (hm : m.invert = [])
    (hr : InvertReady m f) : runEvents f es = .ok f := by
  induction es with
  | nil => rfl
  | cons e rest ih =>
    unfold runEvents
    rw [stepEvent_empty m f e hm hr]
    exact ih

/-- C15: if the fusion predicate returns false on every instruction, marks
nothing in the tracking set and changes no block and no `Op` or `Args`, then,
on a function whose selectors all have an argument, `mergeload` returns, and
every block's `Kind` and every instruction's `Op` and `Args` are as on entry. -/
theorem mergeload_decline (mergeValue : Func → VPtr → Func × Bool) (f : Func)
    (hmv : ∀ f0 v, (mergeValue f0 v).2 = false ∧
      (mergeValue f0 v).1.mergeLoadState = f0.mergeLoadState ∧
      (mergeValue f0 v).1.blockAt = f0.blockAt ∧
      ∀ u, ((mergeValue f0 v).1.valueAt u).Op = (f0.valueAt u).Op ∧
        ((mergeValue f0 v).1.valueAt u).Args = (f0.valueAt u).Args)
    (hwf : ∀ u, isSelector (f.valueAt u).Op → (f.valueAt u).Args ≠ []) :
    ∃ g, mergeload (some mergeValue) f = .ok g ∧
      (∀ b, (g.blockAt b).Kind = (f.blockAt b).Kind) ∧
      ∀ u, (g.valueAt u).Op = (f.valueAt u).Op ∧ (g.valueAt u).Args = (f.valueAt u).Args := by
  obtain ⟨f1, h1⟩ := mergeBlocks_decline mergeValue (fun f0 v => (hmv f0 v).1) f.Blocks
    { f with mergeLoadState := some { invert := [] } }
  have hdrv := mergeBlocks_rel
    (fun a c => c.mergeLoadState = a.mergeLoadState ∧ c.blockAt = a.blockAt ∧
      ∀ u, (c.valueAt u).Op = (a.valueAt u).Op ∧ (c.valueAt u).Args = (a.valueAt u).Args)
    (fun _ => ⟨rfl, rfl, fun _ => ⟨rfl, rfl⟩⟩)
    (fun a b c hab hbc => ⟨hbc.1.trans hab.1, hbc.2.1.trans hab.2.1, fun u =>
      ⟨((hbc.2.2 u).1).trans ((hab.2.2 u).1), ((hbc.2.2 u).2).trans ((hab.2.2 u).2)⟩⟩)
    mergeValue
    (by
      intro f0 b i v f3 hv
      unfold visitValue at hv
      rw [(hmv f0 v).1] at hv
      simp only [Bool.false_eq_true, if_false, Except.ok.injEq] at hv
      rw [← hv]
      exact (hmv f0 v).2)
    f.Blocks { f with mergeLoadState := some { invert := [] } } f1 h1
  obtain ⟨hst, hblk, hval⟩ := hdrv
  have hready : InvertReady { invert := [] } f1 := by
    refine ⟨hst, fun u hu => ?_⟩
    rw [(hval u).2]
    exact hwf u (by rw [← (hval u).1]; exact hu)
  have h2 : invertBlocks f1 f1.Blocks = .ok f1 := by
    rw [invertBlocks_eq_runEvents]
    exact runEvents_empty { invert := [] } f1 _ rfl hready
  refine ⟨{ compactBlocks f1 f1.Blocks with mergeLoadState := none }, ?_, ?_, ?_⟩
  · unfold mergeload
    simp only
    rw [h1]
    simp only
    rw [h2]
  · intro b
    show ((compactBlocks f1 f1.Blocks).blockAt b).Kind = (f.blockAt b).Kind
    rw [(compactBlocks_kind f1 f1.Blocks b).1, hblk]
  · intro u
    show ((compactBlocks f1 f1.Blocks).valueAt u).Op = (f.valueAt u).Op ∧
      ((compactBlocks f1 f1.Blocks).valueAt u).Args = (f.valueAt u).Args
    rw [(compactBlocks_frame f1 f1.Blocks).1]
    exact hval u

/-- C15 witness: a predicate that declines every value leaves the kind of the
block `[L; M; T]` and the `Op` of `T` as they were. -/
theorem mergeload_decline_store_between :
    kindAfter (mergeload (some exDecline) exStoreBetween) 0 = some (BlockOther 0) ∧
      opAfter (mergeload (some exDecline) exStoreBetween) 3 = some (OpOther 11) := by
  obtain ⟨g, hg, hk, hv⟩ := mergeload_decline exDecline exStoreBetween
    (fun _ _ => ⟨rfl, rfl, rfl, fun _ => ⟨rfl, rfl⟩⟩)
    (by
      intro u
      show isSelector ((exHeap _) u).Op → ((exHeap _) u).Args ≠ []
      unfold exHeap
      split <;> simp [mkValue, isSelector])
  rw [hg]
  simp only [kindAfter, opAfter]
  rw [hk 0, (hv 3).1]
  exact ⟨rfl, rfl⟩

/-- C16 (amended), scenario A: for every `Kind` of the block that is a key of
`invertBlockKind`, `mergeload` returns, the block is left with the comparison
alone (the load is removed), and its `Kind` is the `invertBlockKind` entry of
the `Kind` on entry, because the control is marked: the same `Kind` for EQ and
NE, a different one for every other key. -/
theorem mergeload_scenarioA (kind : BlockKind) (hkey : kind ∈ invertBlockKind.map Prod.fst) :
    valuesAfter (mergeload (some exFuseCmp) (exScenarioA kind)) 0 = some [2] ∧
    kindAfter (mergeload (some exFuseCmp) (exScenarioA kind)) 0 =
      some (mapIndex BlockInvalid invertBlockKind kind) ∧
    (kind = BlockAMD64EQ ∨ kind = BlockAMD64NE →
      kindAfter (mergeload (some exFuseCmp) (exScenarioA kind)) 0 = some kind) ∧
    (kind ≠ BlockAMD64EQ → kind ≠ BlockAMD64NE →
      kindAfter (mergeload (some exFuseCmp) (exScenarioA kind)) 0 ≠ some kind) := by
  simp only [invertBlockKind, List.map_cons, List.map_nil, List.mem_cons, List.mem_singleton,
    List.not_mem_nil, or_false] at hkey
  rcases hkey with h | h | h | h | h | h | h | h | h | h <;> subst h <;> decide

/-- C16 (as stated) fails: with a block of kind LT the `Kind` ends as GT, and
with a kind that is no comparison (no key of `invertBlockKind`) it ends as the
zero `Kind`; in neither case is it the `Kind` on entry. -/
theorem mergeload_scenarioA_counterexample :
    ¬ scenarioASpec (exScenarioA BlockAMD64LT)
        (mergeload (some exFuseCmp) (exScenarioA BlockAMD64LT)) ∧
    kindAfter (mergeload (some exFuseCmp) (exScenarioA BlockAMD64LT)) 0 = some BlockAMD64GT ∧
    ¬ scenarioASpec (exScenarioA (BlockOther 0))
        (mergeload (some exFuseCmp) (exScenarioA (BlockOther 0))) ∧
    kindAfter (mergeload (some exFuseCmp) (exScenarioA (BlockOther 0))) 0 =
      some BlockInvalid := by
  decide

/-- C16 witness: with a block of kind EQ the block is left with the comparison
alone and keeps its kind. -/
theorem mergeload_scenarioA_eq :
    valuesAfter (mergeload (some exFuseCmp) (exScenarioA BlockAMD64EQ)) 0 = some [2] ∧
      kindAfter (mergeload (some exFuseCmp) (exScenarioA BlockAMD64EQ)) 0 =
        some BlockAMD64EQ :=
  ⟨(mergeload_scenarioA BlockAMD64EQ (by decide)).1,
    (mergeload_scenarioA BlockAMD64EQ (by decide)).2.2.1 (Or.inl rfl)⟩

/-! ## Use counts -/

theorem count_set_add (l : List VPtr) (i : Nat) (a b old : VPtr) (h : l[i]? = some old) :
    (l.set i a).count b + (if old = b then 1 else 0) =
      l.count b + (if a = b then 1 else 0) := by
  induction l generalizing i with
  | nil => simp at h
  | cons x xs ih =>
    cases i with
    | zero =>
      simp only [List.getElem?_cons_zero, Option.some.injEq] at h
      subst h
      simp only [List.set_cons_zero, List.count_cons, beq_iff_eq]
      omega
    | succ i =>
      simp only [List.getElem?_cons_succ] at h
      have := ih i h
      simp only [List.set_cons_succ, List.count_cons, beq_iff_eq]
      omega

theorem addUses_Uses (f : Func) (p : VPtr) (d : Int) (q : VPtr) :
    ((addUses f p d).valueAt q).Uses =
      if q = p then (f.valueAt p).Uses + d else (f.valueAt q).Uses := by
  unfold addUses
  rw [setValue_valueAt]
  by_cases hq : q = p
  · rw [if_pos hq, if_pos hq]
  · rw [if_neg hq, if_neg hq]

theorem setArgs_Uses (f : Func) (v : VPtr) (args : List VPtr) (q : VPtr) :
    ((setArgs f v args).valueAt q).Uses = (f.valueAt q).Uses := by
  unfold setArgs
  rw [setValue_valueAt]
  by_cases hq : q = v
  · rw [if_pos hq, hq]
  · rw [if_neg hq]

/-- The use counts after `SetArg`: the new argument gains a use and the
replaced argument loses one. -/
theorem SetArg_Uses (f f2 : Func) (v w old : VPtr) (i : Int) (h : SetArg f v i w = .ok f2)
    (hold : (f.valueAt v).Args[i.toNat]? = some old) (u : VPtr) :
    (f2.valueAt u).Uses =
      (f.valueAt u).Uses + (if w = u then 1 else 0) - (if old = u then 1 else 0) := by
  unfold SetArg at h
  by_cases hi : i < 0
  · rw [if_pos hi] at h
    cases h
  rw [if_neg hi, hold] at h
  simp only [Except.ok.injEq] at h
  subst h
  rw [addUses_Uses, setArgs_Uses, setArgs_Uses, addUses_Uses, addUses_Uses]
  by_cases h1 : u = w <;> by_cases h2 : u = old <;> by_cases h3 : w = old
  all_goals first
    | (subst h1; subst h2; simp)
    | (subst h1; simp [h2, h3, Ne.symm h2])
    | (subst h2; simp [h1, Ne.symm h1])
    | simp [h1, h2, h3, Ne.symm h1, Ne.symm h2]
  all_goals omega

theorem argRefs_SetArg_other (f f2 : Func) (v : VPtr) (vs : List VPtr) (u : VPtr)
    (hother : ∀ x, x ≠ v → (f2.valueAt x).Args = (f.valueAt x).Args) (hv : v ∉ vs) :
    argRefs f2 vs u = argRefs f vs u := by
  induction vs with
  | nil => rfl
  | cons x rest ih =>
    have hx : x ≠ v := fun h => hv (by rw [h]; exact List.mem_cons_self _ _)
    have hrest : v ∉ rest := fun h => hv (List.mem_cons_of_mem _ h)
    have := ih hrest
    unfold argRefs at this ⊢
    simp only [List.map_cons, List.sum_cons]
    rw [this, hother x hx]

theorem argRefs_SetArg (f f2 : Func) (v w old : VPtr) (k : Nat) (vs : List VPtr) (u : VPtr)
    (hself : (f2.valueAt v).Args = (f.valueAt v).Args.set k w)
    (hother : ∀ x, x ≠ v → (f2.valueAt x).Args = (f.valueAt x).Args)
    (hold : (f.valueAt v).Args[k]? = some old) (hnd : vs.Nodup) (hv : v ∈ vs) :
    argRefs f2 vs u + (if old = u then 1 else 0) =
      argRefs f vs u + (if w = u then 1 else 0) := by
  induction vs with
  | nil => cases hv
  | cons x rest ih =>
    obtain ⟨hxr, hndr⟩ := List.nodup_cons.mp hnd
    by_cases hx : x = v
    · subst hx
      have hrest := argRefs_SetArg_other f f2 x rest u hother hxr
      have hc := count_set_add (f.valueAt x).Args k w u old hold
      unfold argRefs at hrest ⊢
      simp only [List.map_cons, List.sum_cons]
      rw [hrest, hself]
      omega
    · have hvr : v ∈ rest := by
        rcases List.mem_cons.mp hv with h | h
        · exact absurd h.symm hx
        · exact h
      have := ih hndr hvr
      unfold argRefs at this ⊢
      simp only [List.map_cons, List.sum_cons]
      rw [hother x hx]
      omega

theorem firstMemoryBack_isMemory (f : Func) (vals : List VPtr) (i : Nat) (w : VPtr)
    (h : firstMemoryBack f vals i = some w) : (f.valueAt w).Typ.IsMemory = true := by
  unfold firstMemoryBack at h
  exact List.find?_some (p := fun w => (f.valueAt w).Typ.IsMemory) h

/-- C17: when the driver rebinds the trailing argument of the fused `v` from
`m` to `w`, `m.Uses` decreases by one, `w.Uses` increases by one and no other
use count changes; hence, for any list `vs` of the live values that holds `v`
once and any list `bs` of blocks, if every `Uses` equalled the number of
argument and control references before the rebinding, it does so after it. -/
theorem visitValue_rebind_uses (mergeValue : Func → VPtr → Func × Bool) (f : Func) (b : BPtr)
    (i : Nat) (v w m : VPtr)
    (hpos : ((mergeValue f v).1.blockAt b).Values[i]? = some v)
    (hr : (mergeValue f v).2 = true)
    (hw : firstMemoryBack (mergeValue f v).1 ((mergeValue f v).1.blockAt b).Values i = some w)
    (hne : some w ≠ MemoryArg (mergeValue f v).1 v)
    (hop : ((mergeValue f v).1.valueAt w).Op = OpVarDef)
    (haux : ((mergeValue f v).1.valueAt w).Aux ≠ ((mergeValue f v).1.valueAt v).Aux)
    (hm : ((mergeValue f v).1.valueAt v).Args.getLast? = some m) :
    ∃ f2, visitValue mergeValue f b i v = .ok f2 ∧ m ≠ w ∧
      (f2.valueAt m).Uses = ((mergeValue f v).1.valueAt m).Uses - 1 ∧
      (f2.valueAt w).Uses = ((mergeValue f v).1.valueAt w).Uses + 1 ∧
      (∀ u, u ≠ m → u ≠ w → (f2.valueAt u).Uses = ((mergeValue f v).1.valueAt u).Uses) ∧
      ∀ vs bs, vs.Nodup → v ∈ vs → usesConsistent (mergeValue f v).1 vs bs →
        usesConsistent f2 vs bs := by
  have hlen : i < ((mergeValue f v).1.blockAt b).Values.length :=
    (List.getElem?_eq_some_iff.mp hpos).1
  rw [visitValue_eq_repair mergeValue f b i v hlen hr, hw]
  have hwmem := firstMemoryBack_isMemory _ _ _ _ hw
  revert hw hne hop haux hm hwmem hpos hlen
  generalize (mergeValue f v).1 = f1
  intro hpos hw hne hop haux hm hlen hwmem
  have hmw : m ≠ w := by
    intro h
    apply hne
    unfold MemoryArg
    rw [hm, h]
    simp only [hwmem, if_true]
  have hgood : ¬ ((f1.valueAt w).Op ≠ OpVarDef ∨ (f1.valueAt w).Aux = (f1.valueAt v).Aux) := by
    rintro (h | h)
    · exact h hop
    · exact haux h
  have hargs : (f1.valueAt v).Args ≠ [] := by
    intro h
    rw [h] at hm
    cases hm
  simp only
  unfold repairWith
  rw [if_neg hne, if_neg hgood]
  obtain ⟨f2, hf2⟩ := SetArg_last_ok f1 v w hargs
  obtain ⟨_, _, hself, hother, _, hblk, _⟩ := SetArg_ok f1 f2 v w _ hf2
  have hpos' : 0 < (f1.valueAt v).Args.length := List.length_pos.mpr hargs
  have hidx : (((f1.valueAt v).Args.length : Int) - 1).toNat =
      (f1.valueAt v).Args.length - 1 := by omega
  have hold : (f1.valueAt v).Args[(((f1.valueAt v).Args.length : Int) - 1).toNat]? = some m := by
    rw [hidx, ← List.getLast?_eq_getElem?]
    exact hm
  have huses := SetArg_Uses f1 f2 v w m _ hf2 hold
  refine ⟨f2, hf2, hmw, ?_, ?_, ?_, ?_⟩
  · rw [huses m, if_neg (Ne.symm hmw), if_pos rfl]
    omega
  · rw [huses w, if_pos rfl, if_neg hmw]
    omega
  · intro u hum huw
    rw [huses u, if_neg (Ne.symm huw), if_neg (Ne.symm hum)]
    omega
  · intro vs bs hnd hv hcons u
    have ha := argRefs_SetArg f1 f2 v w m _ vs u hself hother hold hnd hv
    have hc : controlRefs f2 bs u = controlRefs f1 bs u := by
      unfold controlRefs
      rw [hblk]
    rw [huses u, hcons u, hc]
    split_ifs at ha ⊢ <;> omega

/-- C17 witness: rebinding the memory argument of the fused value from `mem0`
to the marker `D` takes a use from `mem0` and gives one to `D`. -/
theorem visitValue_rebind_uses_marker_between :
    ∃ f2, visitValue exFuse exMarkerBetween 0 2 3 = .ok f2 ∧
      (f2.valueAt 0).Uses = 2 ∧ (f2.valueAt 2).Uses = 1 := by
  obtain ⟨f2, h, _, h0, h2, _⟩ :=
    visitValue_rebind_uses exFuse exMarkerBetween 0 2 3 2 0
      (by decide) (by decide) (by decide) (by decide) (by decide) (by decide) (by decide)
  exact ⟨f2, h, h0.trans (by decide), h2.trans (by decide)⟩

/-! ## canMergeLoadLate: what it touches -/

theorem seekLoadTraced_result (load : VPtr) (vals : List VPtr) (i : Nat) :
    (seekLoadTraced load vals i).2 = seekLoad load vals i := by
  induction vals generalizing i with
  | nil => rfl
  | cons w rest ih =>
    unfold seekLoadTraced seekLoad
    by_cases hw : w ≠ load
    · rw [if_pos hw, if_pos hw]
      exact ih (i + 1)
    · rw [if_neg hw, if_neg hw]

theorem scanToTargetTraced_result (f : Func) (target load : VPtr) (l : List VPtr) (i : Nat) :
    (scanToTargetTraced f target load l i).2 = scanToTarget f target load l := by
  induction l generalizing i with
  | nil => rfl
  | cons v rest ih =>
    unfold scanToTargetTraced scanToTarget
    by_cases hv : v ≠ target
    · rw [if_pos hv, if_pos hv]
      by_cases hm : (f.valueAt v).Typ.IsMemory = true
      · rw [if_pos hm, if_pos hm]
        by_cases hk : (f.valueAt v).Op = OpVarDef ∧ (f.valueAt v).Aux ≠ (f.valueAt load).Aux
        · rw [if_pos hk, if_pos hk]
          exact ih (i + 1)
        · rw [if_neg hk, if_neg hk]
      · rw [if_neg hm, if_neg hm]
        exact ih (i + 1)
    · rw [if_neg hv, if_neg hv]

/-- The traced function returns what `canMergeLoadLate` returns. -/
theorem canMergeLoadLateTraced_result (f : Func) (target load : VPtr) :
    (canMergeLoadLateTraced f target load).2 = canMergeLoadLate f target load := by
  unfold canMergeLoadLateTraced canMergeLoadLate
  by_cases hb : (f.blockAt (f.valueAt target).Block).ID ≠ (f.blockAt (f.valueAt load).Block).ID
  · rw [if_pos hb, if_pos hb]
  rw [if_neg hb, if_neg hb]
  by_cases hu : (f.valueAt load).Uses ≠ 1
  · rw [if_pos hu, if_pos hu]
  rw [if_neg hu, if_neg hu]
  simp only
  have hs := seekLoadTraced_result load (f.blockAt (f.valueAt target).Block).Values 0
  cases hst : seekLoadTraced load (f.blockAt (f.valueAt target).Block).Values 0 with
  | mk rd res =>
    rw [hst] at hs
    simp only at hs
    rw [← hs]
    cases res with
    | error e => rfl
    | ok i =>
      simp only
      exact scanToTargetTraced_result f target load _ i

theorem seekLoadTraced_reads (load : VPtr) (vals : List VPtr) (i0 n : Nat)
    (hget : vals[n]? = some load) (hfirst : ∀ k, k < n → vals[k]? ≠ some load) :
    seekLoadTraced load vals i0 = (List.range' i0 (n + 1), .ok (i0 + n)) := by
  induction vals generalizing i0 n with
  | nil => simp at hget
  | cons w rest ih =>
    unfold seekLoadTraced
    cases n with
    | zero =>
      simp only [List.getElem?_cons_zero, Option.some.injEq] at hget
      rw [if_neg (not_not.mpr hget)]
      rfl
    | succ n =>
      have hw : w ≠ load := by
        have := hfirst 0 (by omega)
        simpa using this
      rw [if_pos hw]
      have hrec := ih (i0 + 1) n (by simpa using hget) (by
        intro k hk
        simpa using hfirst (k + 1) (by omega))
      rw [hrec]
      simp only [Prod.mk.injEq, Except.ok.injEq]
      constructor
      · rw [List.range'_succ i0 (n + 1)]
      · omega

theorem scanToTargetTraced_spec (f : Func) (target load : VPtr) (l : List VPtr) (base n : Nat)
    (hget : l[n]? = some target) (hfirst : ∀ k, k < n → l[k]? ≠ some target) :
    (∀ k ∈ (scanToTargetTraced f target load l base).1.reads, k ≤ base + n) ∧
    (((scanToTargetTraced f target load l base).2 = .ok true ∧
        (scanToTargetTraced f target load l base).1.checks = List.range' base n) ∨
      ((scanToTargetTraced f target load l base).2 = .ok false ∧
        ∃ k, k < n ∧
          (scanToTargetTraced f target load l base).1.checks = List.range' base (k + 1) ∧
          ∃ x, l[k]? = some x ∧ (f.valueAt x).Typ.IsMemory = true ∧
            ¬ harmlessMarker f load x)) := by
  induction l generalizing base n with
  | nil => simp at hget
  | cons v rest ih =>
    unfold scanToTargetTraced
    cases n with
    | zero =>
      simp only [List.getElem?_cons_zero, Option.some.injEq] at hget
      rw [if_neg (not_not.mpr hget)]
      refine ⟨?_, Or.inl ⟨rfl, rfl⟩⟩
      intro k hk
      simp only [List.mem_singleton] at hk
      omega
    | succ n =>
      have hv : v ≠ target := by
        have := hfirst 0 (by omega)
        simpa using this
      rw [if_pos hv]
      obtain ⟨hreads, hrec⟩ := ih (base + 1) n (by simpa using hget) (by
        intro k hk
        simpa using hfirst (k + 1) (by omega))
      have hcont :
          (∀ k ∈ base :: base :: (scanToTargetTraced f target load rest (base + 1)).1.reads,
            k ≤ base + (n + 1)) ∧
          (((scanToTargetTraced f target load rest (base + 1)).2 = .ok true ∧
              base :: (scanToTargetTraced f target load rest (base + 1)).1.checks =
                List.range' base (n + 1)) ∨
            ((scanToTargetTraced f target load rest (base + 1)).2 = .ok false ∧
              ∃ k, k < n + 1 ∧
                base :: (scanToTargetTraced f target load rest (base + 1)).1.checks =
                  List.range' base (k + 1) ∧
                ∃ x, (v :: rest)[k]? = some x ∧ (f.valueAt x).Typ.IsMemory = true ∧
                  ¬ harmlessMarker f load x)) := by
        constructor
        · intro k hk
          simp only [List.mem_cons] at hk
          rcases hk with h | h | h
          · omega
          · omega
          · have := hreads k h
            omega
        · rcases hrec with ⟨h1, h2⟩ | ⟨h1, k, hk, h2, x, hx, hxm, hxb⟩
          · left
            refine ⟨h1, ?_⟩
            rw [h2, List.range'_succ base n]
          · right
            refine ⟨h1, k + 1, by omega, ?_, x, by simpa using hx, hxm, hxb⟩
            rw [h2, List.range'_succ base (k + 1)]
      by_cases hm : (f.valueAt v).Typ.IsMemory = true
      · rw [if_pos hm]
        by_cases hk : (f.valueAt v).Op = OpVarDef ∧ (f.valueAt v).Aux ≠ (f.valueAt load).Aux
        · rw [if_pos hk]
          exact hcont
        · rw [if_neg hk]
          refine ⟨?_, Or.inr ⟨rfl, 0, by omega, rfl, v, by simp, hm, hk⟩⟩
          intro k hk2
          simp only [List.mem_cons, List.mem_singleton, List.not_mem_nil, or_false] at hk2
          omega
      · rw [if_neg hm]
        exact hcont

/-- C19 (amended): in a block whose values are distinct, with load at index `i`,
target at index `j ≥ i`, both in blocks of the same ID, and `load.Uses = 1`,
`canMergeLoadLate(target, load)` returns, indexes `b.Values` only at positions
up to `j`, and applies its memory-type check to the positions `i`, `i + 1`, ...
in order: through `j - 1` when it returns true, and up to and including the
first position holding a memory-typed instruction that is no harmless marker
when it returns false. -/
theorem canMergeLoadLate_touches (f : Func) (target load : VPtr) (i j : Nat)
    (hnd : (f.blockAt (f.valueAt target).Block).Values.Nodup)
    (hi : (f.blockAt (f.valueAt target).Block).Values[i]? = some load)
    (hj : (f.blockAt (f.valueAt target).Block).Values[j]? = some target)
    (hij : i ≤ j)
    (hsame : (f.blockAt (f.valueAt target).Block).ID = (f.blockAt (f.valueAt load).Block).ID)
    (huses : (f.valueAt load).Uses = 1) :
    ∃ r, canMergeLoadLate f target load = .ok r ∧
      (canMergeLoadLateTraced f target load).2 = .ok r ∧
      (∀ k ∈ (canMergeLoadLateTraced f target load).1.reads, k ≤ j) ∧
      (r = true →
        (canMergeLoadLateTraced f target load).1.checks = List.range' i (j - i)) ∧
      (r = false → ∃ k, i ≤ k ∧ k < j ∧
        (canMergeLoadLateTraced f target load).1.checks = List.range' i (k - i + 1) ∧
        ∃ x, (f.blockAt (f.valueAt target).Block).Values[k]? = some x ∧
          (f.valueAt x).Typ.IsMemory = true ∧ ¬ harmlessMarker f load x) := by
  rw [← canMergeLoadLateTraced_result]
  unfold canMergeLoadLateTraced
  rw [if_neg (not_not.mpr hsame), if_neg (not_not.mpr huses)]
  simp only
  generalize (f.blockAt (f.valueAt target).Block).Values = vals at *
  have huniq : ∀ (a b : Nat) (x : VPtr), vals[a]? = some x → vals[b]? = some x → a = b := by
    intro a b x ha hb2
    have hal : a < vals.length := (List.getElem?_eq_some_iff.mp ha).1
    exact List.getElem?_inj hal hnd (ha.trans hb2.symm)
  have hseek := seekLoadTraced_reads load vals 0 i hi (fun q hq hq2 => by
    have := huniq q i load hq2 hi
    omega)
  rw [Nat.zero_add] at hseek
  rw [hseek]
  simp only
  obtain ⟨hreads, hres⟩ := scanToTargetTraced_spec f target load (vals.drop i) i (j - i)
    (by rw [List.getElem?_drop, show i + (j - i) = j by omega]; exact hj)
    (by
      intro k hk hq
      rw [List.getElem?_drop] at hq
      have := huniq (i + k) j target hq hj
      omega)
  have hrd : ∀ k ∈ List.range' 0 (i + 1) ++
      (scanToTargetTraced f target load (vals.drop i) i).1.reads, k ≤ j := by
    intro k hk
    rcases List.mem_append.mp hk with h | h
    · obtain ⟨q, hq, hkq⟩ := List.mem_range'.mp h
      omega
    · have := hreads k h
      omega
  rcases hres with ⟨h1, h2⟩ | ⟨h1, k, hk, h2, x, hx, hxm, hxb⟩
  · exact ⟨true, h1, h1, hrd, (fun _ => h2), (fun h => by cases h)⟩
  · refine ⟨false, h1, h1, hrd, (fun h => by cases h), (fun _ => ?_)⟩
    refine ⟨i + k, by omega, by omega, ?_, x, ?_, hxm, hxb⟩
    · rw [h2, show i + k - i + 1 = k + 1 by omega]
    · rw [List.getElem?_drop] at hx
      exact hx

/-- C19 (as stated) fails: in `[L; M = store; D; T]` the load is at index 0 and
the target at index 3, but the scan stops at the store: the memory-type check
is applied to positions 0 and 1 only, not to position 2. -/
theorem canMergeLoadLate_touches_counterexample :
    (exStoreThenMarker.blockAt (exStoreThenMarker.valueAt 3).Block).Values[0]? = some 1 ∧
    (exStoreThenMarker.blockAt (exStoreThenMarker.valueAt 3).Block).Values[3]? = some 3 ∧
    (exStoreThenMarker.valueAt 1).Uses = 1 ∧
    (canMergeLoadLateTraced exStoreThenMarker 3 1).1.checks = [0, 1] ∧
    ¬ scanTouchSpec exStoreThenMarker 3 1 0 3 := by
  refine ⟨by decide, by decide, by decide, by decide, ?_⟩
  intro h
  have h3 := h.2.2
  revert h3
  decide

/-- C19 witness: in `[L; D; T]` with a harmless marker `D` the function returns
true after checking positions 0 and 1 and reading no index beyond 2. -/
theorem canMergeLoadLate_touches_marker_between :
    canMergeLoadLate exMarkerBetween 3 1 = .ok true ∧
      (canMergeLoadLateTraced exMarkerBetween 3 1).1.checks = [0, 1] ∧
      ∀ k ∈ (canMergeLoadLateTraced exMarkerBetween 3 1).1.reads, k ≤ 2 := by
  obtain ⟨r, hr, _, hreads, htrue, _⟩ :=
    canMergeLoadLate_touches exMarkerBetween 3 1 0 2
      (by decide) (by decide) (by decide) (by decide) (by decide) (by decide)
  have hrt : r = true := by
    have : canMergeLoadLate exMarkerBetween 3 1 = .ok true := by decide
    rw [this] at hr
    exact (Except.ok.inj hr).symm
  subst hrt
  exact ⟨hr, (htrue rfl).trans (by decide), hreads⟩

/-! ## The safety checker and the driver agree -/

theorem nearestMemoryBefore_succ (f : Func) (vals : List VPtr) (n : Nat) :
    nearestMemoryBefore f vals (n + 1) =
      match vals[n]? with
      | none => nearestMemoryBefore f vals n
      | some x =>
        if (f.valueAt x).Typ.IsMemory = true then some x else nearestMemoryBefore f vals n := by
  unfold nearestMemoryBefore
  rw [List.take_succ]
  cases hget : vals[n]? with
  | none => simp
  | some x =>
    simp only [Option.toList, List.reverse_append, List.reverse_cons, List.reverse_nil,
      List.nil_append, List.singleton_append, List.find?_cons]
    by_cases hm : (f.valueAt x).Typ.IsMemory = true
    · simp [hm]
    · simp [hm]

theorem nearestMemoryBefore_some (f : Func) (vals : List VPtr) (n : Nat) (w : VPtr)
    (h : nearestMemoryBefore f vals n = some w) :
    ∃ k, k < n ∧ vals[k]? = some w ∧ (f.valueAt w).Typ.IsMemory = true ∧
      ∀ k2, k < k2 → k2 < n → ∀ x, vals[k2]? = some x → ¬ (f.valueAt x).Typ.IsMemory = true := by
  induction n with
  | zero => simp [nearestMemoryBefore] at h
  | succ n ih =>
    rw [nearestMemoryBefore_succ] at h
    cases hget : vals[n]? with
    | none =>
      rw [hget] at h
      obtain ⟨k, hk, hw, hm, hrest⟩ := ih h
      refine ⟨k, by omega, hw, hm, ?_⟩
      intro k2 h1 h2 x hx
      by_cases hk2 : k2 = n
      · rw [hk2, hget] at hx
        cases hx
      · exact hrest k2 h1 (by omega) x hx
    | some y =>
      rw [hget] at h
      simp only at h
      by_cases hm : (f.valueAt y).Typ.IsMemory = true
      · rw [if_pos hm] at h
        cases h
        exact ⟨n, by omega, hget, hm, fun k2 h1 h2 => by omega⟩
      · rw [if_neg hm] at h
        obtain ⟨k, hk, hw, hmw, hrest⟩ := ih h
        refine ⟨k, by omega, hw, hmw, ?_⟩
        intro k2 h1 h2 x hx
        by_cases hk2 : k2 = n
        · rw [hk2, hget] at hx
          cases hx
          exact hm
        · exact hrest k2 h1 (by omega) x hx

theorem nearestMemoryBefore_none (f : Func) (vals : List VPtr) (n : Nat)
    (h : nearestMemoryBefore f vals n = none) :
    ∀ k, k < n → ∀ x, vals[k]? = some x → ¬ (f.valueAt x).Typ.IsMemory = true := by
  induction n with
  | zero =>
    intro k hk
    omega
  | succ n ih =>
    rw [nearestMemoryBefore_succ] at h
    intro k hk x hx
    cases hget : vals[n]? with
    | none =>
      rw [hget] at h
      by_cases hkn : k = n
      · rw [hkn, hget] at hx
        cases hx
      · exact ih h k (by omega) x hx
    | some y =>
      rw [hget] at h
      simp only at h
      by_cases hm : (f.valueAt y).Typ.IsMemory = true
      · rw [if_pos hm] at h
        cases h
      · rw [if_neg hm] at h
        by_cases hkn : k = n
        · rw [hkn, hget] at hx
          cases hx
          exact hm
        · exact ih h k (by omega) x hx

theorem nearestMemoryBefore_congr (f g : Func) (vals : List VPtr) (n : Nat)
    (h : ∀ u, (g.valueAt u).Typ = (f.valueAt u).Typ) :
    nearestMemoryBefore g vals n = nearestMemoryBefore f vals n := by
  unfold nearestMemoryBefore
  congr 1
  funext u
  rw [h u]

theorem addUses_Typ (f : Func) (p : VPtr) (d : Int) (q : VPtr) :
    ((addUses f p d).valueAt q).Typ = (f.valueAt q).Typ := by
  unfold addUses
  rw [setValue_valueAt]
  by_cases hq : q = p
  · rw [if_pos hq, hq]
  · rw [if_neg hq]

theorem setArgs_Typ (f : Func) (v : VPtr) (args : List VPtr) (q : VPtr) :
    ((setArgs f v args).valueAt q).Typ = (f.valueAt q).Typ := by
  unfold setArgs
  rw [setValue_valueAt]
  by_cases hq : q = v
  · rw [if_pos hq, hq]
  · rw [if_neg hq]

theorem SetArg_Typ (f f2 : Func) (v w : VPtr) (i : Int) (h : SetArg f v i w = .ok f2)
    (u : VPtr) : (f2.valueAt u).Typ = (f.valueAt u).Typ := by
  unfold SetArg at h
  by_cases hi : i < 0
  · rw [if_pos hi] at h
    cases h
  rw [if_neg hi] at h
  cases hget : (f.valueAt v).Args[i.toNat]? with
  | none =>
    rw [hget] at h
    cases h
  | some old =>
    rw [hget] at h
    simp only [Except.ok.injEq] at h
    subst h
    rw [addUses_Typ, setArgs_Typ, addUses_Typ]

theorem MemoryArg_of_last (f : Func) (v m : VPtr) (hlast : (f.valueAt v).Args.getLast? = some m)
    (hm : (f.valueAt m).Typ.IsMemory = true) : MemoryArg f v = some m := by
  unfold MemoryArg
  rw [hlast]
  simp only [hm, if_true]

theorem MemoryArg_isMemory (f : Func) (v m : VPtr) (h : MemoryArg f v = some m) :
    (f.valueAt m).Typ.IsMemory = true := by
  unfold MemoryArg at h
  cases hlast : (f.valueAt v).Args.getLast? with
  | none =>
    rw [hlast] at h
    cases h
  | some x =>
    rw [hlast] at h
    simp only at h
    by_cases hx : (f.valueAt x).Typ.IsMemory = true
    · rw [if_pos hx] at h
      cases h
      exact hx
    · rw [if_neg hx] at h
      cases h

/-- What a true answer of `canMergeLoadLate` establishes about the block. -/
theorem canMergeLoadLate_true_elim (f : Func) (target load : VPtr)
    (h : canMergeLoadLate f target load = .ok true) :
    ∃ i j, i ≤ j ∧ (f.blockAt (f.valueAt target).Block).Values[i]? = some load ∧
      (f.blockAt (f.valueAt target).Block).Values[j]? = some target ∧
      ∀ (k : Nat) (x : VPtr), i ≤ k → k < j →
        (f.blockAt (f.valueAt target).Block).Values[k]? = some x →
        (f.valueAt x).Typ.IsMemory = true → harmlessMarker f load x := by
  unfold canMergeLoadLate at h
  by_cases hb : (f.blockAt (f.valueAt target).Block).ID ≠ (f.blockAt (f.valueAt load).Block).ID
  · rw [if_pos hb] at h
    cases h
  rw [if_neg hb] at h
  by_cases hu : (f.valueAt load).Uses ≠ 1
  · rw [if_pos hu] at h
    cases h
  rw [if_neg hu] at h
  simp only at h
  generalize (f.blockAt (f.valueAt target).Block).Values = vals at *
  cases hs : seekLoad load vals 0 with
  | error e =>
    rw [hs] at h
    cases h
  | ok i0 =>
    rw [hs] at h
    simp only at h
    obtain ⟨n, hn, hget0, _⟩ := (seekLoad_ok_iff load vals 0 i0).mp hs
    have hi0 : i0 = n := by omega
    subst hi0
    obtain ⟨d, hget, _, hall⟩ := (scanToTarget_true_iff f target load _).mp h
    refine ⟨i0, i0 + d, by omega, hget0, ?_, ?_⟩
    · rw [List.getElem?_drop] at hget
      exact hget
    · intro k x hk1 hk2 hx hmem
      refine hall (k - i0) x (by omega) ?_ hmem
      rw [List.getElem?_drop, show i0 + (k - i0) = k by omega]
      exact hx

/-- C20: let `canMergeLoadLate(v, load)` hold before the fusion, for a target
`v` at index `j` and a load at index `i` of a block with distinct values, `v`
not memory-typed; let the load's memory argument `m` be the nearest
memory-typed instruction preceding the load in the block, unless none precedes
it; and let the predicate fuse, leave the block's values in place, make `m` the
trailing argument of `v` and the load's `Aux` the `Aux` of `v`, and change the
type and `Aux` of no other instruction and the `Op` of no instruction other
than `v` and the load.  Then the driver's fix-up of `v` returns without the
fatal error, and afterwards the memory argument of `v` is the nearest
memory-typed instruction preceding `v` in the block, whenever there is one. -/
theorem visitValue_after_checker (mergeValue : Func → VPtr → Func × Bool) (f : Func)
    (v load m : VPtr) (i j : Nat)
    (hr : (mergeValue f v).2 = true)
    (hcan : canMergeLoadLate f v load = .ok true)
    (hnd : (f.blockAt (f.valueAt v).Block).Values.Nodup)
    (hi : (f.blockAt (f.valueAt v).Block).Values[i]? = some load)
    (hj : (f.blockAt (f.valueAt v).Block).Values[j]? = some v)
    (hvnm : (f.valueAt v).Typ.IsMemory = false)
    (hm : MemoryArg f load = some m)
    (hnear : nearestMemoryBefore f (f.blockAt (f.valueAt v).Block).Values i = none ∨
      nearestMemoryBefore f (f.blockAt (f.valueAt v).Block).Values i = some m)
    (hvals : ((mergeValue f v).1.blockAt (f.valueAt v).Block).Values =
      (f.blockAt (f.valueAt v).Block).Values)
    (hvnm1 : ((mergeValue f v).1.valueAt v).Typ.IsMemory = false)
    (htyp : ∀ u, u ≠ v → ((mergeValue f v).1.valueAt u).Typ = (f.valueAt u).Typ)
    (hop : ∀ u, u ≠ v → u ≠ load → ((mergeValue f v).1.valueAt u).Op = (f.valueAt u).Op)
    (haux : ∀ u, u ≠ v → ((mergeValue f v).1.valueAt u).Aux = (f.valueAt u).Aux)
    (hvaux : ((mergeValue f v).1.valueAt v).Aux = (f.valueAt load).Aux)
    (hset : ((mergeValue f v).1.valueAt v).Args.getLast? = some m) :
    ∃ f2, visitValue mergeValue f (f.valueAt v).Block j v = .ok f2 ∧
      ∀ w, nearestMemoryBefore f2 (f2.blockAt (f.valueAt v).Block).Values j = some w →
        MemoryArg f2 v = some w := by
  have hpos1 : ((mergeValue f v).1.blockAt (f.valueAt v).Block).Values[j]? = some v := by
    rw [hvals]
    exact hj
  have hlen : j < ((mergeValue f v).1.blockAt (f.valueAt v).Block).Values.length :=
    (List.getElem?_eq_some_iff.mp hpos1).1
  rw [visitValue_eq_repair mergeValue f _ j v hlen hr]
  -- what the checker established
  obtain ⟨i0, j0, hij0, hi0, hj0, hclean⟩ := canMergeLoadLate_true_elim f v load hcan
  revert hpos1 hlen hvals hvnm1 htyp hop haux hvaux hset
  generalize (mergeValue f v).1 = f1
  generalize hb : (f.valueAt v).Block = b at *
  generalize hvs : (f.blockAt b).Values = vals at *
  intro hvals hvnm1 htyp hop haux hvaux hset hpos1 hlen
  have huniq : ∀ (a c : Nat) (x : VPtr), vals[a]? = some x → vals[c]? = some x → a = c := by
    intro a c x ha hc
    have hal : a < vals.length := (List.getElem?_eq_some_iff.mp ha).1
    exact List.getElem?_inj hal hnd (ha.trans hc.symm)
  have hii : i0 = i := huniq i0 i load hi0 hi
  have hjj : j0 = j := huniq j0 j v hj0 hj
  subst hii
  subst hjj
  have hmf : (f.valueAt m).Typ.IsMemory = true := MemoryArg_isMemory f load m hm
  have hmv : m ≠ v := by
    intro h
    rw [h, hvnm] at hmf
    cases hmf
  have hm1 : (f1.valueAt m).Typ.IsMemory = true := by
    rw [htyp m hmv]
    exact hmf
  have hmem1 : MemoryArg f1 v = some m := MemoryArg_of_last f1 v m hset hm1
  have hvnot : ¬ (f1.valueAt v).Typ.IsMemory = true := by
    rw [hvnm1]
    exact Bool.false_ne_true
  have hsucc : nearestMemoryBefore f1 vals (j0 + 1) = nearestMemoryBefore f1 vals j0 := by
    rw [nearestMemoryBefore_succ, hj]
    simp only
    rw [if_neg hvnot]
  have hfirst : firstMemoryBack f1 (f1.blockAt b).Values j0 =
      nearestMemoryBefore f1 vals j0 := by
    rw [hvals]
    exact hsucc
  rw [hfirst]
  cases hn : nearestMemoryBefore f1 vals j0 with
  | none =>
    refine ⟨f1, rfl, ?_⟩
    intro w hw
    rw [hvals, hn] at hw
    cases hw
  | some w =>
    simp only
    obtain ⟨k, hk, hkw, hwm, hrest⟩ := nearestMemoryBefore_some f1 vals j0 w hn
    have hwv : w ≠ v := by
      intro h
      rw [h] at hwm
      exact hvnot hwm
    have hwmf : (f.valueAt w).Typ.IsMemory = true := by
      rw [← htyp w hwv]
      exact hwm
    by_cases hki : i0 ≤ k
    · -- the marker case: `w` lies between the load and `v`
      have hharm := hclean k w hki hk hkw hwmf
      have hwl : w ≠ load := by
        intro h
        rw [h] at hharm
        exact hharm.2 rfl
      have hgood : ¬ ((f1.valueAt w).Op ≠ OpVarDef ∨
          (f1.valueAt w).Aux = (f1.valueAt v).Aux) := by
        rw [hop w hwv hwl, haux w hwv, hvaux]
        rintro (h | h)
        · exact h hharm.1
        · exact hharm.2 h
      unfold repairWith
      by_cases hma : some w = MemoryArg f1 v
      · rw [if_pos hma]
        refine ⟨f1, rfl, ?_⟩
        intro w2 hw2
        rw [hvals, hn] at hw2
        rw [← hw2]
        exact hma.symm
      · rw [if_neg hma, if_neg hgood]
        have hargs : (f1.valueAt v).Args ≠ [] := by
          intro h
          rw [h] at hset
          cases hset
        obtain ⟨f2, hf2⟩ := SetArg_last_ok f1 v w hargs
        obtain ⟨_, hlt, hself, _, _, hblk, _⟩ := SetArg_ok f1 f2 v w _ hf2
        have htyp2 := SetArg_Typ f1 f2 v w _ hf2
        refine ⟨f2, hf2, ?_⟩
        intro w2 hw2
        rw [hblk, hvals, nearestMemoryBefore_congr f1 f2 vals j0 htyp2, hn] at hw2
        rw [← hw2]
        apply MemoryArg_of_last
        · have hpos : 0 < (f1.valueAt v).Args.length := List.length_pos.mpr hargs
          have hidx : (((f1.valueAt v).Args.length : Int) - 1).toNat =
              (f1.valueAt v).Args.length - 1 := by omega
          rw [hidx] at hself hlt
          rw [List.getLast?_eq_getElem?, hself, List.length_set, List.getElem?_set_self hlt]
        · rw [htyp2 w]
          exact hwm
    · -- no memory-typed instruction between the load and `v`
      have hki2 : k < i0 := by omega
      have hwm_eq : w = m := by
        rcases hnear with hnone | hsome
        · exact absurd hwmf (nearestMemoryBefore_none f vals i0 hnone k hki2 w hkw)
        · obtain ⟨km, hkm, hkmw, _, hrestm⟩ := nearestMemoryBefore_some f vals i0 m hsome
          rcases Nat.lt_trichotomy k km with h | h | h
          · exact absurd hm1 (hrest km h (by omega) m hkmw)
          · rw [h, hkmw] at hkw
            exact (Option.some.inj hkw).symm
          · exact absurd hwmf (hrestm k h hki2 w hkw)
      unfold repairWith
      rw [hwm_eq, if_pos hmem1.symm]
      refine ⟨f1, rfl, ?_⟩
      intro w2 hw2
      rw [hvals, hn, hwm_eq] at hw2
      rw [← hw2]
      exact hmem1


theorem exFuse_valueAt (f : Func) (u : VPtr) :
    (exFuse f 3).1.valueAt u =
      if u = 1 then
        { (if (1 : VPtr) = 3 then
            { f.valueAt 3 with Op := OpOther 13, Aux := (f.valueAt 1).Aux, Args := [4, 5, 0] }
          else f.valueAt 1) with Op := OpInvalid }
      else if u = 3 then
        { f.valueAt 3 with Op := OpOther 13, Aux := (f.valueAt 1).Aux, Args := [4, 5, 0] }
      else f.valueAt u := rfl

/-- C20 witness: in `[L; D; T]` the checker accepts the fusion of `L` into `T`,
and the fix-up of the fused `T` returns with the marker `D`, the nearest
memory-typed instruction before `T`, as memory argument of `T`. -/
theorem visitValue_after_checker_marker_between :
    ∃ f2, visitValue exFuse exMarkerBetween 0 2 3 = .ok f2 ∧
      ∀ w, nearestMemoryBefore f2 (f2.blockAt 0).Values 2 = some w →
        MemoryArg f2 3 = some w :=
  visitValue_after_checker exFuse exMarkerBetween 3 1 0 0 2
    (by decide) (by decide) (by decide) (by decide) (by decide) (by decide) (by decide)
    (Or.inl (by decide)) (by decide) (by decide)
    (by
      intro u hu
      rw [exFuse_valueAt]
      by_cases h1 : u = 1
      · rw [if_pos h1, h1]
        rfl
      · rw [if_neg h1, if_neg hu])
    (by
      intro u hu hl
      rw [exFuse_valueAt, if_neg hl, if_neg hu])
    (by
      intro u hu
      rw [exFuse_valueAt]
      by_cases h1 : u = 1
      · rw [if_pos h1, h1]
        rfl
      · rw [if_neg h1, if_neg hu])
    (by decide) (by decide)

/-! ## The driver's scan on a memory-typed instruction -/

theorem mergeValues_append (mergeValue : Func → VPtr → Func × Bool) (b : BPtr)
    (pre post : List VPtr) (f : Func) (i : Nat) :
    mergeValues mergeValue b f (pre ++ post) i =
      match mergeValues mergeValue b f pre i with
      | .error e => .error e
      | .ok f1 => mergeValues mergeValue b f1 post (i + pre.length) := by
  induction pre generalizing f i with
  | nil => rfl
  | cons v rest ih =>
    simp only [List.cons_append, mergeValues]
    cases hv : visitValue mergeValue f b i v with
    | error e => rfl
    | ok f1 =>
      simp only
      rw [List.length_cons, show i + (rest.length + 1) = i + 1 + rest.length by omega]
      exact ih f1 (i + 1)

theorem mergeBlocks_append (mergeValue : Func → VPtr → Func × Bool)
    (bs1 bs2 : List BPtr) (f : Func) :
    mergeBlocks mergeValue f (bs1 ++ bs2) =
      match mergeBlocks mergeValue f bs1 with
      | .error e => .error e
      | .ok f1 => mergeBlocks mergeValue f1 bs2 := by
  induction bs1 generalizing f with
  | nil => rfl
  | cons b rest ih =>
    simp only [List.cons_append, mergeBlocks]
    cases hv : mergeValues mergeValue b f (f.blockAt b).Values 0 with
    | error e => rfl
    | ok f1 =>
      simp only
      exact ih f1

/-- The scan that starts at a memory-typed instruction meets that instruction
first. -/
theorem firstMemoryBack_self (f : Func) (vals : List VPtr) (i : Nat) (v : VPtr)
    (hpos : vals[i]? = some v) (hmem : (f.valueAt v).Typ.IsMemory = true) :
    firstMemoryBack f vals i = some v := by
  have hlt : i < vals.length := (List.getElem?_eq_some_iff.mp hpos).1
  unfold firstMemoryBack
  rw [List.take_succ, hpos]
  simp only [Option.toList, List.reverse_append, List.reverse_cons, List.reverse_nil,
    List.nil_append, List.singleton_append, List.find?_cons, hmem]

/-- C22: the backward scan of the driver starts at the position of the fused
instruction itself.  Let the visits before `v` in its block have returned, and
let the fusion predicate return true for `v`, leaving `v` at its position,
memory-typed, and with a `MemoryArg()` other than `v`.  Then the first
memory-typed instruction the scan meets is `v` itself, the visit stops with the
fatal error "load moved through possibly aliased memory states", and so does
`mergeload`, whatever the values `pre` before `v` and `rest` after it are. -/
theorem mergeload_fatal_on_memory_typed (mergeValue : Func → VPtr → Func × Bool) (f f1 f2 : Func)
    (bs1 bs2 : List BPtr) (b : BPtr) (pre rest : List VPtr) (v : VPtr)
    (hblocks : f.Blocks = bs1 ++ b :: bs2)
    (hbs : mergeBlocks mergeValue { f with mergeLoadState := some { invert := [] } } bs1 = .ok f1)
    (hvals : (f1.blockAt b).Values = pre ++ v :: rest)
    (hpre : mergeValues mergeValue b f1 pre 0 = .ok f2)
    (hr : (mergeValue f2 v).2 = true)
    (hpos : ((mergeValue f2 v).1.blockAt b).Values[pre.length]? = some v)
    (hmem : ((mergeValue f2 v).1.valueAt v).Typ.IsMemory = true)
    (hne : MemoryArg (mergeValue f2 v).1 v ≠ some v) :
    firstMemoryBack (mergeValue f2 v).1 ((mergeValue f2 v).1.blockAt b).Values pre.length
        = some v ∧
      visitValue mergeValue f2 b pre.length v = .error (.fatal aliasedMemoryMsg) ∧
      mergeload (some mergeValue) f = .error (.fatal aliasedMemoryMsg) := by
  have hfirst := firstMemoryBack_self (mergeValue f2 v).1 _ pre.length v hpos hmem
  have hlen : pre.length < ((mergeValue f2 v).1.blockAt b).Values.length :=
    (List.getElem?_eq_some_iff.mp hpos).1
  have hvisit : visitValue mergeValue f2 b pre.length v = .error (.fatal aliasedMemoryMsg) := by
    rw [visitValue_eq_repair mergeValue f2 b pre.length v hlen hr, hfirst]
    simp only
    unfold repairWith
    rw [if_neg (fun h => hne h.symm), if_pos (Or.inr rfl)]
  refine ⟨hfirst, hvisit, ?_⟩
  have hblock : mergeValues mergeValue b f1 (f1.blockAt b).Values 0
      = .error (.fatal aliasedMemoryMsg) := by
    rw [hvals, mergeValues_append, hpre]
    simp only [Nat.zero_add]
    unfold mergeValues
    rw [hvisit]
  have hdrv : mergeBlocks mergeValue { f with mergeLoadState := some { invert := [] } }
      (bs1 ++ b :: bs2) = .error (.fatal aliasedMemoryMsg) := by
    rw [mergeBlocks_append, hbs]
    simp only [mergeBlocks]
    rw [hblock]
  rw [← hblocks] at hdrv
  unfold mergeload
  simp only
  rw [hdrv]

/-- C22 witness: in `[L; T]` with `T` a store of the loaded value, fusing `L`
into `T` stops the pass, although the memory argument of the fused `T` is the
one the load had and nothing lies between the two. -/
theorem mergeload_fatal_on_fused_store :
    firstMemoryBack (exFuseStore { exStoreOfLoad with mergeLoadState := some { invert := [] } } 2).1
        [1, 2] 1 = some 2 ∧
      mergeload (some exFuseStore) exStoreOfLoad = .error (.fatal aliasedMemoryMsg) :=
  have h := mergeload_fatal_on_memory_typed exFuseStore exStoreOfLoad
    { exStoreOfLoad with mergeLoadState := some { invert := [] } }
    { exStoreOfLoad with mergeLoadState := some { invert := [] } }
    [1] [] 0 [1] [] 2 rfl rfl rfl rfl rfl rfl rfl (by decide)
  ⟨h.1, h.2.2⟩

/-! ## Keys missing from the inversion tables -/

theorem mapIndex_not_key {α β : Type} [DecidableEq α] (zero : β) (tbl : List (α × β)) (x : α)
    (h : ¬ isKey tbl x) : mapIndex zero tbl x = zero := by
  unfold mapIndex
  cases hf : tbl.find? (fun e => decide (e.1 = x)) with
  | none => rfl
  | some e =>
    exfalso
    have hmem : e ∈ tbl := List.mem_of_find?_eq_some hf
    have hp := List.find?_some hf
    exact h ⟨e, hmem, of_decide_eq_true hp⟩

theorem invertTable_invalid (k : Nat) : mapIndex OpInvalid (invertTable k) OpInvalid = OpInvalid :=
  match k with
  | 0 => by decide
  | 1 => by decide
  | _ + 2 => show mapIndex OpInvalid invertValueArg2 OpInvalid = OpInvalid by decide

theorem invertBlockKind_invalid :
    mapIndex BlockInvalid invertBlockKind BlockInvalid = BlockInvalid := by
  decide

theorem setOp_Op_self (f : Func) (v : VPtr) (op : Op) : ((setOp f v op).valueAt v).Op = op := by
  unfold setOp
  rw [setValue_valueAt_self]

/-- The `switch` on `v` applies the table of the first position whose guard
holds. -/
theorem invertValue_first (f : Func) (v : VPtr) (k : Nat) (hk : k < 3)
    (hg : argNeedsInvert f v k = .ok true)
    (hlt : ∀ j, j < k → argNeedsInvert f v j = .ok false) :
    invertValue f v = .ok (setOp f v (mapIndex OpInvalid (invertTable k) (f.valueAt v).Op)) := by
  unfold invertValue
  match k, hk with
  | 0, _ => rw [hg]; rfl
  | 1, _ => rw [hlt 0 (by omega), hg]; rfl
  | 2, _ => rw [hlt 0 (by omega), hlt 1 (by omega), hg]; rfl

/-- A retired instruction stays retired through a step of the second pass. -/
theorem stepEvent_retired (f f1 : Func) (e : Event) (v : VPtr) (h : stepEvent f e = .ok f1)
    (hv : (f.valueAt v).Op = OpInvalid) : (f1.valueAt v).Op = OpInvalid := by
  by_cases he : e = .val v
  · rw [he] at h
    have h1 : invertValue f v = .ok f1 := h
    rcases invertValue_cases f f1 v h1 with ⟨_, hf⟩ | ⟨_, _, hf⟩ | ⟨_, _, _, hf⟩ | ⟨_, _, _, hf⟩
    · rw [hf, setOp_Op_self, hv]
      exact invertTable_invalid 0
    · rw [hf, setOp_Op_self, hv]
      exact invertTable_invalid 1
    · rw [hf, setOp_Op_self, hv]
      exact invertTable_invalid 2
    · rw [hf]
      exact hv
  · rw [(stepEvent_frame f f1 e h).2.1 v he]
    exact hv

theorem runEvents_retired (f f1 : Func) (es : List Event) (v : VPtr)
    (h : runEvents f es = .ok f1) (hv : (f.valueAt v).Op = OpInvalid) :
    (f1.valueAt v).Op = OpInvalid := by
  induction es generalizing f with
  | nil =>
    simp only [runEvents, Except.ok.injEq] at h
    rw [← h]
    exact hv
  | cons e rest ih =>
    simp only [runEvents] at h
    cases hs : stepEvent f e with
    | error err => rw [hs] at h; cases h
    | ok g =>
      rw [hs] at h
      exact ih g h (stepEvent_retired f g e v hs hv)

/-- A block of the invalid kind keeps it through a step of the second pass. -/
theorem stepEvent_kind_invalid (f f1 : Func) (e : Event) (b : BPtr) (h : stepEvent f e = .ok f1)
    (hb : (f.blockAt b).Kind = BlockInvalid) : (f1.blockAt b).Kind = BlockInvalid := by
  by_cases he : e = .ctl b
  · rw [he] at h
    simp only [stepEvent] at h
    cases hc : controlNeedsInvert f b with
    | error err => rw [hc] at h; cases h
    | ok r =>
      rw [hc] at h
      cases r with
      | true =>
        simp only [Except.ok.injEq] at h
        rw [← h, (invertKind_frame f b).2.2.2, hb]
        exact invertBlockKind_invalid
      | false =>
        simp only [Except.ok.injEq] at h
        rw [← h]
        exact hb
  · rw [(stepEvent_frame f f1 e h).2.2 b he]
    exact hb

theorem runEvents_kind_invalid (f f1 : Func) (es : List Event) (b : BPtr)
    (h : runEvents f es = .ok f1) (hb : (f.blockAt b).Kind = BlockInvalid) :
    (f1.blockAt b).Kind = BlockInvalid := by
  induction es generalizing f with
  | nil =>
    simp only [runEvents, Except.ok.injEq] at h
    rw [← h]
    exact hb
  | cons e rest ih =>
    simp only [runEvents] at h
    cases hs : stepEvent f e with
    | error err => rw [hs] at h; cases h
    | ok g =>
      rw [hs] at h
      exact ih g h (stepEvent_kind_invalid f g e b hs hb)

/-- The run of the second pass from the step `e` on. -/
theorem runEvents_split (f f1 f2 : Func) (pre post : List Event) (e : Event)
    (h2 : runEvents f (pre ++ e :: post) = .ok f2) (hpre : runEvents f pre = .ok f1) :
    ∃ g, stepEvent f1 e = .ok g ∧ runEvents g post = .ok f2 := by
  rw [runEvents_append, hpre] at h2
  simp only [runEvents] at h2
  cases hs : stepEvent f1 e with
  | error err => rw [hs] at h2; cases h2
  | ok g =>
    rw [hs] at h2
    exact ⟨g, rfl, h2⟩

/-- Once the `switch` on `v` has met a first guard that holds, at position `k`,
with an `Op` that is no key of the table of that position, the `Op` of `v` is
`OpInvalid` for the rest of the pass. -/
theorem runEvents_retires (f f1 f2 : Func) (pre post : List Event) (v : VPtr) (k : Nat)
    (h2 : runEvents f (pre ++ Event.val v :: post) = .ok f2) (hpre : runEvents f pre = .ok f1)
    (hk : k < 3) (hg : argNeedsInvert f1 v k = .ok true)
    (hlt : ∀ j, j < k → argNeedsInvert f1 v j = .ok false)
    (hkey : ¬ isKey (invertTable k) (f1.valueAt v).Op) :
    (f2.valueAt v).Op = OpInvalid := by
  obtain ⟨g, hstep, hpost⟩ := runEvents_split f f1 f2 pre post _ h2 hpre
  have hval : invertValue f1 v = .ok g := hstep
  rw [invertValue_first f1 v k hk hg hlt, mapIndex_not_key OpInvalid _ _ hkey] at hval
  simp only [Except.ok.injEq] at hval
  have hg : (g.valueAt v).Op = OpInvalid := by
    rw [← hval]
    exact setOp_Op_self f1 v OpInvalid
  exact runEvents_retired g f2 post v hpost hg

/-- Once the test of the control of `b` has held with a `Kind` that is no key of
`invertBlockKind`, the `Kind` of `b` is `BlockInvalid` for the rest of the pass. -/
theorem runEvents_invalidates (m : mergeLoadState) (f f1 f2 : Func) (pre post : List Event)
    (b : BPtr) (c : VPtr)
    (h2 : runEvents f (pre ++ Event.ctl b :: post) = .ok f2) (hpre : runEvents f pre = .ok f1)
    (hst : f1.mergeLoadState = some m) (hctl : (f1.blockAt b).Control = some c)
    (hmark : needsInvert m f1 c = .ok true)
    (hkey : ¬ isKey invertBlockKind (f1.blockAt b).Kind) :
    (f2.blockAt b).Kind = BlockInvalid := by
  obtain ⟨g, hstep, hpost⟩ := runEvents_split f f1 f2 pre post _ h2 hpre
  simp only [stepEvent] at hstep
  have hcn : controlNeedsInvert f1 b = .ok true := by
    unfold controlNeedsInvert
    rw [hctl]
    simp only
    rw [funcNeedsInvert_eq m f1 c hst]
    exact hmark
  rw [hcn] at hstep
  simp only [Except.ok.injEq] at hstep
  have hg : (g.blockAt b).Kind = BlockInvalid := by
    rw [← hstep, (invertKind_frame f1 b).2.2.2]
    exact mapIndex_not_key BlockInvalid _ _ hkey
  exact runEvents_kind_invalid g f2 post b hpost hg

/-- The third pass leaves a retired instruction in no block of the function. -/
theorem compactBlocks_removes (f2 : Func) (v : VPtr) (hop : (f2.valueAt v).Op = OpInvalid)
    (b : BPtr) (hb : b ∈ f2.Blocks) :
    v ∉ ((compactBlocks f2 f2.Blocks).blockAt b).Values := by
  intro hmem
  obtain ⟨_, _, _, _, hc⟩ := compactBlocks_frame f2 f2.Blocks
  rw [hc b hb, List.mem_filter] at hmem
  have hkept := hmem.2
  unfold isKept at hkept
  exact (of_decide_eq_true hkept) hop

theorem needsInvert_of_marked (m : mergeLoadState) (f : Func) (a : VPtr)
    (h : (f.valueAt a).ID ∈ m.invert) : needsInvert m f a = .ok true :=
  (needsInvert_true_iff m f a).mpr (Or.inl h)

/-- C21: a key missing from an inversion table retires the instruction.  On a
function whose selectors all have an argument the second pass returns, and:
(1) an instruction `v` held in a block of the function, with an argument at a
position `k` among 0, 1, 2 whose ID is in the tracking set, no marked argument
at a lower position, and an `Op` that is no key of the table of position `k`,
has the `Op` `OpInvalid` when the pass ends, and the third pass leaves it in
the value list of no block of the function;
(2) the same holds whenever the pass comes to the `switch` on `v` in a state
in which `k` is the first marked argument position of `v` and the `Op` of `v`
is no key of the table of position `k`;
(3) a block of the function whose control has its ID in the tracking set and
whose `Kind` is no key of `invertBlockKind` has the `Kind` `BlockInvalid` when
the pass ends, and after the third pass;
(4) the same holds whenever the pass comes to the test of the control of the
block in a state in which `needsInvert` holds of the control and the `Kind` is
no key of `invertBlockKind`. -/
theorem invertBlocks_missing_key (m : mergeLoadState) (f : Func) (hr : InvertReady m f) :
    ∃ f2, invertBlocks f f.Blocks = .ok f2 ∧
      (∀ v k a, v ∈ visitOrder f → k < 3 → (f.valueAt v).Args[k]? = some a →
        (f.valueAt a).ID ∈ m.invert → (∀ j, j < k → ¬ markedArg m f v j) →
        ¬ isKey (invertTable k) (f.valueAt v).Op →
        (f2.valueAt v).Op = OpInvalid ∧
          ∀ b ∈ f.Blocks, v ∉ ((compactBlocks f2 f2.Blocks).blockAt b).Values) ∧
      (∀ v f1 k, reachesStep f (.val v) f1 → firstMarked m f1 v k →
        ¬ isKey (invertTable k) (f1.valueAt v).Op →
        (f2.valueAt v).Op = OpInvalid ∧
          ∀ b ∈ f.Blocks, v ∉ ((compactBlocks f2 f2.Blocks).blockAt b).Values) ∧
      (∀ b c, b ∈ f.Blocks → (f.blockAt b).Control = some c →
        (f.valueAt c).ID ∈ m.invert → ¬ isKey invertBlockKind (f.blockAt b).Kind →
        (f2.blockAt b).Kind = BlockInvalid ∧
          ((compactBlocks f2 f2.Blocks).blockAt b).Kind = BlockInvalid) ∧
      (∀ b f1 c, reachesStep f (.ctl b) f1 → (f1.blockAt b).Control = some c →
        needsInvert m f1 c = .ok true → ¬ isKey invertBlockKind (f1.blockAt b).Kind →
        (f2.blockAt b).Kind = BlockInvalid ∧
          ((compactBlocks f2 f2.Blocks).blockAt b).Kind = BlockInvalid) := by
  obtain ⟨f2, h2⟩ := runEvents_ok m f (stageEvents f f.Blocks) hr
  have hblocks : f2.Blocks = f.Blocks := (runEvents_frame f f2 _ h2).1.blocks
  have hremove : ∀ v, (f2.valueAt v).Op = OpInvalid →
      (f2.valueAt v).Op = OpInvalid ∧
        ∀ b ∈ f.Blocks, v ∉ ((compactBlocks f2 f2.Blocks).blockAt b).Values :=
    fun v hop => ⟨hop, fun b hb => compactBlocks_removes f2 v hop b (by rw [hblocks]; exact hb)⟩
  have hkind : ∀ b, (f2.blockAt b).Kind = BlockInvalid →
      (f2.blockAt b).Kind = BlockInvalid ∧
        ((compactBlocks f2 f2.Blocks).blockAt b).Kind = BlockInvalid :=
    fun b hk => ⟨hk, by rw [(compactBlocks_kind f2 f2.Blocks b).1]; exact hk⟩
  rw [invertBlocks_eq_runEvents]
  refine ⟨f2, h2, ?_, ?_, ?_, ?_⟩
  · intro v k a hv hk ha hid hfirst hkey
    have hmem : Event.val v ∈ stageEvents f f.Blocks := by
      rw [mem_filterMap_value, stageEvents_values]
      exact hv
    obtain ⟨pre, post, hsplit, hnot⟩ := List.eq_append_cons_of_mem hmem
    obtain ⟨f1, hpre⟩ := runEvents_ok m f pre hr
    obtain ⟨hf, hsame, _⟩ := runEvents_frame f f1 pre hpre
    have hv1 : f1.valueAt v = f.valueAt v := hsame v hnot
    have hnothidden : ¬ hiddenSelector m f a := fun h => h.1 hid
    have hgk := (argNeedsInvert_iff_marked m f f1 v k hr hf (fun a2 ha2 => by
      rw [ha] at ha2
      cases ha2
      exact Or.inr hnothidden)).1.mpr ⟨a, ha, needsInvert_of_marked m f a hid⟩
    have hgj : ∀ j, j < k → argNeedsInvert f1 v j = .ok false := by
      intro j hj
      refine (argNeedsInvert_iff_marked m f f1 v j hr hf (fun a2 ha2 => ?_)).2.mpr (hfirst j hj)
      right
      intro hh
      apply hfirst j hj
      exact ⟨a2, ha2, (needsInvert_true_iff m f a2).mpr (Or.inr ⟨hh.2.1, hh.2.2⟩)⟩
    rw [hsplit] at h2
    exact hremove v (runEvents_retires f f1 f2 pre post v k h2 hpre hk hgk hgj
      (by rw [hv1]; exact hkey))
  · rintro v f1 k ⟨pre, post, hsplit, hpre⟩ ⟨hk, hmk, hfirst⟩ hkey
    have hr1 : InvertReady m f1 := invertReady_frame hr (runEvents_frame f f1 pre hpre).1
    have hguard : ∀ j, (argNeedsInvert f1 v j = .ok true ↔ markedArg m f1 v j) ∧
        (argNeedsInvert f1 v j = .ok false ↔ ¬ markedArg m f1 v j) := fun j =>
      argNeedsInvert_iff_marked m f1 f1 v j hr1 (invertFrame_refl f1) (fun _ _ => Or.inl rfl)
    rw [hsplit] at h2
    exact hremove v (runEvents_retires f f1 f2 pre post v k h2 hpre hk ((hguard k).1.mpr hmk)
      (fun j hj => (hguard j).2.mpr (hfirst j hj)) hkey)
  · intro b c hb hctl hid hkey
    have hmem : Event.ctl b ∈ stageEvents f f.Blocks := by
      unfold stageEvents blockEvents
      rw [List.mem_flatMap]
      exact ⟨b, hb, List.mem_cons_self _ _⟩
    obtain ⟨pre, post, hsplit, hnot⟩ := List.eq_append_cons_of_mem hmem
    obtain ⟨f1, hpre⟩ := runEvents_ok m f pre hr
    obtain ⟨hf, _, hsame⟩ := runEvents_frame f f1 pre hpre
    have hb1 : f1.blockAt b = f.blockAt b := hsame b hnot
    have hr1 : InvertReady m f1 := invertReady_frame hr hf
    rw [hsplit] at h2
    exact hkind b (runEvents_invalidates m f f1 f2 pre post b c h2 hpre hr1.1
      (by rw [hb1]; exact hctl)
      (needsInvert_of_marked m f1 c (by rw [hf.ids c]; exact hid))
      (by rw [hb1]; exact hkey))
  · rintro b f1 c ⟨pre, post, hsplit, hpre⟩ hctl hmark hkey
    have hr1 : InvertReady m f1 := invertReady_frame hr (runEvents_frame f f1 pre hpre).1
    rw [hsplit] at h2
    exact hkind b (runEvents_invalidates m f f1 f2 pre post b c h2 hpre hr1.1 hctl hmark hkey)

theorem exMissing_ready : InvertReady exMarkT exMissing := by
  refine ⟨rfl, ?_⟩
  intro u
  show isSelector (exMissingHeap u).Op → (exMissingHeap u).Args ≠ []
  unfold exMissingHeap
  split <;> simp [mkValue, isSelector]

/-- C21 witness: in block `[T; S; W]` with `T` marked, the selector `S` of `T`
and the store form `W` on `T` are retired and removed, and the block, whose
kind has no entry, ends with the invalid kind; `mergeload` with a predicate
that marks `T` leaves the block as `[T]`, of the invalid kind. -/
theorem invertBlocks_missing_key_selector_and_store :
    ∃ f2, invertBlocks exMissing exMissing.Blocks = .ok f2 ∧
      (f2.valueAt 2).Op = OpInvalid ∧ (f2.valueAt 6).Op = OpInvalid ∧
      2 ∉ ((compactBlocks f2 f2.Blocks).blockAt 0).Values ∧
      6 ∉ ((compactBlocks f2 f2.Blocks).blockAt 0).Values ∧
      (f2.blockAt 0).Kind = BlockInvalid ∧
      ((compactBlocks f2 f2.Blocks).blockAt 0).Kind = BlockInvalid ∧
      valuesAfter (mergeload (some exMarkFirst) exMissing) 0 = some [1] ∧
      kindAfter (mergeload (some exMarkFirst) exMissing) 0 = some BlockInvalid := by
  obtain ⟨f2, hrun, hval, hstep, hkind, hkstep⟩ :=
    invertBlocks_missing_key exMarkT exMissing exMissing_ready
  have hS := hval 2 0 1 (by decide) (by omega) rfl (by decide) (fun j hj => by omega)
    (by rintro ⟨e, he, hop⟩; revert hop; revert e; decide)
  have hW := hstep 6 (setOp (invertKind exMissing 0) 2 OpInvalid) 0
    ⟨[.ctl 1, .ctl 0, .val 1, .val 2], [], rfl, rfl⟩
    ⟨by omega, ⟨1, rfl, rfl⟩, fun j hj => by omega⟩
    (by rintro ⟨e, he, hop⟩; revert hop; revert e; decide)
  have hK := hkind 0 1 (by decide) rfl (by decide)
    (by rintro ⟨e, he, hop⟩; revert hop; revert e; decide)
  have hK2 := hkstep 0 exMissing 1 ⟨[.ctl 1], _, rfl, rfl⟩ rfl rfl
    (by rintro ⟨e, he, hop⟩; revert hop; revert e; decide)
  exact ⟨f2, hrun, hS.1, hW.1, hS.2 0 (by decide), hW.2 0 (by decide), hK.1, hK2.2,
    by decide, by decide⟩

end MergeLoad

namespace CmdTrace

/-! ## splitTrace: the ranges partition the events -/

theorem chain_append (a b c : Int) (xs ys : List Range) (h1 : chain a xs b) (h2 : chain b ys c) :
    chain a (xs ++ ys) c := by
  induction xs generalizing a with
  | nil =>
    simp only [chain] at h1
    rw [h1]
    exact h2
  | cons r rest ih =>
    simp only [chain] at h1
    simp only [List.cons_append, chain]
    exact ⟨h1.1, h1.2.1, ih _ h1.2.2⟩

theorem chain_last (a b : Int) (rs : List Range) (h : chain a rs b) (r : Range)
    (hl : rs.getLast? = some r) : r.End = b := by
  induction rs generalizing a with
  | nil => cases hl
  | cons x rest ih =>
    simp only [chain] at h
    cases rest with
    | nil =>
      simp only [List.getLast?_singleton, Option.some.injEq] at hl
      simp only [chain] at h
      rw [← hl]
      exact h.2.2
    | cons y more =>
      rw [List.getLast?_cons_cons] at hl
      exact ih _ h.2.2 hl

theorem chain_lt (a b : Int) (rs : List Range) (h : chain a rs b) (r : Range) (hr : r ∈ rs) :
    r.Start < r.End := by
  induction rs generalizing a with
  | nil => cases hr
  | cons x rest ih =>
    simp only [chain] at h
    rcases List.mem_cons.mp hr with hx | hx
    · rw [hx]
      exact h.2.1
    · exact ih _ h.2.2 hx

theorem chain_next (a b : Int) (rs : List Range) (h : chain a rs b) (i : Nat) (r s : Range)
    (hr : rs[i]? = some r) (hs : rs[i + 1]? = some s) : s.Start = r.End := by
  induction rs generalizing a i with
  | nil => cases hr
  | cons x rest ih =>
    simp only [chain] at h
    cases i with
    | zero =>
      rw [List.getElem?_cons_zero, Option.some.injEq] at hr
      rw [List.getElem?_cons_succ] at hs
      cases rest with
      | nil => cases hs
      | cons y more =>
        rw [List.getElem?_cons_zero, Option.some.injEq] at hs
        simp only [chain] at h
        rw [← hr, ← hs]
        exact h.2.2.1
    | succ j =>
      rw [List.getElem?_cons_succ] at hr hs
      exact ih _ h.2.2 j hr hs

/-- A chain that is not empty partitions the indices it spans. -/
theorem chain_partitions (b : Int) (rs : List Range) (h : chain 0 rs b) (hne : rs ≠ []) :
    partitions rs b := by
  refine ⟨?_, ?_, chain_lt 0 b rs h, chain_next 0 b rs h⟩
  · cases rs with
    | nil => exact absurd rfl hne
    | cons r rest =>
      simp only [chain] at h
      exact ⟨r, rfl, h.1⟩
  · cases hl : rs.getLast? with
    | none => exact absurd (List.getLast?_eq_none_iff.mp hl) hne
    | some r => exact ⟨r, rfl, chain_last 0 b rs h r hl⟩

/-- The loop returns, and extends a chain up to `start` to a chain up to
`Footer`; it adds a range when an iteration is left. -/
theorem splitLoop_chain {Ev : Type} (env : Env Ev) (data : Data Ev) (auxSize : Int)
    (n i start : Nat) (cw : countingWriter) (ranges : List Range)
    (hn : (i : Int) + n = data.Footer) (hlen : i + n ≤ data.Events.length)
    (hstart : start ≤ i) (hend : n = 0 → start = i) (hch : chain 0 ranges start) :
    ∃ rs, splitLoop env data auxSize n i start cw ranges = .ok rs ∧ chain 0 rs data.Footer ∧
      ranges.length ≤ rs.length ∧ (0 < n → ranges.length < rs.length) := by
  induction n generalizing i start cw ranges with
  | zero =>
    refine ⟨ranges, rfl, ?_, Nat.le_refl _, fun h => absurd h (Nat.lt_irrefl 0)⟩
    have : (start : Int) = data.Footer := by
      rw [hend rfl, ← hn]
      simp
    rw [← this]
    exact hch
  | succ n ih =>
    have hi : i < data.Events.length := by omega
    have hs : start < data.Events.length := by omega
    unfold splitLoop
    rw [List.getElem?_eq_getElem hi]
    simp only
    by_cases hcut : wrapInt env.intBits
        ((cw.Write env.intBits (env.encodedEvent data.Events[i])).size + auxSize) > rangeSize ∨
        (i : Int) = data.Footer - 1
    · rw [if_pos hcut, List.getElem?_eq_getElem hs]
      simp only
      have hnew : chain 0
          (ranges ++ [Range.mk (env.rangeName data.Events[start] data.Events[i]) start
            ((i : Int) + 1)]) ((i + 1 : Nat) : Int) := by
        refine chain_append 0 start _ ranges _ hch ?_
        simp only [chain]
        refine ⟨trivial, ?_, ?_⟩
        · omega
        · push_cast
          rfl
      obtain ⟨rs, hrs, hc, hle, _⟩ := ih (i + 1) (i + 1) { size := 0 } _
        (by push_cast; omega) (by omega) (Nat.le_refl _) (fun _ => rfl) hnew
      refine ⟨rs, hrs, hc, ?_, fun _ => ?_⟩
      · rw [List.length_append, List.length_singleton] at hle
        omega
      · rw [List.length_append, List.length_singleton] at hle
        omega
    · rw [if_neg hcut]
      have hn0 : n ≠ 0 := by
        intro h0
        apply hcut
        right
        rw [h0] at hn
        omega
      obtain ⟨rs, hrs, hc, hle, hlt⟩ := ih (i + 1) start _ ranges
        (by push_cast; omega) (by omega) (by omega) (fun h => absurd h hn0) hch
      exact ⟨rs, hrs, hc, hle, fun _ => hlt (Nat.pos_of_ne_zero hn0)⟩

/-! ## splitTrace: when a single range results -/

theorem wrapInt_of_lt (bits : Nat) (x : Int) (hb : 1 ≤ bits) (h0 : 0 ≤ x)
    (h1 : x < 2 ^ (bits - 1)) : wrapInt bits x = x := by
  unfold wrapInt
  have hpow : (2 : Int) ^ bits = 2 * 2 ^ (bits - 1) := by
    have : bits = (bits - 1) + 1 := by omega
    conv_lhs => rw [this]
    rw [pow_succ]
    ring
  have hpos : (0 : Int) < 2 ^ (bits - 1) := by positivity
  rw [Int.emod_eq_of_lt (by omega) (by omega)]
  omega

theorem rangeSize_lt (bits : Nat) (hb : 32 ≤ bits) : rangeSize < 2 ^ (bits - 1) := by
  have h1 : (2 : Int) ^ 31 ≤ 2 ^ (bits - 1) :=
    pow_le_pow_right₀ (by norm_num) (by omega)
  have h2 : rangeSize < 2 ^ 31 := by
    unfold rangeSize
    norm_num
  omega

theorem eventsSize_succ {Ev : Type} (env : Env Ev) (data : Data Ev) (i : Nat)
    (hi : i < data.Events.length) :
    eventsSize env data (i + 1) = eventsSize env data i + env.encodedEvent data.Events[i] := by
  unfold eventsSize
  rw [List.take_succ, List.getElem?_eq_getElem hi, List.map_append, List.sum_append]
  rfl

theorem eventsSize_mono {Ev : Type} (env : Env Ev) (data : Data Ev) (i j : Nat) (hij : i ≤ j) :
    eventsSize env data i ≤ eventsSize env data j := by
  unfold eventsSize
  have h : (List.take i data.Events) = List.take i (List.take j data.Events) := by
    rw [List.take_take, Nat.min_eq_left hij]
  rw [h, List.map_take]
  have := List.sum_take_add_sum_drop ((List.take j data.Events).map env.encodedEvent) i
  omega

/-- As long as no range has been closed, and the sizes stay within an `int`, a
single range results exactly when no event before the last one brings the
running size above `rangeSize`. -/
theorem splitLoop_single {Ev : Type} (env : Env Ev) (data : Data Ev)
    (n i : Nat) (cw : countingWriter)
    (hn : (i : Int) + n = data.Footer) (hlen : i + n ≤ data.Events.length) (hpos : 0 < n)
    (hfit : sizesFitInt env data) (hcw : cw.size = eventsSize env data i) :
    ∃ rs, splitLoop env data (mandatorySize env data) n i 0 cw [] = .ok rs ∧
      (rs.length = 1 ↔ ∀ k : Nat, i < k → (k : Int) < data.Footer →
        (mandatorySize env data : Int) + eventsSize env data k ≤ rangeSize) := by
  induction n generalizing i cw with
  | zero => exact absurd hpos (Nat.lt_irrefl 0)
  | succ n ih =>
    have hi : i < data.Events.length := by omega
    have hs : 0 < data.Events.length := by omega
    have hF : data.Footer.toNat = i + (n + 1) := by omega
    have htot : (mandatorySize env data : Int) + eventsSize env data (i + (n + 1))
        < 2 ^ (env.intBits - 1) := by
      have := hfit.2
      rw [hF] at this
      exact this
    have hmono : eventsSize env data (i + 1) ≤ eventsSize env data (i + (n + 1)) :=
      eventsSize_mono env data _ _ (by omega)
    have hsize : (cw.Write env.intBits (env.encodedEvent data.Events[i])).size
        = eventsSize env data (i + 1) := by
      unfold countingWriter.Write
      simp only
      rw [hcw, eventsSize_succ env data i hi]
      push_cast
      refine wrapInt_of_lt _ _ (by have := hfit.1; omega) (by positivity) ?_
      rw [eventsSize_succ env data i hi] at hmono
      omega
    have hsum : wrapInt env.intBits
        ((eventsSize env data (i + 1) : Int) + (mandatorySize env data : Int))
        = (mandatorySize env data : Int) + eventsSize env data (i + 1) := by
      rw [wrapInt_of_lt _ _ (by have := hfit.1; omega) (by positivity) (by omega)]
      ring
    unfold splitLoop
    rw [List.getElem?_eq_getElem hi]
    simp only
    rw [hsize, hsum]
    by_cases hlast : n = 0
    · have hi1 : (i : Int) = data.Footer - 1 := by
        rw [hlast] at hn
        omega
      rw [if_pos (Or.inr hi1), List.getElem?_eq_getElem hs]
      simp only
      rw [hlast]
      refine ⟨_, rfl, ?_⟩
      constructor
      · intro _ k hk hkF
        omega
      · intro _
        rfl
    · have hi1 : ¬ (i : Int) = data.Footer - 1 := by omega
      by_cases hbig : (mandatorySize env data : Int) + eventsSize env data (i + 1) > rangeSize
      · rw [if_pos (Or.inl hbig), List.getElem?_eq_getElem hs]
        simp only
        obtain ⟨rs, hrs, _, _, hlt⟩ := splitLoop_chain env data (mandatorySize env data)
          n (i + 1) (i + 1) { size := 0 }
          ([] ++ [Range.mk (env.rangeName data.Events[0] data.Events[i]) (0 : Nat)
            ((i : Int) + 1)])
          (by push_cast; omega) (by omega) (Nat.le_refl _) (fun _ => rfl)
          (by
            simp only [List.nil_append, chain]
            refine ⟨by simp, by simp, by push_cast; rfl⟩)
        refine ⟨rs, hrs, ?_⟩
        have h2 := hlt (Nat.pos_of_ne_zero hlast)
        simp only [List.nil_append, List.length_singleton] at h2
        constructor
        · intro h1
          omega
        · intro hall
          have := hall (i + 1) (by omega) (by push_cast; omega)
          omega
      · have hno : ¬ ((mandatorySize env data : Int) + eventsSize env data (i + 1) > rangeSize ∨
            (i : Int) = data.Footer - 1) := by
          intro h
          rcases h with h | h
          · exact hbig h
          · exact hi1 h
        rw [if_neg hno]
        obtain ⟨rs, hrs, hiff⟩ := ih (i + 1) _ (by push_cast; omega) (by omega)
          (Nat.pos_of_ne_zero hlast) hsize
        refine ⟨rs, hrs, ?_⟩
        rw [hiff]
        constructor
        · intro hall k hk hkF
          by_cases hk1 : k = i + 1
          · rw [hk1]
            omega
          · exact hall k (by omega) hkF
        · intro hall k hk hkF
          exact hall k (by omega) hkF

/-- C23 (amended): for a trace data with `0 ≤ Footer ≤ len(Events)`, whatever
the encoded sizes are, `splitTrace` returns, and returns either nil or at least
two ranges that partition the indices from 0 up to `Footer` in order: the first
has `Start = 0`, the last has `End = Footer`, every range has `Start < End`, and
each `Start` is the `End` of the range before.  When the sizes counted stay
within an `int`, it returns nil exactly when `Footer = 0` or, together with the
mandatory part, the events before the last one never exceed `rangeSize`; so it
returns nil when all `Footer` events fit in a single range. -/
theorem splitTrace_partitions {Ev : Type} (env : Env Ev) (data : Data Ev)
    (hfooter : 0 ≤ data.Footer) (hlen : data.Footer ≤ data.Events.length) :
    ∃ rs, splitTrace env data = .ok rs ∧
      (rs = [] ∨ (2 ≤ rs.length ∧ partitions rs data.Footer)) ∧
      (sizesFitInt env data → (rs = [] ↔ data.Footer = 0 ∨ fitsOneRange env data)) ∧
      (sizesFitInt env data → allEventsFit env data → rs = []) := by
  have hall : allEventsFit env data → fitsOneRange env data := by
    intro h k _ hk
    unfold allEventsFit at h
    have := eventsSize_mono env data k data.Footer.toNat (by omega)
    omega
  have hnat : ((data.Footer.toNat : Nat) : Int) = data.Footer := Int.toNat_of_nonneg hfooter
  obtain ⟨rs, hrs, hch, _, hlt⟩ := splitLoop_chain env data
    ((countingWriter.mk 0).Write env.intBits (env.encodedData
      { data with Events := data.Events.drop data.Footer.toNat })).size
    data.Footer.toNat 0 0 { size := 0 } [] (by omega) (by omega) (Nat.le_refl _) (fun _ => rfl)
    (by simp [chain])
  have hzero : data.Footer = 0 → rs = [] := by
    intro h0
    have hn0 : data.Footer.toNat = 0 := by omega
    rw [hn0] at hrs
    simp only [splitLoop, Except.ok.injEq] at hrs
    exact hrs.symm
  have hpos : data.Footer ≠ 0 → 0 < rs.length := by
    intro h0
    have := hlt (by omega)
    simpa using this
  have hsingle : sizesFitInt env data → data.Footer ≠ 0 →
      (rs.length = 1 ↔ fitsOneRange env data) := by
    intro hfit h0
    have haux : ((countingWriter.mk 0).Write env.intBits (env.encodedData
        { data with Events := data.Events.drop data.Footer.toNat })).size
        = mandatorySize env data := by
      unfold countingWriter.Write mandatorySize
      simp only [zero_add]
      refine wrapInt_of_lt _ _ (by have := hfit.1; omega) (by positivity) ?_
      have h2 := hfit.2
      unfold mandatorySize at h2
      have : (0 : Int) ≤ eventsSize env data data.Footer.toNat := by positivity
      omega
    rw [haux] at hrs
    obtain ⟨rs2, hrs2, hiff⟩ := splitLoop_single env data data.Footer.toNat 0 { size := 0 }
      (by omega) (by omega) (by omega) hfit (by simp [eventsSize])
    rw [hrs] at hrs2
    simp only [Except.ok.injEq] at hrs2
    rw [hrs2, hiff]
    unfold fitsOneRange
    constructor
    · intro h k hk hkF
      exact h k hk hkF
    · intro h k hk hkF
      exact h k hk hkF
  unfold splitTrace
  rw [if_neg (by omega)]
  simp only
  rw [hrs]
  simp only
  by_cases h1 : rs.length = 1
  · rw [if_pos h1]
    refine ⟨[], rfl, Or.inl rfl, ?_, fun _ _ => rfl⟩
    intro hfit
    have hF : data.Footer ≠ 0 := by
      intro h0
      rw [hzero h0] at h1
      cases h1
    constructor
    · intro _
      exact Or.inr ((hsingle hfit hF).mp h1)
    · intro _
      rfl
  · rw [if_neg h1]
    refine ⟨rs, rfl, ?_, ?_, ?_⟩
    · by_cases hne : rs = []
      · exact Or.inl hne
      · right
        have : 0 < rs.length := List.length_pos.mpr hne
        exact ⟨by omega, chain_partitions data.Footer rs hch hne⟩
    · intro hfit
      constructor
      · intro hnil
        left
        by_contra hF
        have := hpos hF
        rw [hnil] at this
        exact absurd this (Nat.lt_irrefl 0)
      · rintro (h0 | hfits)
        · exact hzero h0
        · by_cases hF : data.Footer = 0
          · exact hzero hF
          · exact absurd ((hsingle hfit hF).mpr hfits) h1
    · intro hfit hfits
      by_cases hF : data.Footer = 0
      · exact hzero hF
      · exact absurd ((hsingle hfit hF).mpr (hall hfits)) h1

/-- C23 (as stated) fails.  Two events of 60 megabytes do not fit in a range
of 100 megabytes, and `Footer` is 2, but the range is closed at the last event
only and `splitTrace` returns nil.  And on a 32-bit platform, with a mandatory
part of one byte, the event of `2 ^ 31 - 1` bytes makes `cw.size+auxSize` wrap
to a negative number: no range is closed before the last event and `splitTrace`
returns nil, although the first event alone exceeds `rangeSize`. -/
theorem splitTrace_nil_counterexample :
    (splitTrace exEnv exTwoLarge = .ok [] ∧ exTwoLarge.Footer ≠ 0 ∧
      ¬ allEventsFit exEnv exTwoLarge ∧
      ¬ nilSpec exEnv exTwoLarge (splitTrace exEnv exTwoLarge)) ∧
    (splitTrace exEnv32 exHuge = .ok [] ∧ exHuge.Footer ≠ 0 ∧
      ¬ allEventsFit exEnv32 exHuge ∧ ¬ fitsOneRange exEnv32 exHuge ∧
      ¬ nilSpec exEnv32 exHuge (splitTrace exEnv32 exHuge)) := by
  have h1 : splitTrace exEnv exTwoLarge = .ok [] := by decide
  have h2 : ¬ allEventsFit exEnv exTwoLarge := by
    unfold allEventsFit mandatorySize eventsSize
    decide
  have h3 : splitTrace exEnv32 exHuge = .ok [] := by decide
  have h4 : ¬ allEventsFit exEnv32 exHuge := by
    unfold allEventsFit mandatorySize eventsSize
    decide
  refine ⟨⟨h1, by decide, h2, ?_⟩, ⟨h3, by decide, h4, ?_, ?_⟩⟩
  · intro hspec
    rcases hspec.mp h1 with h | h
    · revert h
      decide
    · exact h2 h
  · intro hfits
    have := hfits 1 (by omega) (by decide)
    revert this
    unfold mandatorySize eventsSize
    decide
  · intro hspec
    rcases hspec.mp h3 with h | h
    · revert h
      decide
    · exact h4 h

/-- C23 witness: three events of 40, 70 and 30 megabytes are split into the
ranges `[0, 2)` and `[2, 3)`, which partition `[0, 3)`; the events do not fit
in one range.  The first two alone give a single range and the result is nil,
and so does a trace without events. -/
theorem splitTrace_partitions_three_events :
    splitTrace exEnv exTrace = .ok [⟨"", 0, 2⟩, ⟨"", 2, 3⟩] ∧
      partitions [⟨"", 0, 2⟩, ⟨"", 2, 3⟩] 3 ∧ ¬ fitsOneRange exEnv exTrace ∧
      splitTrace exEnv { exTrace with Footer := 2 } = .ok [] ∧
      splitTrace exEnv { exTrace with Footer := 0 } = .ok [] := by
  have hval : splitTrace exEnv exTrace = .ok [⟨"", 0, 2⟩, ⟨"", 2, 3⟩] := by decide
  have hfit : sizesFitInt exEnv exTrace := by
    unfold sizesFitInt mandatorySize eventsSize
    decide
  obtain ⟨rs, hrs, hpart, hiff, _⟩ :=
    splitTrace_partitions exEnv exTrace (by decide) (by decide)
  rw [hval] at hrs
  simp only [Except.ok.injEq] at hrs
  rw [← hrs] at hpart hiff
  refine ⟨hval, ?_, ?_, by decide, by decide⟩
  · rcases hpart with h | h
    · cases h
    · exact h.2
  · intro hfits
    have := (hiff hfit).mpr (Or.inr hfits)
    cases this

end CmdTrace

namespace Mips64

/-! ## defframe: the ranges handed to zerorange -/

theorem wrap64_of_mem (x : Int) (h1 : int64Min ≤ x) (h2 : x ≤ int64Max) : wrap64 x = x := by
  unfold wrap64
  unfold int64Min at h1
  unfold int64Max at h2
  rw [Int.emod_eq_of_lt (by omega) (by omega)]
  omega

theorem Rnd_ok (o r : Int) (hr : validWidth r) : ∃ v, Rnd o r = .ok v := by
  unfold Rnd
  rcases hr with h | h | h | h <;> subst h <;> exact ⟨_, if_neg (by decide)⟩

/-- Declarations without needzero have no part in the loop. -/
theorem defframeLoop_filter (a : Arch) (frame : Int) (dcl : List Node) (s : ZeroState) :
    defframeLoop a frame dcl s = defframeLoop a frame (dcl.filter (fun n => n.Needzero)) s := by
  induction dcl generalizing s with
  | nil => rfl
  | cons n rest ih =>
    by_cases hn : n.Needzero = true
    · rw [List.filter_cons_of_pos hn, defframeLoop, defframeLoop]
      simp only [ih]
    · rw [List.filter_cons_of_neg hn, ← ih, defframeLoop, if_pos (by simp [hn])]

/-- The code appended is that of the calls recorded. -/
theorem defframeLoop_code (a : Arch) (frame : Int) (dcl : List Node) (s s2 : ZeroState)
    (h : defframeLoop a frame dcl s = .ok s2)
    (hs : s.p = s.calls.foldl (fun p c => zerorange a p c.frame c.lo c.hi) []) :
    s2.p = s2.calls.foldl (fun p c => zerorange a p c.frame c.lo c.hi) [] := by
  induction dcl generalizing s with
  | nil =>
    simp only [defframeLoop, Except.ok.injEq] at h
    rw [← h]
    exact hs
  | cons n rest ih =>
    unfold defframeLoop at h
    split at h
    · exact ih s h hs
    · split at h
      · cases h
      · split at h
        · cases h
        · split at h
          · exact ih _ h hs
          · refine ih _ h ?_
            simp only [List.foldl_append, List.foldl_cons, List.foldl_nil]
            rw [← hs]

/-- One iteration of the loop on a needzero variable that passes the checks,
with the `int64` sums written as integers. -/
theorem defframeLoop_step (a : Arch) (frame : Int) (n : Node) (rest : List Node) (s : ZeroState)
    (hn : n.Needzero = true) (hz : zeroable a n) (hw : withinInt64 a n)
    (hreg : validWidth a.Widthreg)
    (hlo1 : int64Min + 2 * a.Widthreg ≤ s.lo) (hlo2 : s.lo ≤ int64Max) :
    defframeLoop a frame (n :: rest) s =
      if s.lo ≠ s.hi ∧ n.Xoffset + n.Size ≥ s.lo - 2 * a.Widthreg then
        defframeLoop a frame rest { s with lo := n.Xoffset }
      else
        defframeLoop a frame rest
          { p := zerorange a s.p frame s.lo s.hi,
            lo := n.Xoffset,
            hi := n.Xoffset + n.Size,
            calls := s.calls ++ [⟨frame, s.lo, s.hi⟩] } := by
  obtain ⟨hc, hpos, hd1, hd2⟩ := hz
  have hW : 0 < a.Widthreg ∧ a.Widthreg ≤ 8 := by
    rcases hreg with h | h | h | h <;> rw [h] <;> exact ⟨by norm_num, by norm_num⟩
  have hmin : int64Min = -(2 ^ 63) := rfl
  have hmax : int64Max = 2 ^ 63 - 1 := rfl
  have e1 : wrap64 (n.Xoffset + n.Size) = n.Xoffset + n.Size :=
    wrap64_of_mem _ (by have := hw.1; omega) hw.2
  have e2 : wrap64 (s.lo - 2 * a.Widthreg) = s.lo - 2 * a.Widthreg :=
    wrap64_of_mem _ (by omega) (by omega)
  rw [defframeLoop, if_neg (by simp [hn]), if_neg (by simp [hc]),
    if_neg (by
      rw [Int.tmod_eq_zero_of_dvd hd1, Int.tmod_eq_zero_of_dvd hd2]
      simp
      omega), e1, e2]

theorem covers_iff (c : ZeroCall) (n : Node) :
    covers c n ↔ c.lo ≤ n.Xoffset ∧ n.Xoffset + n.Size ≤ c.hi := Iff.rfl

theorem mergesWith_iff (a : Arch) (u w : Node) :
    mergesWith a u w ↔ w.Xoffset + w.Size ≥ u.Xoffset - 2 * a.Widthreg := Iff.rfl

/-- The loop from a state whose range `[lo, hi)` is not empty and ends with
the variable `cur`, on variables `vs` that lie below `cur` and below one
another: `all` lists the calls of `zerorange` still to come, the final one
included. -/
theorem defframeLoop_ranges (a : Arch) (frame : Int) (hreg : validWidth a.Widthreg)
    (vs : List Node) (cur : Node) (s : ZeroState)
    (hgood : ∀ n ∈ cur :: vs, n.Needzero = true ∧ zeroable a n ∧ withinInt64 a n)
    (hbelow : (cur :: vs).Pairwise (fun x y => y.Xoffset + y.Size ≤ x.Xoffset))
    (hlo : s.lo = cur.Xoffset) (hhi : cur.Xoffset + cur.Size ≤ s.hi)
    (hpast : ∀ c ∈ s.calls, c.hi ≤ c.lo ∨ s.hi ≤ c.lo) :
    ∃ s2 all, defframeLoop a frame vs s = .ok s2 ∧
      s2.calls ++ [⟨frame, s2.lo, s2.hi⟩] = s.calls ++ all ∧
      (∃ c rest, all = c :: rest ∧ c.hi = s.hi ∧ c.lo ≤ s.lo) ∧
      (∀ c ∈ all, c.hi ≤ s.hi) ∧
      (∀ v ∈ vs, ∃ c ∈ all, covers c v) ∧
      (∀ pre u w post, cur :: vs = pre ++ u :: w :: post →
        ((∃ c ∈ s.calls ++ all, covers c u ∧ covers c w) ↔ mergesWith a u w)) := by
  induction vs generalizing cur s with
  | nil =>
    refine ⟨s, [⟨frame, s.lo, s.hi⟩], rfl, rfl, ⟨_, [], rfl, rfl, Int.le_refl _⟩, ?_, ?_, ?_⟩
    · intro c hc
      rw [List.mem_singleton] at hc
      rw [hc]
    · intro v hv
      cases hv
    · intro pre u w post h
      have := congrArg List.length h
      simp at this
      omega
  | cons w vs ih =>
    obtain ⟨-, hcz, hcw⟩ := hgood cur (List.mem_cons_self _ _)
    obtain ⟨hwn, hwz, hww⟩ := hgood w (List.mem_cons_of_mem _ (List.mem_cons_self _ _))
    obtain ⟨hallbelow, htail⟩ := List.pairwise_cons.mp hbelow
    have hwc : w.Xoffset + w.Size ≤ cur.Xoffset := hallbelow w (List.mem_cons_self _ _)
    have hcpos : 0 < cur.Size := hcz.2.1
    have hwpos : 0 < w.Size := hwz.2.1
    have hgood2 : ∀ n ∈ w :: vs, n.Needzero = true ∧ zeroable a n ∧ withinInt64 a n :=
      fun n hn => hgood n (List.mem_cons_of_mem _ hn)
    rw [defframeLoop_step a frame w vs s hwn hwz hww hreg (by rw [hlo]; exact hcw.1)
      (by rw [hlo]; have := hcw.2; omega)]
    by_cases hm : s.lo ≠ s.hi ∧ w.Xoffset + w.Size ≥ s.lo - 2 * a.Widthreg
    · rw [if_pos hm]
      obtain ⟨s2, all, hrun, hcalls, ⟨c0, rest0, hall, hc0hi, hc0lo⟩, hD, hB, hP⟩ :=
        ih w { s with lo := w.Xoffset } hgood2 htail rfl
          (show w.Xoffset + w.Size ≤ s.hi by omega) hpast
      have hc0mem : c0 ∈ all := by rw [hall]; exact List.mem_cons_self _ _
      have hc0lo2 : c0.lo ≤ w.Xoffset := hc0lo
      have hc0hi2 : c0.hi = s.hi := hc0hi
      refine ⟨s2, all, hrun, hcalls, ⟨c0, rest0, hall, hc0hi2, by omega⟩, hD, ?_, ?_⟩
      · intro v hv
        rcases List.mem_cons.mp hv with hv | hv
        · rw [hv]
          exact ⟨c0, hc0mem, (covers_iff _ _).mpr ⟨hc0lo2, by omega⟩⟩
        · exact hB v hv
      · intro pre u w2 post h
        cases pre with
        | nil =>
          simp only [List.nil_append, List.cons.injEq] at h
          obtain ⟨hu, hw2, -⟩ := h
          rw [← hu, ← hw2]
          constructor
          · intro _
            rw [mergesWith_iff, ← hlo]
            exact hm.2
          · intro _
            exact ⟨c0, List.mem_append_right _ hc0mem,
              (covers_iff _ _).mpr ⟨by omega, by omega⟩,
              (covers_iff _ _).mpr ⟨hc0lo2, by omega⟩⟩
        | cons x pre2 =>
          simp only [List.cons_append, List.cons.injEq] at h
          exact hP pre2 u w2 post h.2
    · rw [if_neg hm]
      have hne : s.lo ≠ s.hi := by omega
      have hnm : ¬ w.Xoffset + w.Size ≥ s.lo - 2 * a.Widthreg := fun h => hm ⟨hne, h⟩
      obtain ⟨s2, all, hrun, hcalls, ⟨c0, rest0, hall, hc0hi, hc0lo⟩, hD, hB, hP⟩ :=
        ih w { p := zerorange a s.p frame s.lo s.hi, lo := w.Xoffset,
               hi := w.Xoffset + w.Size, calls := s.calls ++ [⟨frame, s.lo, s.hi⟩] }
          hgood2 htail rfl (Int.le_refl _)
          (by
            intro c hc
            rcases List.mem_append.mp hc with hc | hc
            · rcases hpast c hc with h | h
              · exact Or.inl h
              · right
                show w.Xoffset + w.Size ≤ c.lo
                omega
            · rw [List.mem_singleton] at hc
              right
              rw [hc]
              show w.Xoffset + w.Size ≤ s.lo
              omega)
      have hc0mem : c0 ∈ all := by rw [hall]; exact List.mem_cons_self _ _
      have hc0lo2 : c0.lo ≤ w.Xoffset := hc0lo
      have hc0hi2 : c0.hi = w.Xoffset + w.Size := hc0hi
      have hD2 : ∀ c ∈ all, c.hi ≤ w.Xoffset + w.Size := hD
      refine ⟨s2, ⟨frame, s.lo, s.hi⟩ :: all, hrun, ?_,
        ⟨_, all, rfl, rfl, Int.le_refl _⟩, ?_, ?_, ?_⟩
      · rw [hcalls]
        simp
      · intro c hc
        rcases List.mem_cons.mp hc with hc | hc
        · rw [hc]
        · have := hD2 c hc
          omega
      · intro v hv
        rcases List.mem_cons.mp hv with hv | hv
        · rw [hv]
          exact ⟨c0, List.mem_cons_of_mem _ hc0mem, (covers_iff _ _).mpr ⟨hc0lo2, by omega⟩⟩
        · obtain ⟨c, hc, hcov⟩ := hB v hv
          exact ⟨c, List.mem_cons_of_mem _ hc, hcov⟩
      · intro pre u w2 post h
        cases pre with
        | nil =>
          simp only [List.nil_append, List.cons.injEq] at h
          obtain ⟨hu, hw2, -⟩ := h
          rw [← hu, ← hw2]
          constructor
          · rintro ⟨c, hc, hcu, hcw2⟩
            exfalso
            rw [covers_iff] at hcu hcw2
            rcases List.mem_append.mp hc with hc | hc
            · rcases hpast c hc with h | h
              · omega
              · omega
            · rcases List.mem_cons.mp hc with hc | hc
              · rw [hc] at hcw2
                have : s.lo ≤ w.Xoffset := hcw2.1
                omega
              · have := hD2 c hc
                omega
          · intro hmw
            rw [mergesWith_iff, ← hlo] at hmw
            exact absurd hmw hnm
        | cons x pre2 =>
          simp only [List.cons_append, List.cons.injEq] at h
          have := hP pre2 u w2 post h.2
          rw [← this]
          simp only [List.append_assoc, List.singleton_append]

/-- The result of `defframe` depends on the needzero declarations only. -/
theorem defframe_filter (a : Arch) (fn : Fn) (sz : Int) (dcl : List Node)
    (h : dcl.filter (fun n => n.Needzero) = fn.Dcl.filter (fun n => n.Needzero)) :
    defframe a { fn with Dcl := dcl } sz = defframe a fn sz := by
  unfold defframe
  simp only
  cases Rnd fn.ArgWidth a.Widthptr with
  | error e => rfl
  | ok argWidth =>
    cases Rnd sz a.Widthreg with
    | error e => rfl
    | ok size =>
      simp only
      rw [defframeLoop_filter a _ dcl, h, ← defframeLoop_filter a _ fn.Dcl]

/-- The needzero variables of a sorted list of non-overlapping variables of
positive size lie below one another. -/
theorem needzero_below (a : Arch) (dcl : List Node)
    (hsorted : sortedDecreasing dcl) (hdisj : nonOverlapping dcl)
    (hvars : ∀ n ∈ dcl, n.Needzero = true → zeroable a n ∧ withinInt64 a n) :
    (dcl.filter (fun n => n.Needzero)).Pairwise
      (fun x y => y.Xoffset + y.Size ≤ x.Xoffset) := by
  have h1 := (List.Pairwise.and hsorted hdisj).filter (fun n => n.Needzero)
  refine List.Pairwise.imp_of_mem ?_ h1
  intro x y hx hy hxy
  obtain ⟨hxm, hxn⟩ := List.mem_filter.mp hx
  obtain ⟨hym, hyn⟩ := List.mem_filter.mp hy
  have hxpos : 0 < x.Size := (hvars x hxm hxn).1.2.1
  rcases hxy.2 hxn hyn with h | h
  · have := hxy.1
    omega
  · exact h

/-- The loop of `defframe` on the needzero variables, from its initial state. -/
theorem defframeLoop_initial (a : Arch) (frame : Int) (hreg : validWidth a.Widthreg)
    (vs : List Node)
    (hgood : ∀ n ∈ vs, n.Needzero = true ∧ zeroable a n ∧ withinInt64 a n)
    (hbelow : vs.Pairwise (fun x y => y.Xoffset + y.Size ≤ x.Xoffset)) :
    ∃ s2, defframeLoop a frame vs { p := [], lo := 0, hi := 0, calls := [] } = .ok s2 ∧
      (∀ v ∈ vs, ∃ c ∈ s2.calls ++ [⟨frame, s2.lo, s2.hi⟩], covers c v) ∧
      (∀ pre u w post, vs = pre ++ u :: w :: post →
        ((∃ c ∈ s2.calls ++ [⟨frame, s2.lo, s2.hi⟩], covers c u ∧ covers c w) ↔
          mergesWith a u w)) := by
  cases vs with
  | nil =>
    refine ⟨_, rfl, ?_, ?_⟩
    · intro v hv
      cases hv
    · intro pre u w post h
      have := congrArg List.length h
      simp at this
      omega
  | cons v1 vs =>
    obtain ⟨hn, hz, hw⟩ := hgood v1 (List.mem_cons_self _ _)
    have hW : 0 < a.Widthreg ∧ a.Widthreg ≤ 8 := by
      rcases hreg with h | h | h | h <;> rw [h] <;> exact ⟨by norm_num, by norm_num⟩
    have hmin : int64Min = -(2 ^ 63) := rfl
    have hmax : int64Max = 2 ^ 63 - 1 := rfl
    rw [defframeLoop_step a frame v1 vs _ hn hz hw hreg
      (show int64Min + 2 * a.Widthreg ≤ 0 by omega) (show (0 : Int) ≤ int64Max by omega),
      if_neg (fun h => h.1 rfl)]
    obtain ⟨s2, all, hrun, hcalls, ⟨c0, rest0, hall, hc0hi, hc0lo⟩, -, hB, hP⟩ :=
      defframeLoop_ranges a frame hreg vs v1
        { p := zerorange a [] frame 0 0, lo := v1.Xoffset, hi := v1.Xoffset + v1.Size,
          calls := [] ++ [⟨frame, 0, 0⟩] }
        hgood hbelow rfl (Int.le_refl _)
        (by
          intro c hc
          simp only [List.nil_append, List.mem_singleton] at hc
          left
          rw [hc])
    have hc0mem : c0 ∈ all := by rw [hall]; exact List.mem_cons_self _ _
    have hc0lo2 : c0.lo ≤ v1.Xoffset := hc0lo
    have hc0hi2 : c0.hi = v1.Xoffset + v1.Size := hc0hi
    refine ⟨s2, hrun, ?_, ?_⟩
    · intro v hv
      rw [hcalls]
      rcases List.mem_cons.mp hv with hv | hv
      · rw [hv]
        exact ⟨c0, List.mem_append_right _ hc0mem, (covers_iff _ _).mpr ⟨hc0lo2, by omega⟩⟩
      · obtain ⟨c, hc, hcov⟩ := hB v hv
        exact ⟨c, List.mem_append_right _ hc, hcov⟩
    · intro pre u w post h
      rw [hcalls]
      exact hP pre u w post h

/-- C24: for sizes of pointer and register that `gc.Rnd` accepts, and a
declaration list sorted in decreasing `Xoffset` order whose needzero variables
are pairwise non-overlapping automatic variables of non-zero, pointer-aligned
size and pointer-aligned offset, within the `int64` range: `defframe` does not
fail; the code it appends is that of the calls of `zerorange` it makes; the
interval `[Xoffset, Xoffset+Size)` of every needzero variable is contained in
the interval `[lo, hi)` of one of these calls; two successive needzero
variables are contained in the interval of one same call exactly when the
later one ends at or above the current `lo`, the offset of the earlier one,
minus `2*Widthreg`; and the result is the same for every declaration list with
the same needzero variables, in the same order. -/
theorem defframe_zero_ranges (a : Arch) (fn : Fn) (sz : Int)
    (hptr : validWidth a.Widthptr) (hreg : validWidth a.Widthreg)
    (hsorted : sortedDecreasing fn.Dcl) (hdisj : nonOverlapping fn.Dcl)
    (hvars : ∀ n ∈ fn.Dcl, n.Needzero = true → zeroable a n ∧ withinInt64 a n) :
    ∃ r, defframe a fn sz = .ok r ∧
      r.code = r.calls.foldl (fun p c => zerorange a p c.frame c.lo c.hi) [] ∧
      (∀ n ∈ fn.Dcl, n.Needzero = true → ∃ c ∈ r.calls, covers c n) ∧
      (∀ pre u w post, fn.Dcl.filter (fun n => n.Needzero) = pre ++ u :: w :: post →
        ((∃ c ∈ r.calls, covers c u ∧ covers c w) ↔ mergesWith a u w)) ∧
      (∀ dcl, dcl.filter (fun n => n.Needzero) = fn.Dcl.filter (fun n => n.Needzero) →
        defframe a { fn with Dcl := dcl } sz = .ok r) := by
  obtain ⟨argWidth, harg⟩ := Rnd_ok fn.ArgWidth a.Widthptr hptr
  obtain ⟨size, hsize⟩ := Rnd_ok sz a.Widthreg hreg
  have hgood : ∀ n ∈ fn.Dcl.filter (fun n => n.Needzero),
      n.Needzero = true ∧ zeroable a n ∧ withinInt64 a n := by
    intro n hn
    obtain ⟨hm, hnz⟩ := List.mem_filter.mp hn
    exact ⟨hnz, hvars n hm hnz⟩
  obtain ⟨s2, hrun, hB, hP⟩ := defframeLoop_initial a (size % 2 ^ 32) hreg _ hgood
    (needzero_below a fn.Dcl hsorted hdisj hvars)
  rw [← defframeLoop_filter] at hrun
  have hcode := defframeLoop_code a _ _ _ _ hrun rfl
  have hres : defframe a fn sz = .ok
      { textToVal := (argWidth + 2 ^ 31) % 2 ^ 32 - 2 ^ 31,
        textToOffset := size % 2 ^ 32,
        code := zerorange a s2.p (size % 2 ^ 32) s2.lo s2.hi,
        calls := s2.calls ++ [⟨size % 2 ^ 32, s2.lo, s2.hi⟩] } := by
    unfold defframe
    rw [harg, hsize]
    simp only
    rw [hrun]
  refine ⟨_, hres, ?_, ?_, hP, ?_⟩
  · simp only [List.foldl_append, List.foldl_cons, List.foldl_nil]
    rw [← hcode]
  · intro n hn hnz
    exact hB n (List.mem_filter.mpr ⟨hn, hnz⟩)
  · intro dcl hdcl
    rw [defframe_filter a fn sz dcl hdcl]
    exact hres

/-- C24 witness: with 8-byte pointers and registers, the needzero variables at
`[-8, 0)` and `[-32, -24)` are zeroed by one call, for `[-32, 0)`, the one at
`[-64, -56)` by a call of its own, and the variable without needzero at
`[-16, -8)` makes no difference. -/
theorem defframe_zero_ranges_three_variables :
    ∃ r, defframe exArch exFn 72 = .ok r ∧
      r.calls = [⟨72, 0, 0⟩, ⟨72, -32, 0⟩, ⟨72, -64, -56⟩] ∧
      r.code = [.addvConstSPRT1 40, .duffzero 992, .movvZeroSP 16] ∧
      (∀ n ∈ exFn.Dcl, n.Needzero = true → ∃ c ∈ r.calls, covers c n) ∧
      mergesWith exArch ⟨true, .PAUTO, -8, 8⟩ ⟨true, .PAUTO, -32, 8⟩ ∧
      ¬ mergesWith exArch ⟨true, .PAUTO, -32, 8⟩ ⟨true, .PAUTO, -64, 8⟩ ∧
      defframe exArch { exFn with Dcl := exFn.Dcl.filter (fun n => n.Needzero) } 72 = .ok r := by
  obtain ⟨r, hr, hcode, hcov, hpair, hsame⟩ := defframe_zero_ranges exArch exFn 72
    (by unfold validWidth; decide) (by unfold validWidth; decide)
    (by unfold sortedDecreasing; decide) (by unfold nonOverlapping; decide)
    (by unfold zeroable withinInt64; decide)
  have hcalls : (defframe exArch exFn 72).toOption.map (fun r => r.calls) =
      some [⟨72, 0, 0⟩, ⟨72, -32, 0⟩, ⟨72, -64, -56⟩] := by decide
  have hprog : (defframe exArch exFn 72).toOption.map (fun r => r.code) =
      some [.addvConstSPRT1 40, .duffzero 992, .movvZeroSP 16] := by decide
  rw [hr] at hcalls hprog
  simp only [Except.toOption, Option.map_some', Option.some.injEq] at hcalls hprog
  refine ⟨r, hr, hcalls, hprog, hcov, ?_, ?_, hsame _ ?_⟩
  · rw [mergesWith_iff]
    decide
  · rw [mergesWith_iff]
    decide
  · simp

end Mips64
